import Mathlib

/-!
Verification of the grid-cli device I/O and configuration-transfer engine.

Each section embeds one component of the source (framer, retry loop,
fetch loop, page filters, device state, heartbeat handling, response
waiter, config reader/writer) as executable Lean definitions, and proves
the specified properties about them.
-/

namespace GridCli

/-! ## Framer (src/serial/framer.ts)

`MessageFramer._transform` accumulates bytes in a buffer and repeatedly
extracts the longest prefix ending right before a NEWLINE whose byte three
positions earlier is EOT; the buffer then advances past the newline.
Bytes are modelled as `Nat`, buffers as `List Nat`.
-/

def EOT : Nat := 0x04

def NEWLINE : Nat := 0x0a

def MAX_BUFFER_SIZE : Nat := 1024 * 1024

/-- The delimiter test of the scan loop: `buffer[i] === NEWLINE && buffer[i-3] === EOT`
(the loop starts at `i = 3`, expressed here by the `3 ≤ i` guard). -/
def delimAt (buf : List Nat) (i : Nat) : Bool :=
  decide (3 ≤ i) && (buf[i]? == some NEWLINE) && (buf[i - 3]? == some EOT)

/-- Linear scan for the first index `i` in `[start, start+n)` satisfying `p`. -/
def findFrom (p : Nat → Bool) : Nat → Nat → Option Nat
  | _, 0 => none
  | i, n + 1 => if p i then some i else findFrom p (i + 1) n

/-- First delimiter position in the buffer (the `messageEnd` of the source loop). -/
def findDelim (buf : List Nat) : Option Nat :=
  findFrom (delimAt buf) 0 buf.length

/-- One fuelled pass of the inner `while` loop of `_transform`: emit messages as
long as a delimiter is found. The fuel is instantiated with the buffer length,
which bounds the number of iterations since each iteration drops at least one byte. -/
def drainBuffer : Nat → List Nat → List (List Nat) × List Nat
  | 0, buf => ([], buf)
  | fuel + 1, buf =>
    match findDelim buf with
    | none => ([], buf)
    | some i =>
      let res := drainBuffer fuel (buf.drop (i + 1))
      (buf.take i :: res.1, res.2)

/-- The message-extraction loop of `_transform` on a full buffer. -/
def processBuffer (buf : List Nat) : List (List Nat) × List Nat :=
  drainBuffer buf.length buf

/-- `MessageFramer._transform`: append the chunk, error out on overflow,
otherwise extract all complete messages. -/
def framerTransform (buffer chunk : List Nat) :
    Except Unit (List (List Nat) × List Nat) :=
  let buf := buffer ++ chunk
  if MAX_BUFFER_SIZE < buf.length then .error ()
  else .ok (processBuffer buf)

/-- Feed a sequence of chunks through the framer, collecting emitted messages. -/
def feedAll : List (List Nat) → List Nat → Except Unit (List (List Nat) × List Nat)
  | [], buf => .ok ([], buf)
  | c :: cs, buf =>
    match framerTransform buf c with
    | .error e => .error e
    | .ok (ms, buf') =>
      match feedAll cs buf' with
      | .error e => .error e
      | .ok (ms', buf'') => .ok (ms ++ ms', buf'')

/-- Outbound framing (`frameMessage`): append a single newline. -/
def frameOf (payload : List Nat) : List Nat := payload ++ [NEWLINE]

/-- A well-formed frame payload: at least three bytes, contains no newline
byte, and its third-to-last byte is EOT (the spot checked by the framer;
the two bytes after it are the checksum owned by the lower codec). -/
def WFPayload (p : List Nat) : Prop :=
  3 ≤ p.length ∧ NEWLINE ∉ p ∧ p[p.length - 3]? = some EOT

instance (p : List Nat) : Decidable (WFPayload p) := by
  unfold WFPayload; infer_instance

/-! ## Data model (src/device/types.ts) -/

/-- An `Action`: short tag, optional display name, script body. -/
structure Action where
  short : String
  name : Option String
  code : String
  deriving DecidableEq

structure EventConfig where
  elementIndex : Nat
  eventType : Nat
  actions : List Action
  deriving DecidableEq

structure PageConfig where
  pageNumber : Nat
  events : List EventConfig
  deriving DecidableEq

structure Firmware where
  major : Int
  minor : Int
  patch : Int
  deriving DecidableEq

structure ModuleInfo where
  dx : Int
  dy : Int
  type : String
  typeId : Int
  firmware : Firmware
  elementCount : Nat
  deriving DecidableEq

structure ModuleConfig where
  module : ModuleInfo
  pages : List PageConfig
  deriving DecidableEq

/-! ## Retry loop (src/device/device.ts, `sendAndWait`)

`sendAndWait` loops: on a `TimeoutError` with `attempt < retries` it retries
after a delay; any other error, or a timeout past the budget, surfaces.
The outcome of each attempt (what the waiter for that attempt would produce)
is abstracted as a function from the attempt index. -/

inductive AttemptOutcome (α : Type) where
  | success (m : α)
  | timeout
  | failure
  deriving DecidableEq

/-- The retry loop with `remaining` retries left: at zero budget the attempt
outcome surfaces as is; otherwise a timeout consumes one retry. -/
def sendAndWaitAux (outcomes : Nat → AttemptOutcome α) : Nat → Nat → AttemptOutcome α
  | 0, attempt => outcomes attempt
  | r + 1, attempt =>
    match outcomes attempt with
    | .timeout => sendAndWaitAux outcomes r (attempt + 1)
    | o => o

/-- `sendAndWait` with a given retry budget (attempt counter starts at 0). -/
def sendAndWaitRun (outcomes : Nat → AttemptOutcome α) (retries : Nat) : AttemptOutcome α :=
  sendAndWaitAux outcomes retries 0

/-- Number of attempts the loop makes before returning. -/
def attemptsUsedAux (outcomes : Nat → AttemptOutcome α) : Nat → Nat → Nat
  | 0, attempt => attempt + 1
  | r + 1, attempt =>
    match outcomes attempt with
    | .timeout => attemptsUsedAux outcomes r (attempt + 1)
    | _ => attempt + 1

def attemptsUsed (outcomes : Nat → AttemptOutcome α) (retries : Nat) : Nat :=
  attemptsUsedAux outcomes retries 0

def isTimeout : AttemptOutcome α → Bool
  | .timeout => true
  | _ => false

/-- Retry budget passed by `fetchEventConfig` (`sendAndWait(..., DEFAULT_TIMEOUT, 1)`). -/
def fetchEventConfigRetries : Nat := 1

/-- Retry budget passed by `sendEventConfig` (`sendAndWait(..., 10000, 2)`). -/
def sendEventConfigRetries : Nat := 2

/-- Retry budget passed by `changePage` (`sendAndWait(..., 1500, 0)`). -/
def changePageRetries : Nat := 0

/-- Retry budget passed by `eraseNvm` (`sendAndWait(..., 15000, 0)`). -/
def eraseNvmRetries : Nat := 0

/-- Retry budget passed by `storeToFlash` (`sendAndWait(..., 10000, 1)`). -/
def storeToFlashRetries : Nat := 1

/-! ## Event fetch loop (src/device/device.ts, `fetchModuleConfig`) -/

/-- Result of one `fetchEventConfig` call: the parsed actions and a flag
distinguishing a communication failure from a genuinely empty binding. -/
structure FetchResult where
  actions : List Action
  failed : Bool

/-- `Math.max(5, Math.floor(totalEvents * 0.1))`; the floor of `0.1 × n` is
modelled as natural division by ten (exact for every event count that can
arise here). -/
def maxFailuresOf (totalEvents : Nat) : Nat := max 5 (totalEvents / 10)

/-- Page numbers enumerated by `fetchModuleConfig`: `0..3` filtered by the
include set if given, else by the exclude set if given. -/
def fetchPageNumbers (includePages excludePages : Option (List Nat)) : List Nat :=
  (List.range 4).filter fun page =>
    match includePages with
    | some s => s.contains page
    | none =>
      match excludePages with
      | some s => !(s.contains page)
      | none => true

/-- The `(element, eventType)` pairs visited per page: elements in index order,
each with its element-type's supported events in descriptor order. -/
def elementEventPairs (elementIndices : List Nat) (elementType : Nat → String)
    (supportedEvents : String → List Nat) : List (Nat × Nat) :=
  elementIndices.flatMap fun el =>
    (supportedEvents (elementType el)).map fun ev => (el, ev)

/-- `eventsPerPage`: the reduce-sum over the element indices. -/
def eventsPerPage (elementIndices : List Nat) (elementType : Nat → String)
    (supportedEvents : String → List Nat) : Nat :=
  elementIndices.foldl (fun sum el => sum + (supportedEvents (elementType el)).length) 0

/-- Inner loop over one page's `(element, eventType)` pairs, threading the
failure counter; aborts (`ProtocolUnstable`) as soon as the counter passes
the threshold right after an increment. -/
def fetchEventsGo (res : Nat → Nat → Nat → FetchResult) (maxF page : Nat) :
    List (Nat × Nat) → Nat → Except Unit (List EventConfig × Nat)
  | [], failedCount => .ok ([], failedCount)
  | pe :: rest, failedCount =>
    let r := res page pe.1 pe.2
    let failedCount2 := if r.failed then failedCount + 1 else failedCount
    if r.failed = true ∧ maxF < failedCount2 then .error ()
    else
      match fetchEventsGo res maxF page rest failedCount2 with
      | .error e => .error e
      | .ok (es, f) => .ok (⟨pe.1, pe.2, r.actions⟩ :: es, f)

/-- Outer loop over the enumerated pages. -/
def fetchPagesGo (res : Nat → Nat → Nat → FetchResult) (maxF : Nat)
    (pairs : List (Nat × Nat)) : List Nat → Nat → Except Unit (List PageConfig)
  | [], _ => .ok []
  | page :: pagesRest, failedCount =>
    match fetchEventsGo res maxF page pairs failedCount with
    | .error e => .error e
    | .ok (events, f) =>
      match fetchPagesGo res maxF pairs pagesRest f with
      | .error e => .error e
      | .ok ps => .ok (⟨page, events⟩ :: ps)

/-- `fetchModuleConfig` at the level of its page/element/event loops. `res`
gives the outcome of each individual `fetchEventConfig` call. -/
def fetchModuleConfigModel (res : Nat → Nat → Nat → FetchResult)
    (elementIndices : List Nat) (elementType : Nat → String)
    (supportedEvents : String → List Nat)
    (includePages excludePages : Option (List Nat)) : Except Unit (List PageConfig) :=
  let pageNumbers := fetchPageNumbers includePages excludePages
  let pairs := elementEventPairs elementIndices elementType supportedEvents
  let totalEvents := eventsPerPage elementIndices elementType supportedEvents * pageNumbers.length
  fetchPagesGo res (maxFailuresOf totalEvents) pairs pageNumbers 0

/-- Number of failing fetches over the whole enumeration. -/
def totalFailed (res : Nat → Nat → Nat → FetchResult) (pages : List Nat)
    (pairs : List (Nat × Nat)) : Nat :=
  (pages.map fun pg => pairs.countP fun pe => (res pg pe.1 pe.2).failed).sum

/-- The page filter applied by the push path to each module's page list. -/
def pushFilteredPages (includePages excludePages : Option (List Nat))
    (pages : List PageConfig) : List PageConfig :=
  pages.filter fun page =>
    match includePages with
    | some s => s.contains page.pageNumber
    | none =>
      match excludePages with
      | some s => !(s.contains page.pageNumber)
      | none => true

/-! ## Page-change / store-to-flash latch (src/device/device.ts) -/

/-- The `pageChangeDisabled` latch is the only piece of device state these
operations touch. -/
structure DeviceState where
  pageChangeDisabled : Bool
  deriving DecidableEq

/-- `storeToFlash`: sends PAGESTORE and awaits the ACK (outcome abstracted as
`ok`); its body never assigns `pageChangeDisabled`. -/
def storeToFlashStep (ok : Bool) (s : DeviceState) : Except Unit Unit × DeviceState :=
  (if ok then .ok () else .error (), s)

/-- The latch-handling prelude of `changePage`: when the latch is set and the
target page is positive, store first and clear the latch only if the store
succeeded. -/
def changePagePrelude (storeOk : Bool) (pageNumber : Nat) (s : DeviceState) : DeviceState :=
  if s.pageChangeDisabled = true ∧ 0 < pageNumber then
    match storeToFlashStep storeOk s with
    | (.ok _, s2) => { s2 with pageChangeDisabled := false }
    | (.error _, s2) => s2
  else s

/-! ## Heartbeat handling (the `handleHeartbeat` of the active device module,
which resolves the type name from the full HWCFG first) -/

/-- A protocol parameter value as decoded from the wire: a number or a string.
Numbers are modelled as integers (all heartbeat fields are integral). -/
inductive PVal where
  | num (n : Int)
  | str (s : String)
  deriving DecidableEq

/-- `parseNumber`: finite numbers pass through; strings are trimmed and
parsed (modelled for integer literals); anything else is null. -/
def parseNumber : Option PVal → Option Int
  | some (.num n) => some n
  | some (.str s) => if s.trim = "" then none else s.trim.toInt?
  | none => none

/-- The `MODULE_TYPES` table (keys 0..5 and 127). -/
def MODULE_TYPES (n : Int) : Option String :=
  if n = 0 then some "PO16"
  else if n = 1 then some "BU16"
  else if n = 2 then some "PBF4"
  else if n = 3 then some "EN16"
  else if n = 4 then some "EF44"
  else if n = 5 then some "TEK2"
  else if n = 127 then some "KNOT"
  else none

/-- Wrapper over the external `grid.module_type_from_hwcfg`: only a non-empty
string counts as a result. `ext` stands for the external lookup. -/
def getModuleTypeFromHwcfg (ext : Int → Option String) (hwcfg : Int) : Option String :=
  match ext hwcfg with
  | some t => if 0 < t.length then some t else none
  | none => none

/-- `hwcfg & 0x7f` (JS bitwise AND on 32-bit integers equals the nonnegative
remainder mod 128 here). -/
def hwcfgMask (hwcfg : Int) : Int := hwcfg % 128

/-- The type-name resolution chain of `handleHeartbeat`:
`getModuleTypeFromHwcfg(hwcfg) || MODULE_TYPES[hwcfg & 0x7f] || Unknown(hwcfg)`. -/
def heartbeatTypeName (ext : Int → Option String) (hwcfg : Int) : String :=
  match getModuleTypeFromHwcfg ext hwcfg with
  | some t => t
  | none =>
    match MODULE_TYPES (hwcfgMask hwcfg) with
    | some t => t
    | none => "Unknown(" ++ toString hwcfg ++ ")"

structure HeartbeatMsg where
  SX : Option PVal
  SY : Option PVal
  HWCFG : Option PVal
  VMAJOR : Option PVal
  VMINOR : Option PVal
  VPATCH : Option PVal

/-- `handleHeartbeat`: validate SX/SY/HWCFG, resolve the type name, default
the firmware fields to 0, build the inventory entry. Invalid heartbeats are
dropped (`none`). `elementCountOf` abstracts `getElementCount`. -/
def handleHeartbeat (ext : Int → Option String) (elementCountOf : String → Nat)
    (msg : HeartbeatMsg) : Option ModuleInfo :=
  match parseNumber msg.SX, parseNumber msg.SY, parseNumber msg.HWCFG with
  | some sx, some sy, some hwcfg =>
    some
      { dx := sx, dy := sy
        type := heartbeatTypeName ext hwcfg
        typeId := hwcfg
        firmware :=
          { major := (parseNumber msg.VMAJOR).getD 0
            minor := (parseNumber msg.VMINOR).getD 0
            patch := (parseNumber msg.VPATCH).getD 0 }
        elementCount := elementCountOf (heartbeatTypeName ext hwcfg) }
  | _, _, _ => none

/-! ## ResponseWaiter (src/protocol/waiter.ts) -/

/-- How a waiter's promise settled. -/
inductive WSettle (μ : Type) where
  | resolved (m : μ)
  | rejectedTimeout
  | rejectedCancel
  deriving DecidableEq

/-- Waiter state: the `settled` flag plus how the promise settled (if it did). -/
structure WaiterState (μ : Type) where
  settled : Bool
  settle : Option (WSettle μ)
  deriving DecidableEq

def initWaiter : WaiterState μ := ⟨false, none⟩

/-- `tryMatch`: returns false without resolving once settled; otherwise
resolves on a filter match. `matcher` abstracts `matchesFilter(·, filter)`. -/
def waiterTryMatch (matcher : μ → Bool) (m : μ) (s : WaiterState μ) :
    Bool × WaiterState μ :=
  if s.settled then (false, s)
  else if matcher m then (true, { settled := true, settle := some (.resolved m) })
  else (false, s)

/-- The timeout callback: rejects only if not yet settled. -/
def waiterTimeoutFire (s : WaiterState μ) : WaiterState μ :=
  if s.settled then s else { settled := true, settle := some .rejectedTimeout }

/-- `cancel`: rejects with Cancelled only if not yet settled. -/
def waiterCancel (s : WaiterState μ) : WaiterState μ :=
  if s.settled then s else { settled := true, settle := some .rejectedCancel }

inductive WaiterEvent (μ : Type) where
  | msg (m : μ)
  | timeout
  | cancel

def waiterStep (matcher : μ → Bool) (s : WaiterState μ) : WaiterEvent μ → WaiterState μ
  | .msg m => (waiterTryMatch matcher m s).2
  | .timeout => waiterTimeoutFire s
  | .cancel => waiterCancel s

def runWaiter (matcher : μ → Bool) (evts : List (WaiterEvent μ)) (s : WaiterState μ) :
    WaiterState μ :=
  evts.foldl (waiterStep matcher) s

/-! ## fetchEventConfig outcome (src/device/device.ts) -/

/-- `SCRIPT_START`/`SCRIPT_END` and `unwrapScript` from the codec. -/
def SCRIPT_START : String := "<?lua "

def SCRIPT_END : String := " ?>"

def unwrapScript (w : String) : String :=
  if w.startsWith SCRIPT_START ∧ w.endsWith SCRIPT_END then
    ((w.drop SCRIPT_START.length).dropRight SCRIPT_END.length)
  else w

/-- JS falsiness of a parameter value (`!actionString`). -/
def jsFalsy : PVal → Bool
  | .num n => n == 0
  | .str s => s == ""

/-- The outcome computation of `fetchEventConfig`, as a function of the
`sendAndWait` result (`.error` = write failure or exhausted retries) and of
the ACTIONSTRING class parameter of the CONFIG/REPORT response. `parse` is
the embedded `parseDeviceFormat` (an `.error` models its thrown
`ScriptTooLarge`, which the surrounding try/catch also turns into a failed
fetch). -/
def fetchEventConfigOutcome (parse : String → Except Unit (List Action))
    (response : Except Unit (Option PVal)) : List Action × Bool :=
  match response with
  | .error _ => ([], true)
  | .ok actionString =>
    match actionString with
    | none => ([], false)
    | some v =>
      if jsFalsy v then ([], false)
      else
        match v with
        | .str s =>
          match parse (unwrapScript s) with
          | .ok acts => (acts, false)
          | .error _ => ([], true)
        | .num _ => ([], true)

/-! ## Default-collapse on write (src/config/writer.ts) -/

/-- JS `\s` whitespace on the characters that can occur in these scripts. -/
def isJsWs (c : Char) : Bool :=
  c == ' ' || c == '\t' || c == '\n' || c == '\r' ||
    c == Char.ofNat 11 || c == Char.ofNat 12

/-- `replace(/\s+/g, " ")`: collapse each maximal whitespace run to a single
space. The flag records whether the previous character was part of a run. -/
def collapseWsAux : Bool → List Char → List Char
  | _, [] => []
  | prevWs, c :: cs =>
    if isJsWs c then
      if prevWs then collapseWsAux true cs else ' ' :: collapseWsAux true cs
    else c :: collapseWsAux false cs

def trimSpacesList (l : List Char) : List Char :=
  ((l.dropWhile (· == ' ')).reverse.dropWhile (· == ' ')).reverse

/-- `normalizeCode`: collapse whitespace runs to single spaces, then trim. -/
def normalizeCode (s : String) : String :=
  ⟨trimSpacesList (collapseWsAux false s.data)⟩

/-- `left.name ?? ""`. -/
def nameOrEmpty : Option String → String
  | some s => s
  | none => ""

/-- `actionsMatch`: structural equality of action lists up to whitespace
normalization of the code. -/
def actionsMatch (a b : List Action) : Bool :=
  a.length == b.length &&
    (a.zip b).all fun lr =>
      lr.1.short == lr.2.short &&
        nameOrEmpty lr.1.name == nameOrEmpty lr.2.name &&
        normalizeCode lr.1.code == normalizeCode lr.2.code

/-- `elementTypes.get(i) || "button"`. -/
def elementTypeOrButton (elementTypes : Nat → Option String) (i : Nat) : String :=
  match elementTypes i with
  | some t => if t = "" then "button" else t
  | none => "button"

/-- The per-event filter of `writeConfig`: drop events with no actions and
events whose actions structurally match the element-type's default. -/
def keepEvent (elementTypes : Nat → Option String)
    (getDefault : String → Nat → Option (List Action)) (e : EventConfig) : Bool :=
  if e.actions.length = 0 then false
  else
    match getDefault (elementTypeOrButton elementTypes e.elementIndex) e.eventType with
    | some d => !(actionsMatch e.actions d)
    | none => true

/-- Stable insertion into a sorted list: `x` goes before the first element
not strictly below it (models the stability of `Array.prototype.sort`). -/
def insertSorted (lt : α → α → Bool) (x : α) : List α → List α
  | [] => [x]
  | y :: ys => if lt y x then y :: insertSorted lt x ys else x :: y :: ys

/-- Stable sort by a strict comparator (JS `sort` with a numeric
comparator: negative exactly on the `lt` pairs). -/
def stableSort (lt : α → α → Bool) : List α → List α
  | [] => []
  | x :: xs => insertSorted lt x (stableSort lt xs)

/-- The strict part of the `(elementIndex, eventType)` comparator of the
event sort in `writeConfig`. -/
def eventLt (a b : EventConfig) : Bool :=
  a.elementIndex < b.elementIndex ||
    (a.elementIndex == b.elementIndex && a.eventType < b.eventType)

/-- The event blocks written for one page: filter, then sort by
`(elementIndex, eventType)`. -/
def writtenEvents (elementTypes : Nat → Option String)
    (getDefault : String → Nat → Option (List Action))
    (events : List EventConfig) : List EventConfig :=
  stableSort eventLt (events.filter (keepEvent elementTypes getDefault))

/-! ## Text utilities for the on-disk codec

File contents are modelled as `List Char`; splitting on newlines models the
JS `content.split("\n")`, joining models `lines.join("\n")`. -/

/-- `s.split("\n")`. -/
def splitNl : List Char → List (List Char)
  | [] => [[]]
  | c :: rest =>
    if c = '\n' then [] :: splitNl rest
    else
      match splitNl rest with
      | l :: ls => (c :: l) :: ls
      | [] => [[c]]

/-- `lines.join("\n")`. -/
def joinNl : List (List Char) → List Char
  | [] => []
  | [l] => l
  | l :: rest => l ++ '\n' :: joinNl rest

/-- JS `trim` on the character list (ASCII whitespace as used here). -/
def jsTrimC (l : List Char) : List Char :=
  ((l.dropWhile isJsWs).reverse.dropWhile isJsWs).reverse

/-- JS `trimEnd`. -/
def jsTrimEndC (l : List Char) : List Char :=
  (l.reverse.dropWhile isJsWs).reverse

/-- `^\s*$`. -/
def isBlankLine (l : List Char) : Bool := l.all isJsWs

/-- Decimal digit character. -/
def digitChar (n : Nat) : Char := Char.ofNat (48 + n)

def digitVal (c : Char) : Option Nat :=
  if 48 ≤ c.toNat ∧ c.toNat ≤ 57 then some (c.toNat - 48) else none

/-- Decimal rendering of a natural number (the template-string `${n}`),
fuelled for structural recursion. -/
def natDecGo : Nat → Nat → List Char
  | 0, _ => []
  | fuel + 1, n => if n < 10 then [digitChar n] else natDecGo fuel (n / 10) ++ [digitChar (n % 10)]

def natDec (n : Nat) : List Char := natDecGo (n + 1) n

/-- `Number(s)` followed by the `Number.isInteger` check, modelled for the
nonnegative decimal integer literals this codec writes and the wire allows. -/
def decNat (l : List Char) : Option Nat :=
  if l.isEmpty then none
  else
    l.foldl
      (fun acc c =>
        match acc, digitVal c with
        | some a, some d => some (a * 10 + d)
        | _, _ => none)
      (some 0)

/-- `startsWith` on character lists. -/
def hasPrefixC : List Char → List Char → Bool
  | [], _ => true
  | _ :: _, [] => false
  | p :: ps, c :: cs => p == c && hasPrefixC ps cs

/-! ## Event descriptors (src/device/events.ts)

`getEventDescriptors` consults the external protocol's per-element-type
event table when available and falls back to the static tables. The
external table entry's `defaultConfig` is carried here already parsed to an
action list (`parseDeviceFormat(unwrapScript(defaultConfig))` is shared
verbatim between reader and writer, so the round trip only depends on its
result). -/

/-- One entry of the external `getElementEvents` result: `name` is
`String(event.desc ?? "")` (possibly empty), `key` is present only when a
string. -/
structure ProtoEvent where
  name : String
  key : Option String
  value : Nat
  defaultActions : Option (List Action)

structure EventDescriptor where
  name : String
  value : Nat
  defaultActions : Option (List Action)

/-- The `ELEMENT_EVENTS` fallback table. -/
def ELEMENT_EVENTS (et : String) : Option (List Nat) :=
  if et = "button" then some [0, 3, 6, 5, 4]
  else if et = "encoder" then some [0, 2, 3, 6, 5, 4]
  else if et = "potmeter" then some [0, 1, 6, 5, 4]
  else if et = "fader" then some [0, 1, 6, 5, 4]
  else if et = "system" then some [0, 6, 5, 4]
  else none

/-- The `EVENT_NAMES` table. -/
def EVENT_NAMES (n : Nat) : Option String :=
  if n = 0 then some "init"
  else if n = 1 then some "potmeter"
  else if n = 2 then some "encoder"
  else if n = 3 then some "button"
  else if n = 4 then some "mapmode"
  else if n = 5 then some "midirx"
  else if n = 6 then some "timer"
  else none

/-- `Object.entries(EVENT_NAMES)` in ascending key order. -/
def EVENT_NAMES_ENTRIES : List (Nat × String) :=
  [(0, "init"), (1, "potmeter"), (2, "encoder"), (3, "button"),
   (4, "mapmode"), (5, "midirx"), (6, "timer")]

def isLowerAlnum (c : Char) : Bool :=
  ('a' ≤ c && c ≤ 'z') || ('0' ≤ c && c ≤ '9')

/-- `name.toLowerCase().replace(/[^a-z0-9]+/g, "")`. -/
def normalizeEventName (s : String) : String :=
  ⟨(s.data.map Char.toLower).filter isLowerAlnum⟩

/-- `EVENT_NAME_ALIASES` looked up on the normalized name (the table's
`"midi rx"` key contains a space and can never match a normalized name). -/
def EVENT_NAME_ALIASES (s : String) : Option String :=
  if s = "setup" then some "init"
  else if s = "midirx" then some "midirx"
  else if s = "utility" then some "mapmode"
  else if s = "map" then some "mapmode"
  else none

def canonicalEventName (s : String) : String :=
  let n := normalizeEventName s
  (EVENT_NAME_ALIASES n).getD n

/-- JS `a || b` on strings with `""` falsy. -/
def jsOrStr (a : String) (b : String) : String := if a = "" then b else a

def jsOrOptStr (a : Option String) (b : String) : String :=
  match a with
  | some s => jsOrStr s b
  | none => b

def fallbackDescriptors (et : String) : List EventDescriptor :=
  ((ELEMENT_EVENTS et).getD ((ELEMENT_EVENTS "button").getD [])).map fun v =>
    { name := (EVENT_NAMES v).getD ⟨natDec v⟩, value := v, defaultActions := none }

def getEventDescriptors (protoEvents : String → Option (List ProtoEvent))
    (et : String) : List EventDescriptor :=
  match protoEvents et with
  | some evs =>
    if 0 < evs.length then
      evs.map fun e =>
        let canonical := canonicalEventName (jsOrStr e.name (jsOrOptStr e.key ⟨natDec e.value⟩))
        { name := jsOrStr canonical ⟨natDec e.value⟩
          value := e.value
          defaultActions := e.defaultActions }
    else fallbackDescriptors et
  | none => fallbackDescriptors et

def getEventNameForType (protoEvents : String → Option (List ProtoEvent))
    (et : String) (ev : Nat) : String :=
  match (getEventDescriptors protoEvents et).find? (fun d => d.value = ev) with
  | some d => d.name
  | none => (EVENT_NAMES ev).getD ⟨natDec ev⟩

def getEventTypeFromName (protoEvents : String → Option (List ProtoEvent))
    (et name : String) : Option Nat :=
  let canonical := canonicalEventName name
  match (getEventDescriptors protoEvents et).find?
      (fun d => canonicalEventName d.name = canonical) with
  | some d => some d.value
  | none =>
    (EVENT_NAMES_ENTRIES.find? fun p => canonicalEventName p.2 = canonical).map (·.1)

/-- The default-actions resolver shared (as identical code) by reader and
writer: the per-event map collects descriptors carrying a default, later
entries overwriting earlier ones. -/
def getDefaultActions (protoEvents : String → Option (List ProtoEvent))
    (et : String) (ev : Nat) : Option (List Action) :=
  let entries := (getEventDescriptors protoEvents et).filterMap fun d =>
    d.defaultActions.map fun a => (d.value, a)
  (entries.reverse.find? fun p => p.1 = ev).map (·.2)

/-! ## Writer (src/config/writer.ts and src/config/formatter.ts) -/

/-- The element-type map built by `writeConfig`: indices of the protocol's
element list holding non-empty strings, else `elementCount` buttons. -/
def buildElementTypesW (protoElements : Option (List (Option String)))
    (elementCount : Nat) : List (Nat × String) :=
  let fromProto : List (Nat × String) :=
    match protoElements with
    | some l =>
      l.enum.filterMap fun p =>
        match p.2 with
        | some t => if t = "" then none else some (p.1, t)
        | none => none
    | none => []
  if fromProto.isEmpty then (List.range elementCount).map (fun i => (i, "button"))
  else fromProto

def lookupIdx (m : List (Nat × String)) (i : Nat) : Option String :=
  (m.find? fun p => p.1 = i).map (·.2)

def sepDashesLine : List Char :=
  "-- ------------------------------------------------------------".data

def sepEqualsLine : List Char :=
  "-- ============================================================".data

/-- The action header meta: `short#name` when a display name is present
(`action.name ? ... : ...`, so an empty name falls back to the bare short). -/
def metaOf (a : Action) : List Char :=
  match a.name with
  | some n => if n = "" then a.short.data else a.short.data ++ '#' :: n.data
  | none => a.short.data

def actionHeaderLine (a : Action) : List Char :=
  "--[[@".data ++ metaOf a ++ "]]".data

/-- The `-- action: <display> (<short>)` comment emitted when
`getActionDisplayName` yields a truthy name; `dn` abstracts that lookup. -/
def actionNameLines (dn : String → Option String) (a : Action) : List (List Char) :=
  match dn a.short with
  | some d =>
    if d = "" then []
    else ["-- action: ".data ++ d.data ++ " (".data ++ a.short.data ++ ")".data]
  | none => []

/-- The `lines` array built by `formatActionBlock` (the trimmed code is
pushed as a single, possibly multi-line entry; `first` is the loop's
first-action flag). -/
def actionBlockEntriesGo (dn : String → Option String) :
    Bool → List Action → List (List Char)
  | _, [] => []
  | first, a :: rest =>
    (if first then [] else [sepDashesLine]) ++ actionNameLines dn a ++
      [actionHeaderLine a] ++ [jsTrimC a.code.data] ++ [[]] ++
      actionBlockEntriesGo dn false rest

def actionBlockEntries (dn : String → Option String) (actions : List Action) :
    List (List Char) :=
  actionBlockEntriesGo dn true actions

/-- `formatActionBlock`: join the lines and trim trailing whitespace. -/
def formatActionBlock (dn : String → Option String) (actions : List Action) :
    List Char :=
  jsTrimEndC (joinNl (actionBlockEntries dn actions))

def humanizeActions (humanize : String → String) (actions : List Action) : List Action :=
  actions.map fun a => { a with code := humanize a.code }

def frontMatterLine (n : Nat) : List Char := "-- grid: page=".data ++ natDec n

def eventHeaderLineW (protoEvents : String → Option (List ProtoEvent))
    (et : String) (e : EventConfig) : List Char :=
  "-- grid:event element=".data ++ natDec e.elementIndex ++ " event=".data ++
    (getEventNameForType protoEvents et e.eventType).data

/-- The event-block entries of the `pageLines` array (`firstEvent` flag as
in the source loop). -/
def pageBlocksGo (dn : String → Option String) (humanize : String → String)
    (protoEvents : String → Option (List ProtoEvent)) (ets : List (Nat × String)) :
    Bool → List EventConfig → List (List Char)
  | _, [] => []
  | first, e :: rest =>
    (if first then [] else [sepEqualsLine, []]) ++
      [eventHeaderLineW protoEvents (elementTypeOrButton (lookupIdx ets) e.elementIndex) e] ++
      [formatActionBlock dn (humanizeActions humanize e.actions)] ++ [[]] ++
      pageBlocksGo dn humanize protoEvents ets false rest

/-- The `pageLines` array of `writeConfig` for one page (already filtered
and sorted event blocks). -/
def pageEntries (dn : String → Option String) (humanize : String → String)
    (protoEvents : String → Option (List ProtoEvent)) (ets : List (Nat × String))
    (blocks : List EventConfig) (pageNumber : Nat) : List (List Char) :=
  [frontMatterLine pageNumber] ++ [[]] ++
    pageBlocksGo dn humanize protoEvents ets true blocks

/-- `pageLines.join("\n").trimEnd() + "\n"`. -/
def pageContent (dn : String → Option String) (humanize : String → String)
    (protoEvents : String → Option (List ProtoEvent)) (ets : List (Nat × String))
    (blocks : List EventConfig) (pageNumber : Nat) : List Char :=
  jsTrimEndC (joinNl (pageEntries dn humanize protoEvents ets blocks pageNumber)) ++ ['\n']

/-- The sentinel `page-0.lua` written when every event is default. -/
def sentinelPageContent : List Char :=
  joinNl ["-- grid: page=0".data, [], "-- All events use default configuration".data] ++
    ['\n']

/-- The fields of `module.json` the reader consumes. -/
structure ModuleFileRec where
  position : Int × Int
  type : String
  typeId : Int
  firmware : Firmware
  elements : List (Nat × String)
  pages : List Nat
  deriving DecidableEq

/-- `writeConfig` for one module: the page files (keyed by page number; on
disk the key `N` appears as `page-N.lua`) and the manifest. -/
def writeModule (protoElements : Option (List (Option String)))
    (protoEvents : String → Option (List ProtoEvent))
    (dn : String → Option String) (humanize : String → String)
    (config : ModuleConfig) : List (Nat × List Char) × ModuleFileRec :=
  let ets := buildElementTypesW protoElements config.module.elementCount
  let written := config.pages.filterMap fun page =>
    let blocks := writtenEvents (lookupIdx ets) (getDefaultActions protoEvents) page.events
    if blocks.isEmpty then none
    else some (page.pageNumber, pageContent dn humanize protoEvents ets blocks page.pageNumber)
  let files := if written.isEmpty then [(0, sentinelPageContent)] else written
  (files,
   { position := (config.module.dx, config.module.dy)
     type := config.module.type
     typeId := config.module.typeId
     firmware := config.module.firmware
     elements := stableSort (fun a b => a.1 < b.1) ets
     pages := stableSort (fun a b => a < b) (files.map (·.1)) })

/-! ## Reader (src/config/reader.ts and src/config/parser.ts) -/

def isWordChar (c : Char) : Bool := c.isAlpha || c.isDigit || c == '_'

/-- `^\s*--\[\[@([^\]]+)\]\]\s*(.*)$` — the shorthand action header,
returning (meta, inline code). -/
def matchShorthand (line : List Char) : Option (List Char × List Char) :=
  let l1 := line.dropWhile isJsWs
  if hasPrefixC "--[[@".data l1 then
    let rest := l1.drop 5
    let meta := rest.takeWhile fun c => c ≠ ']'
    if meta.isEmpty then none
    else
      let after := rest.drop meta.length
      if hasPrefixC "]]".data after then some (meta, (after.drop 2).dropWhile isJsWs)
      else none
  else none

/-- `\s*\]\]\s*$`. -/
def legacyClose (r : List Char) : Bool :=
  let r1 := r.dropWhile isJsWs
  hasPrefixC "]]".data r1 && isBlankLine (r1.drop 2)

/-- The optional `\s+"([^"]*)"` of the legacy header. -/
def legacyQuoted (short : List Char) (r4 : List Char) :
    Option (List Char × Option (List Char)) :=
  match r4 with
  | c :: _ =>
    if isJsWs c then
      match r4.dropWhile isJsWs with
      | '"' :: r6 =>
        let nm := r6.takeWhile fun c => c ≠ '"'
        match r6.drop nm.length with
        | '"' :: r7 => if legacyClose r7 then some (short, some nm) else none
        | _ => none
      | _ => none
    else none
  | [] => none

/-- `^\s*--\[\[\s*@action\s+(\S+)(?:\s+"([^"]*)")?\s*\]\]\s*$` — the legacy
action header. -/
def matchLegacy (line : List Char) : Option (List Char × Option (List Char)) :=
  let l1 := line.dropWhile isJsWs
  if hasPrefixC "--[[".data l1 then
    let r1 := (l1.drop 4).dropWhile isJsWs
    if hasPrefixC "@action".data r1 then
      let r2 := r1.drop 7
      match r2 with
      | [] => none
      | c :: _ =>
        if isJsWs c then
          let r3 := r2.dropWhile isJsWs
          let short := r3.takeWhile fun c => !(isJsWs c)
          if short.isEmpty then none
          else
            let r4 := r3.drop short.length
            match legacyQuoted short r4 with
            | some res => some res
            | none => if legacyClose r4 then some (short, none) else none
        else none
    else none
  else none

/-- `/^\s*--\s*[-=]{3,}/`. -/
def isSepLine (line : List Char) : Bool :=
  let l1 := line.dropWhile isJsWs
  hasPrefixC "--".data l1 &&
    (let l2 := (l1.drop 2).dropWhile isJsWs
     3 ≤ (l2.takeWhile fun c => c == '-' || c == '=').length)

/-- The comment lines `parseLuaFile` drops from script bodies. -/
def isIgnoredLine (line : List Char) : Bool :=
  hasPrefixC "-- Grid Configuration".data line ||
    hasPrefixC "-- Module:".data line ||
    hasPrefixC "-- Element:".data line ||
    hasPrefixC "-- Event:".data line ||
    hasPrefixC "-- Page:".data line ||
    hasPrefixC "-- grid:".data line ||
    hasPrefixC "-- grid:event".data line ||
    hasPrefixC "-- action:".data line ||
    isSepLine line

/-- `meta.split(/#(.*)/, 2)`: the short before the first `#`, the optional
name after it. -/
def splitMeta (meta : List Char) : List Char × Option (List Char) :=
  let short := meta.takeWhile fun c => c ≠ '#'
  match meta.drop short.length with
  | '#' :: tail => (short, some tail)
  | _ => (short, none)

def flushAction (cur : Option (List Char × Option (List Char)))
    (codeLines : List (List Char)) (acc : List Action) : List Action :=
  match cur with
  | none => acc
  | some sn =>
    let code := jsTrimC (joinNl codeLines)
    if code.isEmpty then acc
    else acc ++ [{ short := ⟨sn.1⟩, name := sn.2.map fun n => ⟨n⟩, code := ⟨code⟩ }]

/-- The line loop of `parseLuaFile`. -/
def parseLuaGo : List (List Char) → Option (List Char × Option (List Char)) →
    List (List Char) → List Action → List Action
  | [], cur, codeLines, acc => flushAction cur codeLines acc
  | line :: rest, cur, codeLines, acc =>
    match matchShorthand line with
    | some mi =>
      let acc2 := flushAction cur codeLines acc
      parseLuaGo rest (some (splitMeta mi.1))
        (if (jsTrimC mi.2).isEmpty then [] else [mi.2]) acc2
    | none =>
      match matchLegacy line with
      | some sn =>
        let acc2 := flushAction cur codeLines acc
        parseLuaGo rest (some sn) [] acc2
      | none =>
        match cur with
        | none => parseLuaGo rest none codeLines acc
        | some c =>
          if !(isIgnoredLine line) && !(isBlankLine line) then
            parseLuaGo rest (some c) (codeLines ++ [line]) acc
          else if !(codeLines.isEmpty) && isBlankLine line then
            parseLuaGo rest (some c) (codeLines ++ [line]) acc
          else parseLuaGo rest (some c) codeLines acc

def parseLuaFile (content : List Char) : List Action :=
  parseLuaGo (splitNl content) none [] []

/-- `/^\s*--\s*grid:event\s/` — the front-matter scan's stop condition. -/
def fmEventBreak (line : List Char) : Bool :=
  let l1 := line.dropWhile isJsWs
  hasPrefixC "--".data l1 &&
    (let l2 := (l1.drop 2).dropWhile isJsWs
     hasPrefixC "grid:event".data l2 &&
       (match l2.drop 10 with
        | c :: _ => isJsWs c
        | [] => false))

/-- `parseFrontMatter`: the `-- grid: key=value` lines before the first
event marker; a missing `=`, empty key or empty value is fatal. -/
def parseFrontMatterGo : List (List Char) → List (List Char × List Char) →
    Except Unit (List (List Char × List Char))
  | [], acc => .ok acc
  | line :: rest, acc =>
    if fmEventBreak line then .ok acc
    else if !(hasPrefixC "-- grid:".data line) then parseFrontMatterGo rest acc
    else if hasPrefixC "-- grid:event".data line then .ok acc
    else
      let entry := jsTrimC (line.drop 8)
      let rawKey := entry.takeWhile fun c => c ≠ '='
      match entry.drop rawKey.length with
      | '=' :: tail =>
        let key := jsTrimC rawKey
        let value := jsTrimC tail
        if key.isEmpty || value.isEmpty then .error ()
        else parseFrontMatterGo rest (acc ++ [(key, value)])
      | _ => .error ()

/-- Record assignment semantics: the last write to a key wins. -/
def fmLookup (fm : List (List Char × List Char)) (k : List Char) : Option (List Char) :=
  (fm.reverse.find? fun p => p.1 = k).map (·.2)

/-- The `(\w+)=((?:"[^"]*")|\S+)` scan of an event-header tail, modelled for
the whitespace-separated `k=v` headers this codec writes and reads. -/
def scanKVGo : Nat → List Char → List (List Char × List Char) →
    List (List Char × List Char)
  | 0, _, acc => acc
  | fuel + 1, l, acc =>
    match l with
    | [] => acc
    | c :: rest =>
      if isWordChar c then
        let w := l.takeWhile isWordChar
        match l.drop w.length with
        | '=' :: vrest =>
          (match vrest with
           | '"' :: q =>
             let v := q.takeWhile fun c => c ≠ '"'
             (match q.drop v.length with
              | '"' :: more => scanKVGo fuel more (acc ++ [(w, '"' :: (v ++ ['"']))])
              | _ =>
                let v2 := vrest.takeWhile fun c => !(isJsWs c)
                scanKVGo fuel (vrest.drop v2.length) (acc ++ [(w, v2)]))
           | _ =>
             let v2 := vrest.takeWhile fun c => !(isJsWs c)
             if v2.isEmpty then scanKVGo fuel rest acc
             else scanKVGo fuel (vrest.drop v2.length) (acc ++ [(w, v2)]))
        | _ => scanKVGo fuel (l.drop w.length) acc
      else scanKVGo fuel rest acc

/-- Quoted values keep their quotes in the match and are stripped after. -/
def stripQuotes (v : List Char) : List Char :=
  if hasPrefixC ['"'] v && v.getLast? == some '"' then (v.drop 1).dropLast else v

def kvLookup (entries : List (List Char × List Char)) (k : List Char) :
    Option (List Char) :=
  match (entries.reverse.find? fun p => p.1 = k).map (·.2) with
  | some v => if v.isEmpty then none else some v
  | none => none

/-- `parseEventHeader`: requires truthy `element` (an integer) and `event`;
`elementType` is optional. -/
def parseEventHeader (raw : List Char) :
    Except Unit (Nat × Option (List Char) × List Char) :=
  let entries := (scanKVGo (raw.length + 1) raw []).map fun p => (p.1, stripQuotes p.2)
  match kvLookup entries "element".data, kvLookup entries "event".data with
  | some ev, some en =>
    (match decNat ev with
     | some i => .ok (i, kvLookup entries "elementType".data, en)
     | none => .error ())
  | _, _ => .error ()

/-- `/^\s*--\s*grid:event\s*(.*)$/` — the event-splitting regex of
`readPageFile`, returning the raw header tail. -/
def matchEventHeaderLine (line : List Char) : Option (List Char) :=
  let l1 := line.dropWhile isJsWs
  if hasPrefixC "--".data l1 then
    let l2 := (l1.drop 2).dropWhile isJsWs
    if hasPrefixC "grid:event".data l2 then some ((l2.drop 10).dropWhile isJsWs)
    else none
  else none

/-- One parsed event block of a page file. -/
structure RawEvent where
  elementIndex : Nat
  elementType : Option (List Char)
  eventName : List Char
  actions : List Action

def flushEvt (cur : Option (Nat × Option (List Char) × List Char))
    (block : List (List Char)) (acc : List RawEvent) : List RawEvent :=
  match cur with
  | none => acc
  | some m => acc ++ [⟨m.1, m.2.1, m.2.2, parseLuaFile (joinNl block)⟩]

/-- The event-splitting loop of `readPageFile`. -/
def splitEventsGo : List (List Char) → Option (Nat × Option (List Char) × List Char) →
    List (List Char) → List RawEvent → Except Unit (List RawEvent)
  | [], cur, block, acc => .ok (flushEvt cur block acc)
  | line :: rest, cur, block, acc =>
    match matchEventHeaderLine line with
    | some raw =>
      let acc2 := flushEvt cur block acc
      (match parseEventHeader raw with
       | .ok meta => splitEventsGo rest (some meta) [] acc2
       | .error e => .error e)
    | none =>
      match cur with
      | some c => splitEventsGo rest (some c) (block ++ [line]) acc
      | none => splitEventsGo rest none block acc

/-- Signed-integer parse for the `position` front-matter values. -/
def decInt (l : List Char) : Option Int :=
  match l with
  | '-' :: rest => (decNat rest).map fun n => -(n : Int)
  | _ => (decNat l).map fun n => (n : Int)

/-- `parsePosition`: `dx,dy` with both integers. -/
def parsePosition (v : List Char) : Except Unit (Int × Int) :=
  let dxRaw := v.takeWhile fun c => c ≠ ','
  match v.drop dxRaw.length with
  | ',' :: dyRaw =>
    if dyRaw.any (· = ',') then .error ()
    else
      match decInt (jsTrimC dxRaw), decInt (jsTrimC dyRaw) with
      | some dx, some dy => .ok (dx, dy)
      | _, _ => .error ()
  | _ => .error ()

/-- The result of `readPageFile`. -/
structure PageFileData where
  moduleName : Option (List Char)
  position : Option (List Char)
  pageNumber : Nat
  events : List RawEvent

/-- `readPageFile` on the content of `page-<filePage>.lua`: front matter,
page number (front matter wins, file name as fallback), event blocks. -/
def readPageFile (filePage : Nat) (content : List Char) : Except Unit PageFileData :=
  match parseFrontMatterGo (splitNl content) [] with
  | .error e => .error e
  | .ok fm =>
    let frontPage : Option Nat :=
      match fmLookup fm "page".data with
      | some v => decNat v
      | none => none
    let pageNumber := match frontPage with
      | some n => n
      | none => filePage
    match splitEventsGo (splitNl content) none [] [] with
    | .error e => .error e
    | .ok events =>
      .ok { moduleName := fmLookup fm "module".data
            position := fmLookup fm "position".data
            pageNumber := pageNumber
            events := events }

/-- Reader-side element-type map from the manifest (`type || "button"`,
later entries overwriting earlier ones). -/
def buildElementTypesR (elements : List (Nat × String)) : List (Nat × String) :=
  elements.map fun p => (p.1, jsOrStr p.2 "button")

def lookupIdxLast (m : List (Nat × String)) (i : Nat) : Option String :=
  (m.reverse.find? fun p => p.1 = i).map (·.2)

def hasIdx (m : List (Nat × String)) (i : Nat) : Bool :=
  m.any fun p => p.1 = i

structure OverrideEntry where
  page : Nat
  element : Nat
  eventType : Nat
  actions : List Action

/-- The per-file override collection of `readConfig`: skip unknown
elements, resolve the event type from its name (file element-type first,
manifest's otherwise), skip unknown names, record the override. -/
def collectFileOverrides (protoEvents : String → Option (List ProtoEvent))
    (elementTypes : List (Nat × String)) (pageNumber : Nat)
    (events : List RawEvent) : List OverrideEntry :=
  events.filterMap fun ev =>
    if hasIdx elementTypes ev.elementIndex then
      let moduleElementType :=
        elementTypeOrButton (lookupIdxLast elementTypes) ev.elementIndex
      let et := match ev.elementType with
        | some t => jsOrStr ⟨t⟩ moduleElementType
        | none => moduleElementType
      match getEventTypeFromName protoEvents et ⟨ev.eventName⟩ with
      | some eventType =>
        some ⟨pageNumber, ev.elementIndex, eventType, ev.actions⟩
      | none => none
    else none

/-- Later `set` calls win. -/
def overrideLookup (ovr : List OverrideEntry) (page element eventType : Nat) :
    Option (List Action) :=
  (ovr.reverse.find? fun o =>
    o.page = page ∧ o.element = element ∧ o.eventType = eventType).map (·.actions)

/-- Process the page files in order: front matter consistency against the
manifest is fatal, overrides and the page set accumulate. -/
def processFiles (protoEvents : String → Option (List ProtoEvent))
    (mf : ModuleFileRec) (elementTypes : List (Nat × String)) :
    List (Nat × List Char) → Except Unit (List OverrideEntry × List Nat)
  | [] => .ok ([], [])
  | (n, content) :: rest =>
    match readPageFile n content with
    | .error e => .error e
    | .ok pd =>
      let nameOk : Bool := match pd.moduleName with
        | some mn => (⟨mn⟩ : String) == mf.type
        | none => true
      if nameOk then
        match pd.position with
        | some pv =>
          (match parsePosition pv with
           | .error e => .error e
           | .ok pos =>
             if pos = mf.position then
               match processFiles protoEvents mf elementTypes rest with
               | .error e => .error e
               | .ok acc =>
                 .ok (collectFileOverrides protoEvents elementTypes pd.pageNumber
                     pd.events ++ acc.1, pd.pageNumber :: acc.2)
             else .error ())
        | none =>
          match processFiles protoEvents mf elementTypes rest with
          | .error e => .error e
          | .ok acc =>
            .ok (collectFileOverrides protoEvents elementTypes pd.pageNumber
                pd.events ++ acc.1, pd.pageNumber :: acc.2)
      else .error ()

/-- The page set: declared manifest pages plus any file pages missing from
them; the files' pages alone when the manifest declares none. -/
def buildPageSet (declared : List Nat) (fromFiles : List Nat) : List Nat :=
  if declared.isEmpty then fromFiles.dedup
  else declared.dedup ++ (fromFiles.dedup.filter fun p => !(declared.contains p))

/-- `readConfig` for one module directory. -/
def readModule (protoEvents : String → Option (List ProtoEvent))
    (mf : ModuleFileRec) (files : List (Nat × List Char)) :
    Except Unit ModuleConfig :=
  let moduleInfo : ModuleInfo :=
    { dx := mf.position.1, dy := mf.position.2, type := mf.type
      typeId := mf.typeId, firmware := mf.firmware
      elementCount := mf.elements.length }
  let elementTypes0 := buildElementTypesR mf.elements
  let elementTypes :=
    if elementTypes0.isEmpty ∧ 0 < moduleInfo.elementCount then
      (List.range moduleInfo.elementCount).map fun i => (i, "button")
    else elementTypes0
  match processFiles protoEvents mf elementTypes files with
  | .error e => .error e
  | .ok acc =>
    let pageSet := buildPageSet mf.pages acc.2
    if pageSet.isEmpty then .error ()
    else
      let sortedPages := stableSort (fun a b => a < b) pageSet
      let elementIndices :=
        stableSort (fun a b => a < b) (elementTypes.map (·.1)).dedup
      let pages := sortedPages.map fun pn =>
        (⟨pn, elementIndices.flatMap fun i =>
          let et := elementTypeOrButton (lookupIdxLast elementTypes) i
          (getEventDescriptors protoEvents et).map fun d =>
            (⟨i, d.value,
              (overrideLookup acc.1 pn i d.value).getD
                ((getDefaultActions protoEvents et d.value).getD [])⟩ : EventConfig)⟩ :
          PageConfig)
      .ok ⟨moduleInfo, pages⟩

/-! ## Round-trip: well-formedness conditions and the expected read-back

The fetch path produces action shorts/names without `]`, `#` (in shorts) or
newlines, and nonempty script bodies; the safety conditions below state
exactly which action contents survive the textual page-file format. -/

/-- A script-body line that the reader keeps verbatim: it is not an action
header (either shape), not an event marker, not one of the stripped comment
shapes, and not blank. -/
def safeCodeLine (l : List Char) : Prop :=
  matchShorthand l = none ∧ matchLegacy l = none ∧ matchEventHeaderLine l = none ∧
    isIgnoredLine l = false ∧ isBlankLine l = false

instance (l : List Char) : Decidable (safeCodeLine l) := by
  unfold safeCodeLine; infer_instance

/-- Well-formedness of one action with respect to the humanizer: the short
is nonempty and free of `]`, `#`, newlines; the name is free of `]` and
newlines; the humanized, trimmed code is nonempty and all its lines are
kept verbatim by the reader. -/
def WFAction (humanize : String → String) (a : Action) : Prop :=
  a.short ≠ "" ∧ (∀ c ∈ a.short.data, c ≠ ']' ∧ c ≠ '#' ∧ c ≠ '\n') ∧
    (∀ n, a.name = some n → ∀ c ∈ n.data, c ≠ ']' ∧ c ≠ '\n') ∧
    jsTrimC (humanize a.code).data ≠ [] ∧
    ∀ l ∈ splitNl (jsTrimC (humanize a.code).data), safeCodeLine l

instance (humanize : String → String) (a : Action) : Decidable (WFAction humanize a) := by
  unfold WFAction; infer_instance

/-- What one well-formed action reads back as: same short, the name with an
empty display name collapsed to none, the code humanized and trimmed. -/
def roundTripAction (humanize : String → String) (a : Action) : Action :=
  { short := a.short
    name := match a.name with
      | some n => if n = "" then none else some n
      | none => none
    code := ⟨jsTrimC (humanize a.code).data⟩ }

/-- The flat line sequence of one formatted action (without the trailing
blank line). -/
def actionSegFlat (dn : String → Option String) (humanize : String → String)
    (a : Action) : List (List Char) :=
  actionNameLines dn a ++ [actionHeaderLine a] ++ splitNl (jsTrimC (humanize a.code).data)

/-- The flat line sequence of a formatted action block (actions separated
by a blank line and the dashed separator). -/
def blockFlatCore (dn : String → Option String) (humanize : String → String) :
    List Action → List (List Char)
  | [] => []
  | a :: rest =>
    actionSegFlat dn humanize a ++
      rest.flatMap fun b => [[], sepDashesLine] ++ actionSegFlat dn humanize b

/-- The flat line sequence of one event block: header then actions. -/
def evSegFlat (dn : String → Option String) (humanize : String → String)
    (protoEvents : String → Option (List ProtoEvent)) (ets : List (Nat × String))
    (e : EventConfig) : List (List Char) :=
  eventHeaderLineW protoEvents (elementTypeOrButton (lookupIdx ets) e.elementIndex) e ::
    blockFlatCore dn humanize e.actions

/-- The flat line sequence of a page body (events separated by a blank
line, the equals separator and another blank line). -/
def pageFlatCore (dn : String → Option String) (humanize : String → String)
    (protoEvents : String → Option (List ProtoEvent)) (ets : List (Nat × String)) :
    List EventConfig → List (List Char)
  | [] => []
  | e :: rest =>
    evSegFlat dn humanize protoEvents ets e ++
      rest.flatMap fun e2 => [[], sepEqualsLine, []] ++ evSegFlat dn humanize protoEvents ets e2

/-- Tail lines that only pad a block: blank or stripped-comment lines that
match neither header shape nor the event marker. -/
def TailSafe (T : List (List Char)) : Prop :=
  ∀ l ∈ T, matchShorthand l = none ∧ matchLegacy l = none ∧
    matchEventHeaderLine l = none ∧ (isIgnoredLine l = true ∨ isBlankLine l = true) ∧
    '\n' ∉ l

/-- A scannable event name: nonempty, not starting with a quote, and free of
whitespace, so the `(\w+)=(\S+)` scan recovers it verbatim. -/
def WFName (nm : List Char) : Prop :=
  nm ≠ [] ∧ nm.head? ≠ some '"' ∧ ∀ c ∈ nm, isJsWs c = false

instance (nm : List Char) : Decidable (WFName nm) := by
  unfold WFName; infer_instance

/-- The well-formedness of one written event block: nonempty actions, all
well-formed, and a scannable event name in the header. -/
def WFBlock (dn : String → Option String) (humanize : String → String)
    (pe : String → Option (List ProtoEvent)) (ets : List (Nat × String))
    (e : EventConfig) : Prop :=
  e.actions ≠ [] ∧ (∀ b ∈ e.actions, WFAction humanize b) ∧
    WFName (getEventNameForType pe
      (elementTypeOrButton (lookupIdx ets) e.elementIndex) e.eventType).data

/-- The raw event record the reader recovers from one written event block. -/
def rawEventOf (humanize : String → String) (pe : String → Option (List ProtoEvent))
    (ets : List (Nat × String)) (e : EventConfig) : RawEvent :=
  ⟨e.elementIndex, none,
    (getEventNameForType pe (elementTypeOrButton (lookupIdx ets) e.elementIndex)
      e.eventType).data,
    e.actions.map (roundTripAction humanize)⟩

/-- The enumeration of one page's events as the fetch path produces it:
every element of the module's element-type table, and for each its
descriptors' event values in order. -/
def enumEvents (protoEvents : String → Option (List ProtoEvent))
    (ets : List (Nat × String)) (act : Nat → Nat → List Action) : List EventConfig :=
  ets.flatMap fun p =>
    (getEventDescriptors protoEvents p.2).map fun d => ⟨p.1, d.value, act p.1 d.value⟩

/-- Well-formedness of the element-type descriptor table for an element
type: distinct event values and distinct canonical names. -/
def WFDescriptors (protoEvents : String → Option (List ProtoEvent)) (et : String) : Prop :=
  ((getEventDescriptors protoEvents et).map (·.value)).Nodup ∧
    ((getEventDescriptors protoEvents et).map fun d => canonicalEventName d.name).Nodup

instance (protoEvents : String → Option (List ProtoEvent)) (et : String) :
    Decidable (WFDescriptors protoEvents et) := by
  unfold WFDescriptors; infer_instance

/-- The expected read-back of one surviving page: for every enumerated
`(element, event)`, the kept original actions (humanized and trimmed) when
the event was written, else the default, else empty. -/
def expectedPageEvents (protoEvents : String → Option (List ProtoEvent))
    (ets : List (Nat × String)) (act : Nat → Nat → List Action)
    (humanize : String → String) : List EventConfig :=
  ets.flatMap fun p =>
    (getEventDescriptors protoEvents p.2).map fun d =>
      ⟨p.1, d.value,
        if keepEvent (lookupIdx ets) (getDefaultActions protoEvents)
            ⟨p.1, d.value, act p.1 d.value⟩ then
          (act p.1 d.value).map (roundTripAction humanize)
        else ((getDefaultActions protoEvents p.2) d.value).getD []⟩

/-- The all-default page read back from the sentinel file. -/
def defaultPageEvents (protoEvents : String → Option (List ProtoEvent))
    (ets : List (Nat × String)) : List EventConfig :=
  ets.flatMap fun p =>
    (getEventDescriptors protoEvents p.2).map fun d =>
      ⟨p.1, d.value, ((getDefaultActions protoEvents p.2) d.value).getD []⟩

/-- A concrete fetch-shaped BU16 config (fallback tables): page 0 carries
one non-default binding, page 1 is entirely empty. -/
def counterActions (pg el ev : Nat) : List Action :=
  if pg = 0 ∧ el = 0 ∧ ev = 0 then [⟨"log", none, "print(1)"⟩] else []

def roundTripCounterConfig : ModuleConfig :=
  { module :=
      { dx := 0, dy := 0, type := "BU16", typeId := 1
        firmware := ⟨1, 2, 3⟩, elementCount := 16 }
    pages := [0, 1].map fun pg =>
      ⟨pg, enumEvents (fun _ => none) (buildElementTypesW none 16) (counterActions pg)⟩ }

/-- A one-element, one-page fetch-shaped config with a single non-default
binding, small enough to evaluate the full round trip on. -/
def rtWitnessAct (pg el ev : Nat) : List Action :=
  if pg = 0 ∧ el = 0 ∧ ev = 0 then [⟨"log", none, "print(1)"⟩] else []

def rtWitnessConfig : ModuleConfig :=
  { module :=
      { dx := 0, dy := 0, type := "BU16", typeId := 1
        firmware := ⟨1, 2, 3⟩, elementCount := 1 }
    pages := [0].map fun pg =>
      ⟨pg, enumEvents (fun _ => none) (buildElementTypesW none 1) (rtWitnessAct pg)⟩ }

deriving instance DecidableEq for Except

@[simp]
theorem findFrom_zero (p : Nat → Bool) (i : Nat) : findFrom p i 0 = none := rfl

theorem findFrom_some_spec (p : Nat → Bool) :
    ∀ n i j, findFrom p i n = some j →
      i ≤ j ∧ j < i + n ∧ p j = true ∧ ∀ k, i ≤ k → k < j → p k = false := by
  intro n
  induction n with
  | zero => intro i j h; simp [findFrom] at h
  | succ m ih =>
    intro i j h
    rw [findFrom] at h
    by_cases hp : p i
    · simp [hp] at h
      subst h
      exact ⟨le_refl _, by omega, hp, fun k hk hk2 => absurd hk2 (by omega)⟩
    · simp [hp] at h
      obtain ⟨h1, h2, h3, h4⟩ := ih (i + 1) j h
      refine ⟨by omega, by omega, h3, ?_⟩
      intro k hk hkj
      rcases Nat.eq_or_lt_of_le hk with rfl | hlt
      · exact Bool.of_not_eq_true hp
      · exact h4 k hlt hkj

theorem findFrom_eq_some_of (p : Nat → Bool) :
    ∀ n i j, i ≤ j → j < i + n → p j = true →
      (∀ k, i ≤ k → k < j → p k = false) → findFrom p i n = some j := by
  intro n
  induction n with
  | zero => intro i j h1 h2; omega
  | succ m ih =>
    intro i j h1 h2 hp hmin
    rw [findFrom]
    rcases Nat.eq_or_lt_of_le h1 with rfl | hlt
    · simp [hp]
    · have hi : p i = false := hmin i (le_refl _) hlt
      simp [hi]
      exact ih (i + 1) j hlt (by omega) hp (fun k hk hkj => hmin k (by omega) hkj)

theorem findFrom_eq_none_of (p : Nat → Bool) :
    ∀ n i, (∀ k, i ≤ k → k < i + n → p k = false) → findFrom p i n = none := by
  intro n
  induction n with
  | zero => intro i _; rfl
  | succ m ih =>
    intro i h
    rw [findFrom]
    have hi : p i = false := h i (le_refl _) (by omega)
    simp [hi]
    exact ih (i + 1) (fun k hk hkn => h k (by omega) (by omega))

theorem delimAt_false_of_no_newline {buf : List Nat} (h : NEWLINE ∉ buf) (k : Nat) :
    delimAt buf k = false := by
  unfold delimAt
  cases hk : buf[k]? with
  | none => simp [hk]
  | some b =>
    have hb : b ∈ buf := List.getElem?_mem hk
    have : b ≠ NEWLINE := fun hEq => h (hEq ▸ hb)
    simp [hk, this]

theorem findDelim_none_of_no_newline {buf : List Nat} (h : NEWLINE ∉ buf) :
    findDelim buf = none :=
  findFrom_eq_none_of _ _ _ (fun k _ _ => delimAt_false_of_no_newline h k)

theorem findDelim_frame {p : List Nat} (hp : WFPayload p) (rest : List Nat) :
    findDelim (p ++ NEWLINE :: rest) = some p.length := by
  obtain ⟨hlen, hnl, heot⟩ := hp
  apply findFrom_eq_some_of
  · exact Nat.zero_le _
  · have : (p ++ NEWLINE :: rest).length = p.length + (rest.length + 1) := by simp
    omega
  · unfold delimAt
    have h1 : (p ++ NEWLINE :: rest)[p.length]? = some NEWLINE := by
      rw [List.getElem?_append_right (le_refl _)]
      simp
    have h2 : (p ++ NEWLINE :: rest)[p.length - 3]? = some EOT := by
      rw [List.getElem?_append_left (by omega)]
      exact heot
    simp [h1, h2]; omega
  · intro k _ hk
    unfold delimAt
    cases hk3 : decide (3 ≤ k) with
    | false => simp
    | true =>
      have hkp : (p ++ NEWLINE :: rest)[k]? = p[k]? := List.getElem?_append_left hk
      cases hkv : p[k]? with
      | none => simp [hkp, hkv]
      | some b =>
        have hb : b ∈ p := List.getElem?_mem hkv
        have : b ≠ NEWLINE := fun hEq => hnl (hEq ▸ hb)
        simp [hkp, hkv, this]

theorem drain_frames :
    ∀ (ps : List (List Nat)) (q : List Nat) (fuel : Nat),
      (∀ p ∈ ps, WFPayload p) → NEWLINE ∉ q →
      ((ps.map frameOf).flatten ++ q).length ≤ fuel →
      drainBuffer fuel ((ps.map frameOf).flatten ++ q) = (ps, q) := by
  intro ps
  induction ps with
  | nil =>
    intro q fuel _ hq _
    simp only [List.map_nil, List.flatten, List.nil_append]
    cases fuel with
    | zero => rfl
    | succ f => simp [drainBuffer, findDelim_none_of_no_newline hq]
  | cons p ps ih =>
    intro q fuel hwf hq hfuel
    have hp : WFPayload p := hwf p (List.mem_cons_self _ _)
    have hbuf :
        ((p :: ps).map frameOf).flatten ++ q = p ++ NEWLINE :: ((ps.map frameOf).flatten ++ q) := by
      simp only [List.map_cons, List.flatten_cons, frameOf, List.append_assoc,
        List.cons_append, List.nil_append]
    have hlen3 : 3 ≤ p.length := hp.1
    have hlen : (((p :: ps).map frameOf).flatten ++ q).length =
        p.length + 1 + ((ps.map frameOf).flatten ++ q).length := by
      rw [hbuf]; simp; omega
    cases fuel with
    | zero => omega
    | succ f =>
      rw [hbuf]
      rw [drainBuffer, findDelim_frame hp]
      dsimp only
      have htake : (p ++ NEWLINE :: ((ps.map frameOf).flatten ++ q)).take p.length = p := by
        rw [List.take_append_eq_append_take]
        simp
      have hdrop : (p ++ NEWLINE :: ((ps.map frameOf).flatten ++ q)).drop (p.length + 1) =
          (ps.map frameOf).flatten ++ q := by
        rw [List.drop_append_eq_append_drop]
        simp
      rw [htake, hdrop, ih q f (fun r hr => hwf r (List.mem_cons_of_mem _ hr)) hq (by omega)]

theorem frames_decomp :
    ∀ (ps : List (List Nat)) (buf r : List Nat),
      (∀ p ∈ ps, WFPayload p) →
      buf ++ r = (ps.map frameOf).flatten →
      ∃ ps₁ ps₂ q, ps = ps₁ ++ ps₂ ∧ buf = (ps₁.map frameOf).flatten ++ q ∧
        NEWLINE ∉ q ∧ q ++ r = (ps₂.map frameOf).flatten := by
  intro ps
  induction ps with
  | nil =>
    intro buf r _ h
    simp at h
    exact ⟨[], [], [], by simp, by simp [h.1], by simp, by simp [h.2]⟩
  | cons p ps ih =>
    intro buf r hwf h
    have hp : WFPayload p := hwf p (List.mem_cons_self _ _)
    have hframes : ((p :: ps).map frameOf).flatten = frameOf p ++ (ps.map frameOf).flatten := by
      simp
    have hsplit : ((p :: ps).map frameOf).flatten = p ++ NEWLINE :: (ps.map frameOf).flatten := by
      simp [frameOf]
    by_cases hsmall : buf.length ≤ p.length
    · refine ⟨[], p :: ps, buf, by simp, by simp, ?_, h⟩
      intro hmem
      obtain ⟨i, hi⟩ := List.mem_iff_getElem?.mp hmem
      have hilt : i < buf.length := by
        by_contra hge
        rw [List.getElem?_eq_none (by omega)] at hi
        exact Option.noConfusion hi
      have h1 : (buf ++ r)[i]? = some NEWLINE := by
        rw [List.getElem?_append_left hilt]; exact hi
      rw [h, hsplit] at h1
      rw [List.getElem?_append_left (by omega)] at h1
      exact hp.2.1 (List.getElem?_mem h1)
    · push_neg at hsmall
      have hflen : (frameOf p).length = p.length + 1 := by simp [frameOf]
      have hle : (frameOf p).length ≤ buf.length := by omega
      have htake : buf.take (frameOf p).length = frameOf p := by
        have h2 := congrArg (List.take (frameOf p).length) h
        rw [hframes, List.take_append_eq_append_take, List.take_append_eq_append_take,
          Nat.sub_eq_zero_of_le hle, Nat.sub_self] at h2
        simpa using h2
      have hdrop : buf.drop (frameOf p).length ++ r = (ps.map frameOf).flatten := by
        have h2 := congrArg (List.drop (frameOf p).length) h
        rw [hframes, List.drop_append_eq_append_drop, List.drop_append_eq_append_drop,
          Nat.sub_eq_zero_of_le hle, Nat.sub_self] at h2
        simpa using h2
      obtain ⟨ps₁, ps₂, q, heq, hbuf', hq, hqr⟩ :=
        ih (buf.drop (frameOf p).length) r (fun x hx => hwf x (List.mem_cons_of_mem _ hx)) hdrop
      refine ⟨p :: ps₁, ps₂, q, by rw [heq, List.cons_append], ?_, hq, hqr⟩
      calc buf = buf.take (frameOf p).length ++ buf.drop (frameOf p).length :=
            (List.take_append_drop _ _).symm
        _ = frameOf p ++ ((ps₁.map frameOf).flatten ++ q) := by rw [htake, hbuf']
        _ = ((p :: ps₁).map frameOf).flatten ++ q := by simp

theorem newline_mem_frames {ps : List (List Nat)} (h : ps ≠ []) :
    NEWLINE ∈ (ps.map frameOf).flatten := by
  cases ps with
  | nil => exact absurd rfl h
  | cons p ps => simp [frameOf]

theorem feed_invariant :
    ∀ (cs : List (List Nat)) (b : List Nat) (ps : List (List Nat)),
      (∀ p ∈ ps, WFPayload p) → NEWLINE ∉ b →
      b ++ cs.flatten = (ps.map frameOf).flatten →
      (ps.map frameOf).flatten.length ≤ MAX_BUFFER_SIZE →
      feedAll cs b = .ok (ps, []) := by
  intro cs
  induction cs with
  | nil =>
    intro b ps hwf hb h hmax
    simp at h
    have hps : ps = [] := by
      by_contra hne
      exact hb (h ▸ newline_mem_frames hne)
    subst hps
    simp at h
    simp [feedAll, h]
  | cons c cs ih =>
    intro b ps hwf hb h hmax
    rw [List.flatten_cons, ← List.append_assoc] at h
    obtain ⟨ps₁, ps₂, q, heq, hbc, hq, hqr⟩ := frames_decomp ps (b ++ c) cs.flatten hwf h
    have hlen : (b ++ c).length ≤ MAX_BUFFER_SIZE := by
      have h1 : (b ++ c).length ≤ ((ps.map frameOf).flatten).length := by
        have := congrArg List.length h
        simp at this ⊢
        omega
      omega
    have htrans : framerTransform b c = .ok (ps₁, q) := by
      unfold framerTransform
      rw [if_neg (by omega)]
      unfold processBuffer
      rw [hbc]
      rw [drain_frames ps₁ q ((ps₁.map frameOf).flatten ++ q).length
        (fun x hx => hwf x (heq ▸ List.mem_append_left _ hx)) hq (le_refl _)]
    have hrec : feedAll cs q = .ok (ps₂, []) := by
      apply ih q ps₂ (fun x hx => hwf x (heq ▸ List.mem_append_right _ hx)) hq hqr
      have h2 : ((ps₂.map frameOf).flatten).length ≤ ((ps.map frameOf).flatten).length := by
        rw [heq]
        simp
      omega
    rw [feedAll, htrans]
    dsimp only
    rw [hrec]
    dsimp only
    rw [heq]

/-- **C3.** For every concatenation of well-formed frames presented to the
framer with arbitrary chunk boundaries (and total size within the 1 MiB
buffer bound), the emitted message sequence equals the original payload
sequence, with an empty residual buffer — so no partial frame is ever
emitted. In particular the input bytes
`[0x41,0x04,0xAA,0xBB,0x0A,0x42,0x04,0xCC,0xDD,0x0A]` yield exactly the two
payloads `[0x41,0x04,0xAA,0xBB]` and `[0x42,0x04,0xCC,0xDD]`. -/
theorem framer_reassembles_payloads :
    (∀ (ps chunks : List (List Nat)),
      (∀ p ∈ ps, WFPayload p) →
      chunks.flatten = (ps.map frameOf).flatten →
      (ps.map frameOf).flatten.length ≤ MAX_BUFFER_SIZE →
      feedAll chunks [] = .ok (ps, [])) ∧
    feedAll [[0x41, 0x04, 0xAA, 0xBB, 0x0A, 0x42, 0x04, 0xCC, 0xDD, 0x0A]] [] =
      .ok ([[0x41, 0x04, 0xAA, 0xBB], [0x42, 0x04, 0xCC, 0xDD]], []) := by
  constructor
  · intro ps chunks hwf hj hmax
    exact feed_invariant chunks [] ps hwf (by simp) (by simpa using hj) hmax
  · rfl

/-- Witness for C3: the universal statement applied to the concrete S1 frames,
split into two chunks cutting one frame in half. -/
theorem framer_reassembles_payloads_witness :
    feedAll [[0x41, 0x04, 0xAA], [0xBB, 0x0A, 0x42, 0x04, 0xCC, 0xDD, 0x0A]] [] =
      .ok ([[0x41, 0x04, 0xAA, 0xBB], [0x42, 0x04, 0xCC, 0xDD]], []) :=
  framer_reassembles_payloads.1
    [[0x41, 0x04, 0xAA, 0xBB], [0x42, 0x04, 0xCC, 0xDD]]
    [[0x41, 0x04, 0xAA], [0xBB, 0x0A, 0x42, 0x04, 0xCC, 0xDD, 0x0A]]
    (by decide) (by decide) (by decide)

/-! ## Theorems about the retry loop (C5) -/

/-- **C5.** A waiter `Timeout` is retried exactly once by a config fetch
(budget 1: a second attempt happens iff the first timed out), up to twice by
a config send (budget 2), and not at all by page change and NVM erase
(budget 0: the single attempt's outcome is returned as is); once the budget
is exhausted the `Timeout` surfaces from `sendAndWait`. -/
theorem timeout_retry_budgets {α : Type} (outcomes : Nat → AttemptOutcome α) :
    attemptsUsed outcomes changePageRetries = 1 ∧
    attemptsUsed outcomes eraseNvmRetries = 1 ∧
    sendAndWaitRun outcomes changePageRetries = outcomes 0 ∧
    sendAndWaitRun outcomes eraseNvmRetries = outcomes 0 ∧
    attemptsUsed outcomes fetchEventConfigRetries =
      (if isTimeout (outcomes 0) then 2 else 1) ∧
    attemptsUsed outcomes sendEventConfigRetries =
      (if isTimeout (outcomes 0) then if isTimeout (outcomes 1) then 3 else 2 else 1) ∧
    (sendAndWaitRun outcomes fetchEventConfigRetries = .timeout ↔
      outcomes 0 = .timeout ∧ outcomes 1 = .timeout) ∧
    (sendAndWaitRun outcomes sendEventConfigRetries = .timeout ↔
      outcomes 0 = .timeout ∧ outcomes 1 = .timeout ∧ outcomes 2 = .timeout) := by
  cases h0 : outcomes 0 <;> cases h1 : outcomes 1 <;> cases h2 : outcomes 2 <;>
    simp_all [attemptsUsed, attemptsUsedAux, sendAndWaitRun, sendAndWaitAux,
      fetchEventConfigRetries, sendEventConfigRetries, changePageRetries,
      eraseNvmRetries, isTimeout]

/-! ## Theorems about the fetch loop (C6) -/

theorem fetchEventsGo_ok (res : Nat → Nat → Nat → FetchResult) (maxF page : Nat) :
    ∀ (pairs : List (Nat × Nat)) (fc : Nat),
      fc + pairs.countP (fun pe => (res page pe.1 pe.2).failed) ≤ maxF →
      fetchEventsGo res maxF page pairs fc =
        .ok (pairs.map fun pe => ⟨pe.1, pe.2, (res page pe.1 pe.2).actions⟩,
          fc + pairs.countP fun pe => (res page pe.1 pe.2).failed) := by
  intro pairs
  induction pairs with
  | nil => intro fc _; simp [fetchEventsGo]
  | cons pe rest ih =>
    intro fc hle
    rw [List.countP_cons] at hle
    rw [fetchEventsGo]
    cases hf : (res page pe.1 pe.2).failed with
    | true =>
      have hc : fc + 1 + rest.countP (fun pe => (res page pe.1 pe.2).failed) ≤ maxF := by
        simp [hf] at hle
        omega
      rw [if_neg (by simp; omega)]
      have hred : (if true = true then fc + 1 else fc) = fc + 1 := by simp
      rw [hred, ih (fc + 1) hc]
      simp [List.countP_cons, hf]
      omega
    | false =>
      have hc : fc + rest.countP (fun pe => (res page pe.1 pe.2).failed) ≤ maxF := by
        simp [hf] at hle
        omega
      rw [if_neg (by simp)]
      have hred : (if false = true then fc + 1 else fc) = fc := by simp
      rw [hred, ih fc hc]
      simp [List.countP_cons, hf]

theorem fetchEventsGo_error (res : Nat → Nat → Nat → FetchResult) (maxF page : Nat) :
    ∀ (pairs : List (Nat × Nat)) (fc : Nat), fc ≤ maxF →
      maxF < fc + pairs.countP (fun pe => (res page pe.1 pe.2).failed) →
      fetchEventsGo res maxF page pairs fc = .error () := by
  intro pairs
  induction pairs with
  | nil => intro fc h1 h2; simp at h2; omega
  | cons pe rest ih =>
    intro fc h1 h2
    rw [List.countP_cons] at h2
    rw [fetchEventsGo]
    cases hf : (res page pe.1 pe.2).failed with
    | true =>
      have h3 : maxF < fc + (rest.countP (fun pe => (res page pe.1 pe.2).failed) + 1) := by
        simpa [hf] using h2
      by_cases hover : maxF < fc + 1
      · rw [if_pos ⟨rfl, by simpa using hover⟩]
      · rw [if_neg fun hcon => hover (by simpa using hcon.2)]
        have hred : (if true = true then fc + 1 else fc) = fc + 1 := by simp
        rw [hred, ih (fc + 1) (by omega) (by omega)]
    | false =>
      have h3 : maxF < fc + rest.countP (fun pe => (res page pe.1 pe.2).failed) := by
        simpa [hf] using h2
      rw [if_neg (by simp)]
      have hred : (if false = true then fc + 1 else fc) = fc := by simp
      rw [hred, ih fc h1 (by omega)]

theorem fetchPagesGo_ok (res : Nat → Nat → Nat → FetchResult) (maxF : Nat)
    (pairs : List (Nat × Nat)) :
    ∀ (pages : List Nat) (fc : Nat),
      fc + totalFailed res pages pairs ≤ maxF →
      fetchPagesGo res maxF pairs pages fc =
        .ok (pages.map fun pg =>
          ⟨pg, pairs.map fun pe => ⟨pe.1, pe.2, (res pg pe.1 pe.2).actions⟩⟩) := by
  intro pages
  induction pages with
  | nil => intro fc _; simp [fetchPagesGo]
  | cons pg rest ih =>
    intro fc hle
    unfold totalFailed at hle
    simp only [List.map_cons, List.sum_cons] at hle
    rw [fetchPagesGo]
    rw [fetchEventsGo_ok res maxF pg pairs fc (by omega)]
    dsimp only
    rw [ih (fc + pairs.countP fun pe => (res pg pe.1 pe.2).failed)
      (by unfold totalFailed; omega)]
    simp

theorem fetchPagesGo_error (res : Nat → Nat → Nat → FetchResult) (maxF : Nat)
    (pairs : List (Nat × Nat)) :
    ∀ (pages : List Nat) (fc : Nat), fc ≤ maxF →
      maxF < fc + totalFailed res pages pairs →
      fetchPagesGo res maxF pairs pages fc = .error () := by
  intro pages
  induction pages with
  | nil => intro fc h1 h2; simp [totalFailed] at h2; omega
  | cons pg rest ih =>
    intro fc h1 h2
    unfold totalFailed at h2
    simp only [List.map_cons, List.sum_cons] at h2
    rw [fetchPagesGo]
    by_cases hover :
        maxF < fc + pairs.countP (fun pe => (res pg pe.1 pe.2).failed)
    · rw [fetchEventsGo_error res maxF pg pairs fc h1 hover]
    · push_neg at hover
      rw [fetchEventsGo_ok res maxF pg pairs fc hover]
      dsimp only
      rw [ih (fc + pairs.countP fun pe => (res pg pe.1 pe.2).failed)
        (by omega) (by unfold totalFailed; omega)]

/-- **C6.** `fetchModuleConfig` aborts with `ProtocolUnstable` exactly when
the number of failed event fetches exceeds `max(5, ⌊0.1 × total⌋)`; when at
most that many fail, it completes and its pages contain every enumerated
`(page, element, event)` entry, in enumeration order, with the fetched
actions. -/
theorem fetch_module_config_abort_threshold (res : Nat → Nat → Nat → FetchResult)
    (elementIndices : List Nat) (elementType : Nat → String)
    (supportedEvents : String → List Nat)
    (includePages excludePages : Option (List Nat)) :
    (fetchModuleConfigModel res elementIndices elementType supportedEvents
        includePages excludePages = .error () ↔
      maxFailuresOf (eventsPerPage elementIndices elementType supportedEvents *
          (fetchPageNumbers includePages excludePages).length) <
        totalFailed res (fetchPageNumbers includePages excludePages)
          (elementEventPairs elementIndices elementType supportedEvents)) ∧
    (totalFailed res (fetchPageNumbers includePages excludePages)
        (elementEventPairs elementIndices elementType supportedEvents) ≤
      maxFailuresOf (eventsPerPage elementIndices elementType supportedEvents *
          (fetchPageNumbers includePages excludePages).length) →
      fetchModuleConfigModel res elementIndices elementType supportedEvents
          includePages excludePages =
        .ok ((fetchPageNumbers includePages excludePages).map fun pg =>
          ⟨pg, (elementEventPairs elementIndices elementType supportedEvents).map
            fun pe => ⟨pe.1, pe.2, (res pg pe.1 pe.2).actions⟩⟩)) := by
  constructor
  · constructor
    · intro herr
      by_contra hle
      push_neg at hle
      rw [fetchModuleConfigModel,
        fetchPagesGo_ok res _ _ _ 0 (by simpa using hle)] at herr
      exact Except.noConfusion herr
    · intro hgt
      rw [fetchModuleConfigModel]
      exact fetchPagesGo_error res _ _ _ 0 (Nat.zero_le _) (by simpa using hgt)
  · intro hle
    rw [fetchModuleConfigModel]
    exact fetchPagesGo_ok res _ _ _ 0 (by simpa using hle)

/-- Witness for C6 at a concrete instance: one element with two events over
all four pages, two failures, threshold `max 5 0 = 5` not exceeded. -/
theorem fetch_module_config_abort_threshold_witness :
    fetchModuleConfigModel
        (fun pg el ev => ⟨[], pg = 0 && el = 0 && ev ≤ 1⟩)
        [0] (fun _ => "button") (fun _ => [0, 3]) none none =
      .ok ((fetchPageNumbers none none).map fun pg =>
        ⟨pg, (elementEventPairs [0] (fun _ => "button") (fun _ => [0, 3])).map
          fun pe => ⟨pe.1, pe.2,
            (fun (pg : Nat) (el : Nat) (ev : Nat) =>
              (⟨[], pg = 0 && el = 0 && ev ≤ 1⟩ : FetchResult)) pg pe.1 pe.2 |>.actions⟩⟩) :=
  (fetch_module_config_abort_threshold
    (fun pg el ev => ⟨[], pg = 0 && el = 0 && ev ≤ 1⟩)
    [0] (fun _ => "button") (fun _ => [0, 3]) none none).2 (by decide)

/-! ## Theorems about the page filters (C7) -/

/-- **C7 counterexample.** With `--pages 4` (a producible option: the page
list parser accepts any integer), `include = {4}` is set, yet the fetched
page set is empty rather than `{4}`: the fetch loop only ever enumerates
pages 0..3. -/
theorem page_filter_include_counterexample :
    fetchPageNumbers (some [4]) none = [] ∧ (4 : Nat) ∈ [4] ∧
      (4 : Nat) ∉ fetchPageNumbers (some [4]) none := by
  decide

theorem mem_contains_nat (l : List Nat) (a : Nat) : l.contains a = true ↔ a ∈ l :=
  List.elem_iff

/-- **C7 (amended).** When exactly one of the include/exclude page filters is
set: the set of pages fetched by `fetchModuleConfig` equals `{0,1,2,3} ∩
include` (resp. `{0,1,2,3} ∖ exclude`), and the set of pages pushed by the
push path equals the pages present in the on-disk config intersected with
`include` (resp. minus `exclude`). -/
theorem page_filter_sets (inc exc : List Nat) (pages : List PageConfig)
    (p : Nat) (pg : PageConfig) :
    (p ∈ fetchPageNumbers (some inc) none ↔ p < 4 ∧ p ∈ inc) ∧
    (p ∈ fetchPageNumbers none (some exc) ↔ p < 4 ∧ p ∉ exc) ∧
    (pg ∈ pushFilteredPages (some inc) none pages ↔ pg ∈ pages ∧ pg.pageNumber ∈ inc) ∧
    (pg ∈ pushFilteredPages none (some exc) pages ↔
      pg ∈ pages ∧ pg.pageNumber ∉ exc) := by
  refine ⟨?_, ?_, ?_, ?_⟩
  · simp only [fetchPageNumbers, List.mem_filter, List.mem_range]
    rw [mem_contains_nat]
  · simp only [fetchPageNumbers, List.mem_filter, List.mem_range, Bool.not_eq_eq_eq_not,
      Bool.not_true, ← Bool.not_eq_true, mem_contains_nat]
  · simp only [pushFilteredPages, List.mem_filter]
    rw [mem_contains_nat]
  · simp only [pushFilteredPages, List.mem_filter, ← Bool.not_eq_true, Bool.not_eq_eq_eq_not,
      Bool.not_true, mem_contains_nat]

/-! ## Theorems about the store latch (C8) -/

/-- **C8 counterexample.** A successful `storeToFlash` with the latch set
leaves the latch set: the function's body never assigns
`pageChangeDisabled` (the clearing lives in `changePage`). -/
theorem store_latch_counterexample :
    (storeToFlashStep true ⟨true⟩).1 = .ok () ∧
      (storeToFlashStep true ⟨true⟩).2.pageChangeDisabled = true := by
  exact ⟨rfl, rfl⟩

/-- **C8 (amended).** `storeToFlash` itself never changes the
`pageChangeDisabled` latch, whether it succeeds or fails. The latch is
cleared by `changePage`: when the latch is set and the target page is
positive, `changePage` stores first and clears the latch exactly when that
store succeeded; on store failure, and whenever the store-first path is not
taken, the latch is unchanged. -/
theorem store_latch_behavior (ok : Bool) (n : Nat) (s : DeviceState) :
    (storeToFlashStep ok s).2 = s ∧
    (s.pageChangeDisabled = true → 0 < n →
      (changePagePrelude true n s).pageChangeDisabled = false) ∧
    (s.pageChangeDisabled = true → 0 < n →
      (changePagePrelude false n s).pageChangeDisabled = true) ∧
    (s.pageChangeDisabled = false → changePagePrelude ok n s = s) ∧
    changePagePrelude ok 0 s = s := by
  refine ⟨rfl, ?_, ?_, ?_, ?_⟩
  · intro hlatch hn
    simp [changePagePrelude, hlatch, hn, storeToFlashStep]
  · intro hlatch hn
    simp [changePagePrelude, hlatch, hn, storeToFlashStep]
  · intro hlatch
    simp [changePagePrelude, hlatch]
  · simp [changePagePrelude]

/-- Witness for C8 (amended) at the concrete latched state. -/
theorem store_latch_behavior_witness :
    (changePagePrelude true 1 ⟨true⟩).pageChangeDisabled = false ∧
      (changePagePrelude false 1 ⟨true⟩).pageChangeDisabled = true :=
  ⟨(store_latch_behavior true 1 ⟨true⟩).2.1 rfl (by decide),
   (store_latch_behavior false 1 ⟨true⟩).2.2.1 rfl (by decide)⟩

/-! ## Theorems about heartbeat type resolution (C9) -/

/-- **C9.** For every heartbeat whose SX, SY and HWCFG are numeric, an
inventory entry is produced, keyed by `(SX, SY)` with `typeId` the full
HWCFG, and its type name is resolved in order: the external
`module_type_from_hwcfg` lookup on the full value when it yields a
non-empty name; else the `MODULE_TYPES` table at `HWCFG & 0x7f`; else
`Unknown(HWCFG)` built from the full value. -/
theorem heartbeat_type_resolution (ext : Int → Option String)
    (elementCountOf : String → Nat) (msg : HeartbeatMsg) (sx sy hw : Int)
    (hsx : msg.SX = some (.num sx)) (hsy : msg.SY = some (.num sy))
    (hhw : msg.HWCFG = some (.num hw)) :
    ∃ mi, handleHeartbeat ext elementCountOf msg = some mi ∧
      mi.dx = sx ∧ mi.dy = sy ∧ mi.typeId = hw ∧
      (∀ t, ext hw = some t → 0 < t.length → mi.type = t) ∧
      ((∀ t, ext hw = some t → t.length = 0) →
        (∀ u, MODULE_TYPES (hwcfgMask hw) = some u → mi.type = u) ∧
        (MODULE_TYPES (hwcfgMask hw) = none →
          mi.type = "Unknown(" ++ toString hw ++ ")")) := by
  have hred : handleHeartbeat ext elementCountOf msg = some
      { dx := sx, dy := sy
        type := heartbeatTypeName ext hw
        typeId := hw
        firmware :=
          { major := (parseNumber msg.VMAJOR).getD 0
            minor := (parseNumber msg.VMINOR).getD 0
            patch := (parseNumber msg.VPATCH).getD 0 }
        elementCount := elementCountOf (heartbeatTypeName ext hw) } := by
    unfold handleHeartbeat
    rw [hsx, hsy, hhw]
    simp [parseNumber]
  refine ⟨_, hred, rfl, rfl, rfl, ?_, ?_⟩
  · intro t het hlen
    show heartbeatTypeName ext hw = t
    simp [heartbeatTypeName, getModuleTypeFromHwcfg, het, hlen]
  · intro hall
    constructor
    · intro u hu
      show heartbeatTypeName ext hw = u
      cases het : ext hw with
      | none => simp [heartbeatTypeName, getModuleTypeFromHwcfg, het, hu]
      | some t =>
        have hz : ¬ (0 < t.length) := by have := hall t het; omega
        simp [heartbeatTypeName, getModuleTypeFromHwcfg, het, hz, hu]
    · intro hnone
      show heartbeatTypeName ext hw = "Unknown(" ++ toString hw ++ ")"
      cases het : ext hw with
      | none => simp [heartbeatTypeName, getModuleTypeFromHwcfg, het, hnone]
      | some t =>
        have hz : ¬ (0 < t.length) := by have := hall t het; omega
        simp [heartbeatTypeName, getModuleTypeFromHwcfg, het, hz, hnone]

/-- Witness for C9: a heartbeat with HWCFG 1 and an external lookup that
knows nothing about it resolves through the masked table to `BU16`. -/
theorem heartbeat_type_resolution_witness :
    ∃ mi, handleHeartbeat (fun h => if h = 300 then some "CUSTOM" else none)
        (fun _ => 16)
        ⟨some (.num 1), some (.num 0), some (.num 1), none, none, none⟩ = some mi ∧
      mi.type = "BU16" := by
  obtain ⟨mi, hmi, _, _, _, _, hfb⟩ :=
    heartbeat_type_resolution (fun h => if h = 300 then some "CUSTOM" else none)
      (fun _ => 16)
      ⟨some (.num 1), some (.num 0), some (.num 1), none, none, none⟩
      1 0 1 rfl rfl rfl
  refine ⟨mi, hmi, ?_⟩
  refine (hfb ?_).1 "BU16" (by decide)
  intro t ht
  simp at ht

/-! ## Theorems about the ResponseWaiter (C10) -/

theorem waiterStep_of_settled {μ : Type} (matcher : μ → Bool) (s : WaiterState μ)
    (e : WaiterEvent μ) (h : s.settled = true) : waiterStep matcher s e = s := by
  cases e <;> simp [waiterStep, waiterTryMatch, waiterTimeoutFire, waiterCancel, h]

theorem runWaiter_of_settled {μ : Type} (matcher : μ → Bool) :
    ∀ (evts : List (WaiterEvent μ)) (s : WaiterState μ), s.settled = true →
      runWaiter matcher evts s = s := by
  intro evts
  induction evts with
  | nil => intro s _; rfl
  | cons e rest ih =>
    intro s h
    show runWaiter matcher rest (waiterStep matcher s e) = s
    rw [waiterStep_of_settled matcher s e h, ih s h]

theorem waiterStep_flag_settle {μ : Type} (matcher : μ → Bool) (s : WaiterState μ)
    (e : WaiterEvent μ) (h : s.settled = s.settle.isSome) :
    (waiterStep matcher s e).settled = (waiterStep matcher s e).settle.isSome := by
  cases e with
  | msg m =>
    by_cases hs : s.settled
    · simp [waiterStep, waiterTryMatch, hs, h ▸ hs]
    · by_cases hm : matcher m <;> simp [waiterStep, waiterTryMatch, hs, hm, h ▸ hs]
  | timeout =>
    by_cases hs : s.settled <;> simp [waiterStep, waiterTimeoutFire, hs, h ▸ hs]
  | cancel =>
    by_cases hs : s.settled <;> simp [waiterStep, waiterCancel, hs, h ▸ hs]

theorem runWaiter_flag_settle {μ : Type} (matcher : μ → Bool) :
    ∀ (evts : List (WaiterEvent μ)) (s : WaiterState μ),
      s.settled = s.settle.isSome →
      (runWaiter matcher evts s).settled = (runWaiter matcher evts s).settle.isSome := by
  intro evts
  induction evts with
  | nil => intro s h; exact h
  | cons e rest ih =>
    intro s h
    exact ih (waiterStep matcher s e) (waiterStep_flag_settle matcher s e h)

/-- **C10.** A `ResponseWaiter` is one-shot: on a settled waiter `tryMatch`
returns false without resolving, a later timeout firing does not reject, and
`cancel` is a no-op — so from the initial state the `settled` flag always
agrees with the promise having settled, and once the promise has settled
(by match, timeout or cancel), any further events leave the waiter
unchanged: the promise is resolved or rejected exactly once. -/
theorem response_waiter_one_shot {μ : Type} (matcher : μ → Bool) (m : μ)
    (evts evts2 : List (WaiterEvent μ)) (s : WaiterState μ) (r : WSettle μ) :
    (s.settled = true → waiterTryMatch matcher m s = (false, s)) ∧
    (s.settled = true → waiterTimeoutFire s = s) ∧
    (s.settled = true → waiterCancel s = s) ∧
    (s.settled = true → runWaiter matcher evts s = s) ∧
    (runWaiter matcher evts initWaiter).settled =
      (runWaiter matcher evts initWaiter).settle.isSome ∧
    ((runWaiter matcher evts initWaiter).settle = some r →
      runWaiter matcher evts2 (runWaiter matcher evts initWaiter) =
        runWaiter matcher evts initWaiter) := by
  have hinv : (runWaiter matcher evts initWaiter).settled =
      (runWaiter matcher evts initWaiter).settle.isSome :=
    runWaiter_flag_settle matcher evts initWaiter rfl
  refine ⟨?_, ?_, ?_, ?_, hinv, ?_⟩
  · intro h; simp [waiterTryMatch, h]
  · intro h; simp [waiterTimeoutFire, h]
  · intro h; simp [waiterCancel, h]
  · intro h; exact runWaiter_of_settled matcher evts s h
  · intro hsome
    apply runWaiter_of_settled
    rw [hinv, hsome]
    rfl

/-- Witness for C10 at a concrete settled waiter and event trace. -/
theorem response_waiter_one_shot_witness :
    waiterTryMatch (fun x => x == 7) 7
        (⟨true, some (.resolved 5)⟩ : WaiterState Nat) =
      (false, ⟨true, some (.resolved 5)⟩) ∧
    runWaiter (fun x => x == 7) [.msg 7, .timeout, .cancel]
        (⟨true, some (.resolved 5)⟩ : WaiterState Nat) =
      ⟨true, some (.resolved 5)⟩ :=
  ⟨(response_waiter_one_shot (fun x => x == 7) 7 [.msg 7, .timeout, .cancel] []
      (⟨true, some (.resolved 5)⟩ : WaiterState Nat) (.resolved 5)).1 rfl,
   (response_waiter_one_shot (fun x => x == 7) 7 [.msg 7, .timeout, .cancel] []
      (⟨true, some (.resolved 5)⟩ : WaiterState Nat) (.resolved 5)).2.2.2.1 rfl⟩

/-! ## Theorems about fetchEventConfig failure modes (C4) -/

/-- **C4 counterexample.** A CONFIG/REPORT with a *missing* `ACTIONSTRING`
yields `([], failed = false)` — the source returns
`fetchEventConfigResult([])` whose `failed` flag defaults to false (it is
treated as a genuinely empty binding), contradicting the claim that it
yields `failed = true`. The parse function is irrelevant on this input
(the branch returns before parsing). -/
theorem fetch_missing_actionstring_counterexample :
    fetchEventConfigOutcome (fun _ => .ok []) (.ok none) = ([], false) ∧
      fetchEventConfigOutcome (fun _ => .ok []) (.ok none) ≠ ([], true) := by
  exact ⟨rfl, by decide⟩

/-- **C4 (amended).** `fetchEventConfig` never throws. It returns
`([], failed = true)` when `sendAndWait` fails (timeouts exhausted or write
error), when `ACTIONSTRING` is present, truthy and not a string, and when
parsing the unwrapped string throws; it returns `(parsed, failed = false)`
on a successfully parsed string; and it returns `([], failed = false)` —
an empty binding, not a failure — when `ACTIONSTRING` is missing or falsy
(empty string or the number 0). -/
theorem fetch_event_config_failure_modes
    (parse : String → Except Unit (List Action)) (s : String) (n : Int) :
    (∀ e : Unit, fetchEventConfigOutcome parse (.error e) = ([], true)) ∧
    fetchEventConfigOutcome parse (.ok none) = ([], false) ∧
    fetchEventConfigOutcome parse (.ok (some (.str ""))) = ([], false) ∧
    fetchEventConfigOutcome parse (.ok (some (.num 0))) = ([], false) ∧
    (n ≠ 0 → fetchEventConfigOutcome parse (.ok (some (.num n))) = ([], true)) ∧
    (s ≠ "" → parse (unwrapScript s) = .error () →
      fetchEventConfigOutcome parse (.ok (some (.str s))) = ([], true)) ∧
    (∀ acts, s ≠ "" → parse (unwrapScript s) = .ok acts →
      fetchEventConfigOutcome parse (.ok (some (.str s))) = (acts, false)) := by
  refine ⟨fun e => rfl, rfl, rfl, rfl, ?_, ?_, ?_⟩
  · intro hn
    simp [fetchEventConfigOutcome, jsFalsy, hn]
  · intro hs hp
    simp only [fetchEventConfigOutcome, jsFalsy]
    rw [if_neg (by simpa using hs), hp]
  · intro acts hs hp
    simp only [fetchEventConfigOutcome, jsFalsy]
    rw [if_neg (by simpa using hs), hp]

/-- Witness for C4 (amended) at concrete inputs. -/
theorem fetch_event_config_failure_modes_witness :
    fetchEventConfigOutcome (fun _ => .ok []) (.ok (some (.num 7))) = ([], true) ∧
      fetchEventConfigOutcome (fun _ => .ok []) (.error ()) = ([], true) :=
  ⟨(fetch_event_config_failure_modes (fun _ => .ok []) "x" 7).2.2.2.2.1 (by decide),
   (fetch_event_config_failure_modes (fun _ => .ok []) "x" 7).1 ()⟩

/-! ## Theorems about default-collapse on write (C2) -/

/-! ## Text utility lemmas -/

theorem splitNl_ne_nil : ∀ s : List Char, splitNl s ≠ [] := by
  intro s
  cases s with
  | nil => simp [splitNl]
  | cons c rest =>
    rw [splitNl]
    by_cases h : c = '\n'
    · simp [h]
    · rw [if_neg h]
      cases hs : splitNl rest with
      | nil => simp
      | cons l ls => simp

theorem joinNl_cons_cons (x y : List Char) (t : List (List Char)) :
    joinNl (x :: y :: t) = x ++ '\n' :: joinNl (y :: t) := rfl

theorem joinNl_append : ∀ xs ys : List (List Char), xs ≠ [] → ys ≠ [] →
    joinNl (xs ++ ys) = joinNl xs ++ '\n' :: joinNl ys := by
  intro xs
  induction xs with
  | nil => intro ys h; exact absurd rfl h
  | cons x xs ih =>
    intro ys _ hys
    cases xs with
    | nil =>
      cases ys with
      | nil => exact absurd rfl hys
      | cons y t => simp [joinNl_cons_cons, joinNl]
    | cons x2 t =>
      have h1 : (x :: x2 :: t) ++ ys = x :: ((x2 :: t) ++ ys) := rfl
      rw [h1]
      have h2 : (x2 :: t) ++ ys = x2 :: (t ++ ys) := rfl
      rw [h2, joinNl_cons_cons, ← h2, ih ys (by simp) hys, joinNl_cons_cons]
      simp

theorem joinNl_splitNl : ∀ s : List Char, joinNl (splitNl s) = s := by
  intro s
  induction s with
  | nil => rfl
  | cons c rest ih =>
    rw [splitNl]
    by_cases h : c = '\n'
    · rw [if_pos h]
      cases hs : splitNl rest with
      | nil => exact absurd hs (splitNl_ne_nil rest)
      | cons l ls =>
        rw [joinNl_cons_cons]
        rw [hs] at ih
        simp [joinNl, ih, h]
    · rw [if_neg h]
      cases hs : splitNl rest with
      | nil => exact absurd hs (splitNl_ne_nil rest)
      | cons l ls =>
        rw [hs] at ih
        cases ls with
        | nil => simpa [joinNl] using ih
        | cons l2 t =>
          rw [joinNl_cons_cons]
          rw [joinNl_cons_cons] at ih
          simpa using ih

theorem splitNl_single {x : List Char} (h : '\n' ∉ x) : splitNl x = [x] := by
  induction x with
  | nil => rfl
  | cons c rest ih =>
    rw [splitNl, if_neg (by intro hc; exact h (hc ▸ List.mem_cons_self c rest))]
    rw [ih (fun hm => h (List.mem_cons_of_mem c hm))]

theorem splitNl_append_nl {x : List Char} (h : '\n' ∉ x) (r : List Char) :
    splitNl (x ++ '\n' :: r) = x :: splitNl r := by
  induction x with
  | nil => simp [splitNl]
  | cons c rest ih =>
    have hc : c ≠ '\n' := fun hc => h (hc ▸ List.mem_cons_self c rest)
    rw [List.cons_append, splitNl, if_neg hc,
      ih (fun hm => h (List.mem_cons_of_mem c hm))]

theorem splitNl_joinNl : ∀ ls : List (List Char), ls ≠ [] →
    (∀ l ∈ ls, '\n' ∉ l) → splitNl (joinNl ls) = ls := by
  intro ls
  induction ls with
  | nil => intro h; exact absurd rfl h
  | cons x xs ih =>
    intro _ hnl
    cases xs with
    | nil =>
      show splitNl (joinNl [x]) = [x]
      exact splitNl_single (hnl x (List.mem_cons_self _ _))
    | cons y t =>
      rw [joinNl_cons_cons, splitNl_append_nl (hnl x (List.mem_cons_self _ _))]
      rw [ih (by simp) (fun l hl => hnl l (List.mem_cons_of_mem _ hl))]

theorem splitNl_no_nl : ∀ (s : List Char) (l : List Char), l ∈ splitNl s → '\n' ∉ l := by
  intro s
  induction s with
  | nil => intro l hl; simp [splitNl] at hl; simp [hl]
  | cons c rest ih =>
    intro l hl
    rw [splitNl] at hl
    by_cases h : c = '\n'
    · rw [if_pos h] at hl
      rcases List.mem_cons.mp hl with rfl | hm
      · simp
      · exact ih l hm
    · rw [if_neg h] at hl
      cases hs : splitNl rest with
      | nil => exact absurd hs (splitNl_ne_nil rest)
      | cons m ms =>
        rw [hs] at hl
        rcases List.mem_cons.mp hl with rfl | hm
        · intro hmem
          rcases List.mem_cons.mp hmem with hc | hm2
          · exact h hc.symm
          · exact ih m (hs ▸ List.mem_cons_self m ms) hm2
        · exact ih l (hs ▸ List.mem_cons_of_mem m hm)

theorem dropWhile_all_append {p : α → Bool} {w : List α}
    (hw : ∀ c ∈ w, p c = true) (y : List α) :
    (w ++ y).dropWhile p = y.dropWhile p := by
  induction w with
  | nil => simp
  | cons c t ih =>
    rw [List.cons_append, List.dropWhile_cons,
      if_pos (hw c (List.mem_cons_self _ _))]
    exact ih fun x hx => hw x (List.mem_cons_of_mem _ hx)

theorem jsTrimEndC_append_ws {w : List Char}
    (hw : ∀ c ∈ w, isJsWs c = true) (y : List Char) :
    jsTrimEndC (y ++ w) = jsTrimEndC y := by
  unfold jsTrimEndC
  rw [List.reverse_append, dropWhile_all_append (by simpa using hw)]

theorem jsTrimEndC_of_last_not_ws {l : List Char} {c : Char}
    (h : l.getLast? = some c) (hc : isJsWs c = false) : jsTrimEndC l = l := by
  unfold jsTrimEndC
  cases hr : l.reverse with
  | nil => simp [hr] at h ⊢; exact (List.reverse_eq_nil_iff.mp hr).symm ▸ rfl
  | cons d t =>
    have hd : d = c := by
      have := l.head?_reverse
      rw [hr] at this
      simp at this
      rw [h] at this
      exact Option.some_injective _ this
    rw [List.dropWhile_cons, if_neg (by simp [hd, hc])]
    rw [← hr, List.reverse_reverse]

theorem jsTrimC_append_ws {w : List Char}
    (hw : ∀ c ∈ w, isJsWs c = true) (y : List Char) :
    jsTrimC (y ++ w) = jsTrimC y := by
  unfold jsTrimC
  rw [List.dropWhile_append]
  by_cases hy : (y.dropWhile isJsWs).isEmpty
  · rw [if_pos hy]
    have hw0 : w.dropWhile isJsWs = [] := List.dropWhile_eq_nil_iff.mpr hw
    have hy0 : y.dropWhile isJsWs = [] := List.isEmpty_iff.mp hy
    rw [hw0, hy0]
  · rw [if_neg hy]
    rw [List.reverse_append, dropWhile_all_append (by simpa using hw)]

theorem head_dropWhile_false {p : α → Bool} {l : List α} {c : α} {t : List α}
    (h : l.dropWhile p = c :: t) : p c = false := by
  have := List.head?_dropWhile_not p l
  rw [h] at this
  simpa using this

theorem jsTrimC_eq_self {l : List Char}
    (h1 : ∀ c, l.head? = some c → isJsWs c = false)
    (h2 : ∀ c, l.getLast? = some c → isJsWs c = false) : jsTrimC l = l := by
  cases l with
  | nil => rfl
  | cons a t =>
    unfold jsTrimC
    rw [List.dropWhile_cons, if_neg (by simp [h1 a rfl])]
    cases hl : (a :: t).getLast? with
    | none => simp at hl
    | some c =>
      cases hr : (a :: t).reverse with
      | nil => simp at hr
      | cons d r =>
        have hd : d = c := by
          have := (a :: t).head?_reverse
          rw [hr, hl] at this
          simpa using this
        rw [List.dropWhile_cons, if_neg (by simp [hd, h2 c hl]), ← hr,
          List.reverse_reverse]

theorem getLast?_dropWhile {p : α → Bool} {l : List α}
    (h : l.dropWhile p ≠ []) : (l.dropWhile p).getLast? = l.getLast? := by
  obtain ⟨a, ha⟩ := (show l.dropWhile p <:+ l from List.dropWhile_suffix p)
  conv_rhs => rw [← ha]
  rw [List.getLast?_append]
  cases hg : (l.dropWhile p).getLast? with
  | none => exact absurd (List.getLast?_eq_none_iff.mp hg) h
  | some c => rfl

theorem jsTrimC_head (l : List Char) :
    ∀ c, (jsTrimC l).head? = some c → isJsWs c = false := by
  intro c hc
  unfold jsTrimC at hc
  rw [List.head?_reverse] at hc
  have hne : (l.dropWhile isJsWs).reverse.dropWhile isJsWs ≠ [] := by
    intro h0
    rw [h0] at hc
    simp at hc
  rw [getLast?_dropWhile hne, List.getLast?_reverse] at hc
  cases hd : l.dropWhile isJsWs with
  | nil => rw [hd] at hc; simp at hc
  | cons d t =>
    rw [hd] at hc
    simp at hc
    rw [← hc]
    exact head_dropWhile_false hd

theorem jsTrimC_last (l : List Char) :
    ∀ c, (jsTrimC l).getLast? = some c → isJsWs c = false := by
  intro c hc
  unfold jsTrimC at hc
  rw [List.getLast?_reverse] at hc
  cases hd : (l.dropWhile isJsWs).reverse.dropWhile isJsWs with
  | nil => rw [hd] at hc; simp at hc
  | cons d t =>
    rw [hd] at hc
    simp at hc
    rw [← hc]
    exact head_dropWhile_false hd

theorem jsTrimC_idem (l : List Char) : jsTrimC (jsTrimC l) = jsTrimC l :=
  jsTrimC_eq_self (jsTrimC_head l) (jsTrimC_last l)

theorem insertSorted_perm (lt : α → α → Bool) (x : α) :
    ∀ l : List α, List.Perm (insertSorted lt x l) (x :: l) := by
  intro l
  induction l with
  | nil => simp [insertSorted]
  | cons y ys ih =>
    rw [insertSorted]
    by_cases h : lt y x
    · rw [if_pos h]
      exact (ih.cons y).trans (List.Perm.swap x y ys)
    · rw [if_neg h]

theorem stableSort_perm (lt : α → α → Bool) :
    ∀ l : List α, List.Perm (stableSort lt l) l := by
  intro l
  induction l with
  | nil => simp [stableSort]
  | cons x xs ih =>
    rw [stableSort]
    exact (insertSorted_perm lt x (stableSort lt xs)).trans (ih.cons x)

theorem actionsMatch_of_eqv {a b : List Action}
    (h : List.Forall₂ (fun x y : Action => x.short = y.short ∧ x.name = y.name ∧
      normalizeCode x.code = normalizeCode y.code) a b) : actionsMatch a b = true := by
  unfold actionsMatch
  rw [Bool.and_eq_true]
  constructor
  · simp [List.Forall₂.length_eq h]
  · rw [List.all_eq_true]
    intro lr hlr
    obtain ⟨hs, hn, hc⟩ := (List.forall₂_iff_zip.mp h).2 hlr
    simp [hs, hn, hc]

/-- **C2.** An event whose action list is structurally equal to the default
action list for its element-type and event-type — componentwise equal
`short`, equal optional `name`, and code equal after whitespace
normalization (runs collapsed to single spaces, trimmed; componentwise
equality forces equal length) — is omitted from the event blocks written to
the page's script file. -/
theorem default_equal_events_omitted (elementTypes : Nat → Option String)
    (getDefault : String → Nat → Option (List Action)) (events : List EventConfig)
    (e : EventConfig) (d : List Action)
    (hd : getDefault (elementTypeOrButton elementTypes e.elementIndex) e.eventType = some d)
    (hstruct : List.Forall₂ (fun x y : Action => x.short = y.short ∧ x.name = y.name ∧
      normalizeCode x.code = normalizeCode y.code) e.actions d) :
    e ∉ writtenEvents elementTypes getDefault events := by
  intro hmem
  unfold writtenEvents at hmem
  have hmem2 : e ∈ events.filter (keepEvent elementTypes getDefault) :=
    (stableSort_perm eventLt _).mem_iff.mp hmem
  have hkeep := (List.mem_filter.mp hmem2).2
  unfold keepEvent at hkeep
  rw [hd] at hkeep
  by_cases hz : e.actions.length = 0
  · rw [if_pos hz] at hkeep
    exact Bool.noConfusion hkeep
  · rw [if_neg hz] at hkeep
    simp [actionsMatch_of_eqv hstruct] at hkeep

/-- Witness for C2: an event whose single action differs from the default
only in whitespace is dropped by the write filter. -/
theorem default_equal_events_omitted_witness :
    (⟨0, 0, [⟨"a", none, " x y "⟩]⟩ : EventConfig) ∉
      writtenEvents (fun _ => some "button")
        (fun t ev => if t = "button" ∧ ev = 0 then some [⟨"a", none, "x  y"⟩] else none)
        [⟨0, 0, [⟨"a", none, " x y "⟩]⟩] :=
  default_equal_events_omitted (fun _ => some "button")
    (fun t ev => if t = "button" ∧ ev = 0 then some [⟨"a", none, "x  y"⟩] else none)
    [⟨0, 0, [⟨"a", none, " x y "⟩]⟩]
    ⟨0, 0, [⟨"a", none, " x y "⟩]⟩ [⟨"a", none, "x  y"⟩]
    (by decide)
    (List.Forall₂.cons ⟨rfl, rfl, by decide⟩ List.Forall₂.nil)

/-! ## Further text-utility lemmas for the round trip -/

theorem dropWhile_all_false {p : α → Bool} :
    ∀ {l : List α}, (∀ c ∈ l, p c = false) → l.dropWhile p = l := by
  intro l h
  cases l with
  | nil => rfl
  | cons a t =>
    rw [List.dropWhile_cons, if_neg (by simp [h a (List.mem_cons_self _ _)])]

theorem takeWhile_all {p : α → Bool} :
    ∀ {l : List α}, (∀ c ∈ l, p c = true) → l.takeWhile p = l := by
  intro l h
  induction l with
  | nil => rfl
  | cons a t ih =>
    rw [List.takeWhile_cons, if_pos (h a (List.mem_cons_self _ _)),
      ih fun c hc => h c (List.mem_cons_of_mem _ hc)]

theorem hasPrefixC_of_append : ∀ (p r : List Char), hasPrefixC p (p ++ r) = true := by
  intro p
  induction p with
  | nil => intro r; rfl
  | cons c t ih => intro r; simp [hasPrefixC, ih r]

theorem jsTrimC_of_no_ws {l : List Char} (h : ∀ c ∈ l, isJsWs c = false) :
    jsTrimC l = l := by
  unfold jsTrimC
  rw [dropWhile_all_false h, dropWhile_all_false (by simpa using h),
    List.reverse_reverse]

theorem jsTrimC_nil_of_all_ws {l : List Char} (h : ∀ c ∈ l, isJsWs c = true) :
    jsTrimC l = [] := by
  unfold jsTrimC
  rw [List.dropWhile_eq_nil_iff.mpr h]
  rfl

theorem joinNl_all_ws : ∀ {B : List (List Char)},
    (∀ l ∈ B, isBlankLine l = true) → ∀ c ∈ joinNl B, isJsWs c = true := by
  intro B
  induction B with
  | nil => intro _ c hc; simp [joinNl] at hc
  | cons x xs ih =>
    intro h c hc
    cases xs with
    | nil =>
      have hx := h x (List.mem_cons_self _ _)
      simp only [isBlankLine, List.all_eq_true] at hx
      exact hx c hc
    | cons y t =>
      rw [joinNl_cons_cons] at hc
      rcases List.mem_append.mp hc with hm | hm
      · have hx := h x (List.mem_cons_self _ _)
        simp only [isBlankLine, List.all_eq_true] at hx
        exact hx c hm
      · rcases List.mem_cons.mp hm with rfl | hm2
        · decide
        · exact ih (fun l hl => h l (List.mem_cons_of_mem _ hl)) c hm2

theorem splitNl_append : ∀ (x r : List Char),
    splitNl (x ++ '\n' :: r) = splitNl x ++ splitNl r := by
  intro x
  induction x with
  | nil => intro r; simp [splitNl]
  | cons c x2 ih =>
    intro r
    by_cases hc : c = '\n'
    · subst hc
      rw [List.cons_append, splitNl, if_pos rfl, splitNl, if_pos rfl, ih r]
      rfl
    · rw [List.cons_append, splitNl, if_neg hc, ih r, splitNl, if_neg hc]
      cases hx : splitNl x2 with
      | nil => exact absurd hx (splitNl_ne_nil x2)
      | cons l ls => rfl

theorem splitNl_joinNl_flat : ∀ {L : List (List Char)}, L ≠ [] →
    splitNl (joinNl L) = L.flatMap splitNl := by
  intro L
  induction L with
  | nil => intro h; exact absurd rfl h
  | cons x xs ih =>
    intro _
    cases xs with
    | nil => simp [joinNl, List.flatMap]
    | cons y t =>
      rw [joinNl_cons_cons, splitNl_append, ih (by simp), List.flatMap_cons]
      simp [List.flatMap_cons]

theorem joinNl_flatMap_splitNl : ∀ {L : List (List Char)}, L ≠ [] →
    joinNl (L.flatMap splitNl) = joinNl L := by
  intro L
  induction L with
  | nil => intro h; exact absurd rfl h
  | cons x xs ih =>
    intro _
    cases xs with
    | nil =>
      show joinNl ([x].flatMap splitNl) = joinNl [x]
      rw [List.flatMap_cons, List.flatMap_nil, List.append_nil, joinNl_splitNl]
      rfl
    | cons y t =>
      rw [List.flatMap_cons, joinNl_cons_cons,
        joinNl_append _ _ (splitNl_ne_nil x) (by
          rw [List.flatMap_cons]
          intro h0
          exact splitNl_ne_nil y (List.append_eq_nil.mp h0).1),
        joinNl_splitNl, ih (by simp)]

theorem splitNl_getLast : ∀ (s : List Char) (c : Char), s.getLast? = some c →
    c ≠ '\n' → ∃ l, (splitNl s).getLast? = some l ∧ l.getLast? = some c := by
  intro s
  induction s with
  | nil => intro c hc; simp at hc
  | cons a t ih =>
    intro c hc hnl
    cases t with
    | nil =>
      simp at hc
      subst hc
      refine ⟨[a], ?_, rfl⟩
      rw [splitNl, if_neg hnl]
      rfl
    | cons b t2 =>
      have hc2 : (b :: t2).getLast? = some c := by
        rw [List.getLast?_cons_cons] at hc
        exact hc
      obtain ⟨l, hl1, hl2⟩ := ih c hc2 hnl
      rw [splitNl]
      by_cases ha : a = '\n'
      · rw [if_pos ha]
        refine ⟨l, ?_, hl2⟩
        cases hs : splitNl (b :: t2) with
        | nil => exact absurd hs (splitNl_ne_nil _)
        | cons m ms =>
          rw [hs] at hl1
          rw [List.getLast?_cons_cons]
          exact hl1
      · rw [if_neg ha]
        cases hs : splitNl (b :: t2) with
        | nil => exact absurd hs (splitNl_ne_nil _)
        | cons m ms =>
          rw [hs] at hl1
          cases ms with
          | nil =>
            have hm : m = l := by simpa using hl1
            refine ⟨a :: m, by simp, ?_⟩
            rw [hm]
            cases hlc : l with
            | nil => rw [hlc] at hl2; simp at hl2
            | cons u v =>
              rw [hlc] at hl2
              rw [List.getLast?_cons_cons]
              exact hl2
          | cons m2 ms2 =>
            refine ⟨l, ?_, hl2⟩
            simpa using hl1

theorem joinNl_getLast : ∀ {L : List (List Char)} {l : List Char} {c : Char},
    L.getLast? = some l → l.getLast? = some c → (joinNl L).getLast? = some c := by
  intro L
  induction L with
  | nil => intro l c hl; simp at hl
  | cons x xs ih =>
    intro l c hl hc
    cases xs with
    | nil =>
      simp at hl
      subst hl
      simpa [joinNl] using hc
    | cons y t =>
      rw [List.getLast?_cons_cons] at hl
      have hJ : (joinNl (y :: t)).getLast? = some c := ih hl hc
      have hJne : joinNl (y :: t) ≠ [] := by
        intro h0; rw [h0] at hJ; simp at hJ
      rw [joinNl_cons_cons, List.getLast?_append]
      cases hj : joinNl (y :: t) with
      | nil => exact absurd hj hJne
      | cons u v =>
        rw [hj] at hJ
        rw [List.getLast?_cons_cons, hJ]
        rfl

/-! ## Decimal rendering lemmas -/

theorem digitVal_digitChar : ∀ n < 10, digitVal (digitChar n) = some n := by decide

theorem digit_char_class : ∀ d < 10, isJsWs (digitChar d) = false ∧
    isWordChar (digitChar d) = true ∧ digitChar d ≠ '\n' ∧ digitChar d ≠ ']' ∧
    digitChar d ≠ '#' ∧ digitChar d ≠ '"' ∧ digitChar d ≠ '=' ∧ digitChar d ≠ ',' ∧
    digitChar d ≠ '-' := by decide

theorem natDecGo_mem : ∀ fuel n c, c ∈ natDecGo fuel n → ∃ d, d < 10 ∧ c = digitChar d := by
  intro fuel
  induction fuel with
  | zero => intro n c hc; simp [natDecGo] at hc
  | succ f ih =>
    intro n c hc
    rw [natDecGo] at hc
    by_cases h : n < 10
    · rw [if_pos h] at hc
      simp at hc
      exact ⟨n, h, hc⟩
    · rw [if_neg h] at hc
      rcases List.mem_append.mp hc with hm | hm
      · exact ih _ c hm
      · simp at hm
        exact ⟨n % 10, Nat.mod_lt _ (by omega), hm⟩

theorem natDec_mem {n : Nat} {c : Char} (hc : c ∈ natDec n) :
    ∃ d, d < 10 ∧ c = digitChar d :=
  natDecGo_mem _ n c hc

theorem natDecGo_ne_nil (fuel n : Nat) : natDecGo (fuel + 1) n ≠ [] := by
  rw [natDecGo]
  by_cases h : n < 10
  · rw [if_pos h]; simp
  · rw [if_neg h]; simp

theorem natDec_ne_nil (n : Nat) : natDec n ≠ [] := natDecGo_ne_nil n n

theorem natDec_no_ws {n : Nat} : ∀ c ∈ natDec n, isJsWs c = false := by
  intro c hc
  obtain ⟨d, hd, rfl⟩ := natDec_mem hc
  exact (digit_char_class d hd).1

theorem natDec_word {n : Nat} : ∀ c ∈ natDec n, isWordChar c = true := by
  intro c hc
  obtain ⟨d, hd, rfl⟩ := natDec_mem hc
  exact (digit_char_class d hd).2.1

theorem jsTrimC_natDec (n : Nat) : jsTrimC (natDec n) = natDec n :=
  jsTrimC_of_no_ws natDec_no_ws

theorem foldlDec : ∀ fuel n, n < fuel → ∀ a : Nat, ∃ m, 0 < m ∧
    (natDecGo fuel n).foldl
      (fun acc c =>
        match acc, digitVal c with
        | some a, some d => some (a * 10 + d)
        | _, _ => none) (some a) = some (a * m + n) := by
  intro fuel
  induction fuel with
  | zero => intro n h; omega
  | succ f ih =>
    intro n hn a
    rw [natDecGo]
    by_cases h : n < 10
    · rw [if_pos h]
      refine ⟨10, by omega, ?_⟩
      simp [List.foldl, digitVal_digitChar n h]
    · rw [if_neg h]
      have hdiv : n / 10 < f := by
        have h1 : n / 10 < n := Nat.div_lt_self (by omega) (by omega)
        omega
      obtain ⟨m, hm, hfold⟩ := ih (n / 10) hdiv a
      refine ⟨m * 10, by positivity, ?_⟩
      rw [List.foldl_append, hfold]
      have hd : digitVal (digitChar (n % 10)) = some (n % 10) :=
        digitVal_digitChar _ (Nat.mod_lt _ (by omega))
      simp only [List.foldl_cons, List.foldl_nil, hd]
      congr 1
      calc (a * m + n / 10) * 10 + n % 10
          = a * (m * 10) + (10 * (n / 10) + n % 10) := by ring
        _ = a * (m * 10) + n := by rw [Nat.div_add_mod]

theorem decNat_natDec (n : Nat) : decNat (natDec n) = some n := by
  unfold decNat
  rw [if_neg (by simp [List.isEmpty_iff, natDec_ne_nil n])]
  obtain ⟨m, hm, hfold⟩ := foldlDec (n + 1) n (by omega) 0
  rw [natDec, hfold]
  simp

/-! ## Line classification for the writer's output -/

theorem sepDashes_facts : matchShorthand sepDashesLine = none ∧
    matchLegacy sepDashesLine = none ∧ matchEventHeaderLine sepDashesLine = none ∧
    isIgnoredLine sepDashesLine = true ∧ isBlankLine sepDashesLine = false ∧
    '\n' ∉ sepDashesLine := by decide

theorem sepEquals_facts : matchShorthand sepEqualsLine = none ∧
    matchLegacy sepEqualsLine = none ∧ matchEventHeaderLine sepEqualsLine = none ∧
    isIgnoredLine sepEqualsLine = true ∧ isBlankLine sepEqualsLine = false ∧
    '\n' ∉ sepEqualsLine := by decide

theorem blank_facts : matchShorthand ([] : List Char) = none ∧
    matchLegacy ([] : List Char) = none ∧ matchEventHeaderLine ([] : List Char) = none ∧
    isBlankLine ([] : List Char) = true ∧ fmEventBreak ([] : List Char) = false ∧
    hasPrefixC "-- grid:".data ([] : List Char) = false := by decide

theorem nameLine_facts (suf : List Char) :
    matchShorthand ("-- action: ".data ++ suf) = none ∧
    matchLegacy ("-- action: ".data ++ suf) = none ∧
    matchEventHeaderLine ("-- action: ".data ++ suf) = none ∧
    isIgnoredLine ("-- action: ".data ++ suf) = true ∧
    isBlankLine ("-- action: ".data ++ suf) = false := by
  refine ⟨?_, ?_, ?_, ?_, ?_⟩
  · simp [matchShorthand, hasPrefixC, List.dropWhile, isJsWs]
  · simp [matchLegacy, hasPrefixC, List.dropWhile, isJsWs]
  · simp [matchEventHeaderLine, hasPrefixC, List.dropWhile, isJsWs]
  · simp [isIgnoredLine, hasPrefixC]
  · simp [isBlankLine, isJsWs]

theorem string_ne_data {s : String} (h : s ≠ "") : s.data ≠ [] := by
  intro h0
  apply h
  cases s with
  | mk d =>
    simp at h0
    subst h0
    rfl

theorem metaOf_ne_nil {a : Action} (hshort : a.short ≠ "") : metaOf a ≠ [] := by
  unfold metaOf
  cases hn : a.name with
  | none => exact string_ne_data hshort
  | some n =>
    dsimp only
    by_cases h : n = ""
    · rw [if_pos h]; exact string_ne_data hshort
    · rw [if_neg h]
      intro h0
      exact string_ne_data hshort (List.append_eq_nil.mp h0).1

theorem metaOf_mem {a : Action} {c : Char} (hc : c ∈ metaOf a) :
    c ∈ a.short.data ∨ c = '#' ∨ ∃ n, a.name = some n ∧ c ∈ n.data := by
  unfold metaOf at hc
  cases hn : a.name with
  | none => rw [hn] at hc; exact Or.inl hc
  | some n =>
    rw [hn] at hc
    dsimp only at hc
    by_cases h : n = ""
    · rw [if_pos h] at hc; exact Or.inl hc
    · rw [if_neg h] at hc
      rcases List.mem_append.mp hc with hm | hm
      · exact Or.inl hm
      · rcases List.mem_cons.mp hm with rfl | hm2
        · exact Or.inr (Or.inl rfl)
        · exact Or.inr (Or.inr ⟨n, rfl, hm2⟩)

theorem metaOf_no_rbracket {a : Action}
    (hsc : ∀ c ∈ a.short.data, c ≠ ']' ∧ c ≠ '#' ∧ c ≠ '\n')
    (hname : ∀ n, a.name = some n → ∀ c ∈ n.data, c ≠ ']' ∧ c ≠ '\n') :
    ∀ c ∈ metaOf a, c ≠ ']' := by
  intro c hc
  rcases metaOf_mem hc with hm | rfl | ⟨n, hn, hm⟩
  · exact (hsc c hm).1
  · decide
  · exact (hname n hn c hm).1

theorem metaOf_no_nl {a : Action}
    (hsc : ∀ c ∈ a.short.data, c ≠ ']' ∧ c ≠ '#' ∧ c ≠ '\n')
    (hname : ∀ n, a.name = some n → ∀ c ∈ n.data, c ≠ ']' ∧ c ≠ '\n') :
    ∀ c ∈ metaOf a, c ≠ '\n' := by
  intro c hc
  rcases metaOf_mem hc with hm | rfl | ⟨n, hn, hm⟩
  · exact (hsc c hm).2.2
  · decide
  · exact (hname n hn c hm).2

theorem matchShorthand_header (a : Action) (hshort : a.short ≠ "")
    (hsc : ∀ c ∈ a.short.data, c ≠ ']' ∧ c ≠ '#' ∧ c ≠ '\n')
    (hname : ∀ n, a.name = some n → ∀ c ∈ n.data, c ≠ ']' ∧ c ≠ '\n') :
    matchShorthand (actionHeaderLine a) = some (metaOf a, []) := by
  unfold actionHeaderLine matchShorthand
  have hassoc : "--[[@".data ++ metaOf a ++ "]]".data =
      "--[[@".data ++ (metaOf a ++ "]]".data) := by
    rw [List.append_assoc]
  rw [hassoc]
  have hdw : ("--[[@".data ++ (metaOf a ++ "]]".data)).dropWhile isJsWs =
      "--[[@".data ++ (metaOf a ++ "]]".data) := by
    simp [List.dropWhile, isJsWs]
  rw [hdw, if_pos (hasPrefixC_of_append _ _)]
  have hdrop : ("--[[@".data ++ (metaOf a ++ "]]".data)).drop 5 =
      metaOf a ++ "]]".data := by
    have : (5 : Nat) = ("--[[@".data).length := by decide
    rw [this, List.drop_left]
  rw [hdrop]
  dsimp only
  have htake : (metaOf a ++ "]]".data).takeWhile (fun c => c ≠ ']') = metaOf a := by
    rw [List.takeWhile_append_of_pos
      (by intro c hc; simpa using metaOf_no_rbracket hsc hname c hc)]
    simp [List.takeWhile]
  rw [htake, if_neg (by simp [List.isEmpty_iff, metaOf_ne_nil hshort])]
  rw [List.drop_left]
  rfl

theorem header_line_facts (suf : List Char) :
    matchEventHeaderLine ("--[[@".data ++ suf) = none ∧
    isBlankLine ("--[[@".data ++ suf) = false ∧
    fmEventBreak ("--[[@".data ++ suf) = false ∧
    hasPrefixC "-- grid:".data ("--[[@".data ++ suf) = false := by
  refine ⟨?_, ?_, ?_, ?_⟩
  · simp [matchEventHeaderLine, hasPrefixC, List.dropWhile, isJsWs]
  · simp [isBlankLine, isJsWs]
  · simp [fmEventBreak, hasPrefixC, List.dropWhile, isJsWs]
  · simp [hasPrefixC]

theorem splitMeta_metaOf (a : Action)
    (hsc : ∀ c ∈ a.short.data, c ≠ ']' ∧ c ≠ '#' ∧ c ≠ '\n') :
    splitMeta (metaOf a) =
      (a.short.data, match a.name with
        | some n => if n = "" then none else some n.data
        | none => none) := by
  unfold splitMeta metaOf
  cases hn : a.name with
  | none =>
    dsimp only
    rw [takeWhile_all (by intro c hc; simpa using (hsc c hc).2.1)]
    rw [List.drop_length]
  | some n =>
    dsimp only
    by_cases h : n = ""
    · rw [if_pos h]
      rw [takeWhile_all (by intro c hc; simpa using (hsc c hc).2.1)]
      rw [List.drop_length]
      simp [h]
    · rw [if_neg h]
      have htake : (a.short.data ++ '#' :: n.data).takeWhile (fun c => c ≠ '#') =
          a.short.data := by
        rw [List.takeWhile_append_of_pos
          (by intro c hc; simpa using (hsc c hc).2.1)]
        simp [List.takeWhile]
      rw [htake, List.drop_left]
      simp [h]

/-! ## Event-header scan lemmas -/

theorem word_not_ws {c : Char} (h : isWordChar c = true) : isJsWs c = false := by
  cases hws : isJsWs c
  · rfl
  · exfalso
    have hd : c = ' ' ∨ c = '\t' ∨ c = '\n' ∨ c = '\r' ∨
        c = Char.ofNat 11 ∨ c = Char.ofNat 12 := by
      simpa [isJsWs, or_assoc] using hws
    rcases hd with rfl | rfl | rfl | rfl | rfl | rfl <;> revert h <;> decide

theorem word_ne_quote {c : Char} (h : isWordChar c = true) : c ≠ '"' := by
  intro h0
  subst h0
  revert h
  decide

theorem natDec_head_ne_quote (n : Nat) : (natDec n).head? ≠ some '"' := by
  intro h
  obtain ⟨d, hd, he⟩ := natDec_mem (List.mem_of_mem_head? h)
  exact (digit_char_class d hd).2.2.2.2.2.1 he.symm

theorem scanKV_end (f : Nat) (acc : List (List Char × List Char)) :
    scanKVGo f [] acc = acc := by
  cases f <;> rfl

theorem scanKV_skipws (f : Nat) (c : Char) (rest : List Char)
    (acc : List (List Char × List Char)) (hc : isWordChar c = false) :
    scanKVGo (f + 1) (c :: rest) acc = scanKVGo f rest acc := by
  rw [scanKVGo.eq_def]
  simp [hc]

theorem scanKV_pair (f : Nat) (w v rest : List Char)
    (acc : List (List Char × List Char))
    (hw : w ≠ []) (hwall : ∀ c ∈ w, isWordChar c = true)
    (hv : v ≠ []) (hvws : ∀ c ∈ v, isJsWs c = false) (hvq : v.head? ≠ some '"')
    (hstop : rest.head? = some ' ' ∨ rest = []) :
    scanKVGo (f + 1) (w ++ '=' :: (v ++ rest)) acc =
      scanKVGo f rest (acc ++ [(w, v)]) := by
  cases w with
  | nil => exact absurd rfl hw
  | cons w0 ws =>
  cases v with
  | nil => exact absurd rfl hv
  | cons v0 vs =>
  have htakew : ((w0 :: ws) ++ '=' :: ((v0 :: vs) ++ rest)).takeWhile isWordChar =
      w0 :: ws := by
    rw [List.takeWhile_append_of_pos hwall]
    rw [List.takeWhile_cons, if_neg (by decide)]
    simp
  have hdropw : ((w0 :: ws) ++ '=' :: ((v0 :: vs) ++ rest)).drop (w0 :: ws).length =
      '=' :: ((v0 :: vs) ++ rest) := List.drop_left _ _
  have hv0 : v0 ≠ '"' := by
    intro h0
    exact hvq (by simp [h0])
  have htakev : ((v0 :: vs) ++ rest).takeWhile (fun c => !(isJsWs c)) = v0 :: vs := by
    rw [List.takeWhile_append_of_pos (by intro c hc; simp [hvws c hc])]
    rcases hstop with hs | hs
    · obtain ⟨ys, hys⟩ := List.head?_eq_some_iff.mp hs
      rw [hys]
      simp [List.takeWhile, isJsWs]
    · rw [hs]
      simp
  have hdropv : ((v0 :: vs) ++ rest).drop (v0 :: vs).length = rest :=
    List.drop_left _ _
  simp only [List.cons_append] at htakew hdropw htakev hdropv
  rw [scanKVGo.eq_def]
  simp only [List.cons_append]
  rw [if_pos (hwall w0 (List.mem_cons_self _ _))]
  rw [htakew, hdropw]
  split
  · next q heq =>
    injection heq with h1 h2
    subst h2
    split
    · next q2 heq2 =>
      injection heq2 with h3 h4
      exact absurd h3 hv0
    · next hne3 =>
      rw [htakev]
      rw [if_neg (by simp)]
      rw [hdropv]
  · next hne2 =>
    exact (hne2 (v0 :: (vs ++ rest)) rfl).elim

theorem scanKV_header (f : Nat) (digits nm : List Char)
    (hd : digits ≠ []) (hdw : ∀ c ∈ digits, isWordChar c = true)
    (hdq : digits.head? ≠ some '"')
    (hnw : ∀ c ∈ nm, isJsWs c = false) (hnq : nm.head? ≠ some '"') (hne : nm ≠ []) :
    scanKVGo (f + 3) ("element=".data ++ (digits ++ (" event=".data ++ nm))) [] =
      [("element".data, digits), ("event".data, nm)] := by
  have h1 : "element=".data ++ (digits ++ (" event=".data ++ nm)) =
      "element".data ++ '=' :: (digits ++ (' ' :: ("event=".data ++ nm))) := by
    simp
  rw [h1]
  have hf : f + 3 = (f + 2) + 1 := by omega
  rw [hf, scanKV_pair (f + 2) "element".data digits
    (' ' :: ("event=".data ++ nm)) [] (by simp) (by decide) hd
    (fun c hc => word_not_ws (hdw c hc)) hdq (Or.inl rfl)]
  simp only [List.nil_append]
  have hf2 : f + 2 = (f + 1) + 1 := by omega
  rw [hf2, scanKV_skipws _ _ _ _ (by decide)]
  have h2 : "event=".data ++ nm = "event".data ++ '=' :: (nm ++ []) := by simp
  rw [h2]
  rw [scanKV_pair f "event".data nm [] [("element".data, digits)]
    (by simp) (by decide) hne hnw hnq (Or.inr rfl)]
  rw [scanKV_end]
  simp

theorem stripQuotes_id {v : List Char} (hq : v.head? ≠ some '"') :
    stripQuotes v = v := by
  unfold stripQuotes
  cases v with
  | nil => rfl
  | cons c cs =>
    have hc : c ≠ '"' := by
      intro h0
      exact hq (by simp [h0])
    rw [if_neg]
    intro hcontra
    simp [hasPrefixC] at hcontra
    exact hc hcontra.1.symm

theorem jsTrimC_cons_ws {c : Char} (hc : isJsWs c = true) (y : List Char) :
    jsTrimC (c :: y) = jsTrimC y := by
  unfold jsTrimC
  rw [List.dropWhile_cons, if_pos (by simp [hc])]

theorem matchEventHeader_w (i : Nat) (nm : List Char) :
    matchEventHeaderLine
        ("-- grid:event element=".data ++ (natDec i ++ (" event=".data ++ nm))) =
      some ("element=".data ++ (natDec i ++ (" event=".data ++ nm))) := by
  simp [matchEventHeaderLine, hasPrefixC, List.dropWhile, isJsWs]

theorem fmEventBreak_header (suf : List Char) :
    fmEventBreak ("-- grid:event ".data ++ suf) = true := by
  simp [fmEventBreak, hasPrefixC, List.dropWhile, isJsWs]

theorem fm_line_not_break (digits : List Char) :
    fmEventBreak ("-- grid: page=".data ++ digits) = false := by
  simp [fmEventBreak, hasPrefixC, List.dropWhile, isJsWs]

theorem parseEventHeader_w (i : Nat) (nm : List Char)
    (hnw : ∀ c ∈ nm, isJsWs c = false) (hnq : nm.head? ≠ some '"') (hne : nm ≠ []) :
    parseEventHeader ("element=".data ++ (natDec i ++ (" event=".data ++ nm))) =
      .ok (i, none, nm) := by
  unfold parseEventHeader
  have h2 : 2 ≤ ("element=".data ++ (natDec i ++ (" event=".data ++ nm))).length := by
    rw [List.length_append]
    have h8 : ("element=".data).length = 8 := by decide
    omega
  have hlen : ("element=".data ++ (natDec i ++ (" event=".data ++ nm))).length + 1 =
      (("element=".data ++ (natDec i ++ (" event=".data ++ nm))).length - 2) + 3 := by
    omega
  rw [hlen, scanKV_header _ (natDec i) nm (natDec_ne_nil i) (fun c hc => natDec_word c hc)
    (natDec_head_ne_quote i) hnw hnq hne]
  have hmap : ([("element".data, natDec i), ("event".data, nm)].map
      fun p => (p.1, stripQuotes p.2)) =
      [("element".data, natDec i), ("event".data, nm)] := by
    simp [stripQuotes_id (natDec_head_ne_quote i), stripQuotes_id hnq]
  rw [hmap]
  have hkv_el : kvLookup [("element".data, natDec i), ("event".data, nm)]
      "element".data = some (natDec i) := by
    simp [kvLookup, List.find?, List.isEmpty_iff, natDec_ne_nil i]
  have hkv_ev : kvLookup [("element".data, natDec i), ("event".data, nm)]
      "event".data = some nm := by
    simp [kvLookup, List.find?, List.isEmpty_iff, hne]
  have hkv_et : kvLookup [("element".data, natDec i), ("event".data, nm)]
      "elementType".data = none := by
    simp [kvLookup, List.find?]
  dsimp only
  rw [hkv_el, hkv_ev, hkv_et]
  dsimp only
  rw [decNat_natDec]

theorem parseFM_skip_blank (rest : List (List Char))
    (acc : List (List Char × List Char)) :
    parseFrontMatterGo ([] :: rest) acc = parseFrontMatterGo rest acc := by
  rw [parseFrontMatterGo, if_neg (by decide), if_pos (by decide)]

theorem parseFM_break (L : List Char) (hL : fmEventBreak L = true)
    (rest : List (List Char)) (acc : List (List Char × List Char)) :
    parseFrontMatterGo (L :: rest) acc = .ok acc := by
  rw [parseFrontMatterGo, if_pos hL]

theorem parseFM_fm_line (n : Nat) (rest : List (List Char))
    (acc : List (List Char × List Char)) :
    parseFrontMatterGo (frontMatterLine n :: rest) acc =
      parseFrontMatterGo rest (acc ++ [("page".data, natDec n)]) := by
  rw [parseFrontMatterGo]
  rw [if_neg (by rw [frontMatterLine, fm_line_not_break]; simp)]
  rw [if_neg (by simp [frontMatterLine, hasPrefixC])]
  rw [if_neg (by simp [frontMatterLine, hasPrefixC])]
  have hdrop8 : (frontMatterLine n).drop 8 = ' ' :: ("page=".data ++ natDec n) := by
    simp [frontMatterLine]
  rw [hdrop8]
  have hno_ws : ∀ c ∈ "page=".data ++ natDec n, isJsWs c = false := by
    intro c hc
    rcases List.mem_append.mp hc with hm | hm
    · revert hm
      have : ∀ c ∈ "page=".data, isJsWs c = false := by decide
      exact this c
    · exact natDec_no_ws c hm
  rw [jsTrimC_cons_ws (by decide), jsTrimC_of_no_ws hno_ws]
  have htk : ("page=".data ++ natDec n).takeWhile (fun c => c ≠ '=') = "page".data := by
    have h1 : "page=".data ++ natDec n = "page".data ++ '=' :: natDec n := by simp
    rw [h1, List.takeWhile_append_of_pos (by decide), List.takeWhile_cons,
      if_neg (by decide)]
    simp
  have hd4 : ("page=".data ++ natDec n).drop ("page".data).length = '=' :: natDec n := by
    have h1 : "page=".data ++ natDec n = "page".data ++ '=' :: natDec n := by simp
    rw [h1, List.drop_left]
  dsimp only
  rw [htk, hd4]
  dsimp only
  have hkey : jsTrimC "page".data = "page".data := by decide
  rw [hkey]
  split
  · next tail heq =>
    injection heq with h1 h2
    subst h2
    rw [jsTrimC_natDec]
    rw [if_neg (by simp [List.isEmpty_iff, natDec_ne_nil n])]
  · next hne2 =>
    exact (hne2 (natDec n) rfl).elim

theorem parseFM_run (n : Nat) (L : List Char) (hL : fmEventBreak L = true)
    (tail : List (List Char)) :
    parseFrontMatterGo (frontMatterLine n :: [] :: L :: tail) [] =
      .ok [("page".data, natDec n)] := by
  rw [parseFM_fm_line, parseFM_skip_blank, parseFM_break L hL]
  simp

theorem jsTrimC_last_exists {l : List Char} (h : jsTrimC l ≠ []) :
    ∃ c, (jsTrimC l).getLast? = some c ∧ isJsWs c = false := by
  cases hg : (jsTrimC l).getLast? with
  | none => exact absurd (List.getLast?_eq_none_iff.mp hg) h
  | some c => exact ⟨c, rfl, jsTrimC_last l c hg⟩

theorem flatMap_splitNl_of_no_nl {L : List (List Char)} (h : ∀ l ∈ L, '\n' ∉ l) :
    L.flatMap splitNl = L := by
  induction L with
  | nil => rfl
  | cons x xs ih =>
    rw [List.flatMap_cons, splitNl_single (h x (List.mem_cons_self _ _)),
      ih fun l hl => h l (List.mem_cons_of_mem _ hl)]
    rfl

/-! ## Flattening the formatted action block -/

theorem flat_shift {α β : Type} (sep : List α) (seg : β → List α) (pad : α) :
    ∀ rest : List β, (rest.flatMap fun b => (pad :: sep) ++ seg b) ++ [pad] =
      [pad] ++ rest.flatMap fun b => sep ++ (seg b ++ [pad]) := by
  intro rest
  induction rest with
  | nil => simp
  | cons b r ih =>
    simp only [List.flatMap_cons, List.append_assoc, List.cons_append,
      List.nil_append] at ih ⊢
    rw [ih]

theorem actionNameLines_cases (dn : String → Option String) (a : Action) :
    actionNameLines dn a = [] ∨ ∃ d, dn a.short = some d ∧ d ≠ "" ∧
      actionNameLines dn a =
        ["-- action: ".data ++ (d.data ++ (" (".data ++ (a.short.data ++ ")".data)))] := by
  unfold actionNameLines
  cases hd : dn a.short with
  | none => exact Or.inl rfl
  | some d =>
    dsimp only
    by_cases h : d = ""
    · rw [if_pos h]; exact Or.inl rfl
    · rw [if_neg h]
      refine Or.inr ⟨d, rfl, h, ?_⟩
      simp

theorem header_no_nl {a : Action}
    (hsc : ∀ c ∈ a.short.data, c ≠ ']' ∧ c ≠ '#' ∧ c ≠ '\n')
    (hname : ∀ n, a.name = some n → ∀ c ∈ n.data, c ≠ ']' ∧ c ≠ '\n') :
    '\n' ∉ actionHeaderLine a := by
  intro hmem
  unfold actionHeaderLine at hmem
  rcases List.mem_append.mp hmem with hm | hm
  · rcases List.mem_append.mp hm with hm2 | hm2
    · revert hm2; decide
    · exact metaOf_no_nl hsc hname _ hm2 rfl
  · revert hm; decide

theorem nameLines_no_nl {dn : String → Option String} {a : Action}
    (hdn : ∀ s d, dn s = some d → '\n' ∉ d.data)
    (hsc : ∀ c ∈ a.short.data, c ≠ ']' ∧ c ≠ '#' ∧ c ≠ '\n') :
    ∀ l ∈ actionNameLines dn a, '\n' ∉ l := by
  intro l hl hmem
  rcases actionNameLines_cases dn a with hc | ⟨d, hd, hne, hc⟩
  · rw [hc] at hl; simp at hl
  · rw [hc] at hl
    rcases List.mem_cons.mp hl with rfl | h0
    · rcases List.mem_append.mp hmem with hm | hm
      · revert hm; decide
      · rcases List.mem_append.mp hm with hm2 | hm2
        · exact hdn _ _ hd hm2
        · rcases List.mem_append.mp hm2 with hm3 | hm3
          · revert hm3; decide
          · rcases List.mem_append.mp hm3 with hm4 | hm4
            · exact (hsc _ hm4).2.2 rfl
            · revert hm4; decide
    · simp at h0

theorem nameLines_flat {dn : String → Option String} {a : Action}
    (hdn : ∀ s d, dn s = some d → '\n' ∉ d.data)
    (hsc : ∀ c ∈ a.short.data, c ≠ ']' ∧ c ≠ '#' ∧ c ≠ '\n') :
    (actionNameLines dn a).flatMap splitNl = actionNameLines dn a := by
  rcases actionNameLines_cases dn a with hc | ⟨d, hd, hne, hc⟩
  · rw [hc]; rfl
  · rw [hc]
    rw [List.flatMap_cons, List.flatMap_nil, List.append_nil]
    rw [splitNl_single]
    intro hmem
    exact nameLines_no_nl hdn hsc _ (hc ▸ List.mem_cons_self _ _) hmem

theorem actionSegFlat_ne_nil (dn : String → Option String) (humanize : String → String)
    (a : Action) : actionSegFlat dn humanize a ≠ [] := by
  unfold actionSegFlat
  intro h0
  exact splitNl_ne_nil _ (List.append_eq_nil.mp h0).2

theorem segFlat_getLast {dn : String → Option String} {humanize : String → String}
    {a : Action} (hWF : WFAction humanize a) :
    ∃ l c, (actionSegFlat dn humanize a).getLast? = some l ∧
      l.getLast? = some c ∧ isJsWs c = false := by
  obtain ⟨hshort, hsc, hname, htne, hsafe⟩ := hWF
  obtain ⟨c, hc, hcw⟩ := jsTrimC_last_exists htne
  obtain ⟨l, hl1, hl2⟩ := splitNl_getLast _ c hc (by
    intro h0
    rw [h0] at hcw
    revert hcw
    decide)
  refine ⟨l, c, ?_, hl2, hcw⟩
  unfold actionSegFlat
  rw [List.getLast?_append, hl1]
  rfl

theorem segFlat_no_nl {dn : String → Option String} {humanize : String → String}
    {a : Action} (hdn : ∀ s d, dn s = some d → '\n' ∉ d.data)
    (hWF : WFAction humanize a) : ∀ l ∈ actionSegFlat dn humanize a, '\n' ∉ l := by
  obtain ⟨hshort, hsc, hname, htne, hsafe⟩ := hWF
  intro l hl
  unfold actionSegFlat at hl
  rcases List.mem_append.mp hl with hm | hm
  · rcases List.mem_append.mp hm with hm2 | hm2
    · exact nameLines_no_nl hdn hsc l hm2
    · rcases List.mem_cons.mp hm2 with rfl | h0
      · exact header_no_nl hsc hname
      · simp at h0
  · exact splitNl_no_nl _ l hm

theorem segFlat_flatMap {dn : String → Option String} {humanize : String → String}
    {a : Action} (hdn : ∀ s d, dn s = some d → '\n' ∉ d.data)
    (hWF : WFAction humanize a) :
    (actionSegFlat dn humanize a).flatMap splitNl = actionSegFlat dn humanize a := by
  obtain ⟨hshort, hsc, hname, htne, hsafe⟩ := hWF
  unfold actionSegFlat
  rw [List.flatMap_append, List.flatMap_append]
  rw [nameLines_flat hdn hsc]
  congr 1
  congr 1
  · rw [List.flatMap_cons, List.flatMap_nil, List.append_nil]
    rw [splitNl_single (header_no_nl hsc hname)]
  · exact flatMap_splitNl_of_no_nl (splitNl_no_nl _)

theorem splitNl_nil_eq : splitNl ([] : List Char) = [[]] := rfl

theorem entriesGo_flat (dn : String → Option String) (humanize : String → String)
    (hdn : ∀ s d, dn s = some d → '\n' ∉ d.data) :
    ∀ as : List Action, (∀ a ∈ as, WFAction humanize a) →
    (actionBlockEntriesGo dn false (humanizeActions humanize as)).flatMap splitNl =
      as.flatMap fun b => sepDashesLine :: (actionSegFlat dn humanize b ++ [[]]) := by
  intro as
  induction as with
  | nil => intro h; rfl
  | cons a rest ih =>
    intro h
    have hWF := h a (List.mem_cons_self _ _)
    have hstep : actionBlockEntriesGo dn false (humanizeActions humanize (a :: rest)) =
        (((([sepDashesLine] ++ actionNameLines dn a) ++ [actionHeaderLine a]) ++
          [jsTrimC (humanize a.code).data]) ++ [[]]) ++
          actionBlockEntriesGo dn false (humanizeActions humanize rest) := rfl
    rw [hstep]
    simp only [List.flatMap_append, List.flatMap_cons, List.flatMap_nil,
      List.append_nil, splitNl_nil_eq]
    rw [ih fun b hb => h b (List.mem_cons_of_mem _ hb)]
    rw [nameLines_flat hdn hWF.2.1, splitNl_single (header_no_nl hWF.2.1 hWF.2.2.1)]
    have hsep : splitNl sepDashesLine = [sepDashesLine] := by decide
    rw [hsep]
    simp [actionSegFlat, List.append_assoc]

theorem entriesTrue_flat (dn : String → Option String) (humanize : String → String)
    (hdn : ∀ s d, dn s = some d → '\n' ∉ d.data) (a : Action) (rest : List Action)
    (h : ∀ b ∈ a :: rest, WFAction humanize b) :
    (actionBlockEntriesGo dn true (humanizeActions humanize (a :: rest))).flatMap splitNl =
      (actionSegFlat dn humanize a ++ [[]]) ++
        rest.flatMap fun b => sepDashesLine :: (actionSegFlat dn humanize b ++ [[]]) := by
  have hWF := h a (List.mem_cons_self _ _)
  have hstep : actionBlockEntriesGo dn true (humanizeActions humanize (a :: rest)) =
      ((((([] : List (List Char)) ++ actionNameLines dn a) ++ [actionHeaderLine a]) ++
        [jsTrimC (humanize a.code).data]) ++ [[]]) ++
        actionBlockEntriesGo dn false (humanizeActions humanize rest) := rfl
  rw [hstep]
  simp only [List.flatMap_append, List.flatMap_cons, List.flatMap_nil,
    List.append_nil, splitNl_nil_eq, List.nil_append]
  rw [entriesGo_flat dn humanize hdn rest fun b hb => h b (List.mem_cons_of_mem _ hb)]
  rw [nameLines_flat hdn hWF.2.1, splitNl_single (header_no_nl hWF.2.1 hWF.2.2.1)]
  simp [actionSegFlat, List.append_assoc]

theorem blockShift (dn : String → Option String) (humanize : String → String) :
    ∀ rest : List Action,
      (rest.flatMap fun b => [[], sepDashesLine] ++ actionSegFlat dn humanize b) ++ [[]] =
      ([] : List Char) :: rest.flatMap
        fun b => sepDashesLine :: (actionSegFlat dn humanize b ++ [[]]) := by
  intro rest
  induction rest with
  | nil => rfl
  | cons b r ih =>
    simp only [List.flatMap_cons, List.append_assoc, List.cons_append,
      List.nil_append] at ih ⊢
    rw [ih]

theorem blockFlatCore_snoc_blank (dn : String → Option String)
    (humanize : String → String) (a : Action) (rest : List Action) :
    blockFlatCore dn humanize (a :: rest) ++ [[]] =
      (actionSegFlat dn humanize a ++ [[]]) ++
        rest.flatMap fun b => sepDashesLine :: (actionSegFlat dn humanize b ++ [[]]) := by
  rw [blockFlatCore]
  rw [List.append_assoc, List.append_assoc]
  congr 1
  exact blockShift dn humanize rest

theorem blockFlatCore_ne_nil (dn : String → Option String) (humanize : String → String)
    {as : List Action} (h : as ≠ []) : blockFlatCore dn humanize as ≠ [] := by
  cases as with
  | nil => exact absurd rfl h
  | cons a rest =>
    rw [blockFlatCore]
    intro h0
    exact actionSegFlat_ne_nil dn humanize a (List.append_eq_nil.mp h0).1

theorem blockFlatCore_no_nl {dn : String → Option String} {humanize : String → String}
    (hdn : ∀ s d, dn s = some d → '\n' ∉ d.data) {as : List Action}
    (h : ∀ a ∈ as, WFAction humanize a) :
    ∀ l ∈ blockFlatCore dn humanize as, '\n' ∉ l := by
  cases as with
  | nil => intro l hl; rw [blockFlatCore] at hl; simp at hl
  | cons a rest =>
    intro l hl
    rw [blockFlatCore] at hl
    rcases List.mem_append.mp hl with hm | hm
    · exact segFlat_no_nl hdn (h a (List.mem_cons_self _ _)) l hm
    · obtain ⟨b, hb, hm2⟩ := List.mem_flatMap.mp hm
      rcases List.mem_append.mp hm2 with hm3 | hm3
      · rcases List.mem_cons.mp hm3 with rfl | hm4
        · simp
        · rcases List.mem_cons.mp hm4 with rfl | hm5
          · decide
          · simp at hm5
      · exact segFlat_no_nl hdn (h b (List.mem_cons_of_mem _ hb)) l hm3

theorem blockFlatCore_getLast {dn : String → Option String} {humanize : String → String}
    {as : List Action} (hne : as ≠ []) (h : ∀ a ∈ as, WFAction humanize a) :
    ∃ l c, (blockFlatCore dn humanize as).getLast? = some l ∧ l.getLast? = some c ∧
      isJsWs c = false := by
  induction as with
  | nil => exact absurd rfl hne
  | cons a rest ih =>
    cases rest with
    | nil =>
      rw [blockFlatCore]
      simp only [List.flatMap_nil, List.append_nil]
      exact segFlat_getLast (h a (List.mem_cons_self _ _))
    | cons b r =>
      obtain ⟨l, c, h1, h2, h3⟩ := ih (by simp) fun x hx => h x (List.mem_cons_of_mem _ hx)
      refine ⟨l, c, ?_, h2, h3⟩
      rw [blockFlatCore]
      have hexp : ((b :: r).flatMap
          fun x => [[], sepDashesLine] ++ actionSegFlat dn humanize x) =
          [[], sepDashesLine] ++ blockFlatCore dn humanize (b :: r) := by
        rw [List.flatMap_cons, blockFlatCore]
        simp [List.append_assoc]
      rw [hexp, List.getLast?_append, List.getLast?_append, h1]
      rfl

theorem formatActionBlock_flat {dn : String → Option String} {humanize : String → String}
    (hdn : ∀ s d, dn s = some d → '\n' ∉ d.data) (a : Action) (rest : List Action)
    (hWF : ∀ b ∈ a :: rest, WFAction humanize b) :
    formatActionBlock dn (humanizeActions humanize (a :: rest)) =
      joinNl (blockFlatCore dn humanize (a :: rest)) ∧
    splitNl (formatActionBlock dn (humanizeActions humanize (a :: rest))) =
      blockFlatCore dn humanize (a :: rest) := by
  have hEflat := (entriesTrue_flat dn humanize hdn a rest hWF).trans
    (blockFlatCore_snoc_blank dn humanize a rest).symm
  have hEne : actionBlockEntriesGo dn true (humanizeActions humanize (a :: rest)) ≠ [] := by
    intro h0
    rw [h0] at hEflat
    simp only [List.flatMap_nil] at hEflat
    exact absurd hEflat.symm (by simp)
  have hcne : blockFlatCore dn humanize (a :: rest) ≠ [] :=
    blockFlatCore_ne_nil dn humanize (by simp)
  have hjoin : joinNl (actionBlockEntriesGo dn true (humanizeActions humanize (a :: rest))) =
      joinNl (blockFlatCore dn humanize (a :: rest)) ++ ['\n'] := by
    rw [← joinNl_flatMap_splitNl hEne, hEflat,
      joinNl_append _ _ hcne (by simp)]
    rfl
  obtain ⟨l, c, hl1, hl2, hl3⟩ := blockFlatCore_getLast (by simp) hWF
  have hlast : (joinNl (blockFlatCore dn humanize (a :: rest))).getLast? = some c :=
    joinNl_getLast hl1 hl2
  have htrim : formatActionBlock dn (humanizeActions humanize (a :: rest)) =
      joinNl (blockFlatCore dn humanize (a :: rest)) := by
    unfold formatActionBlock actionBlockEntries
    rw [hjoin]
    rw [jsTrimEndC_append_ws (by decide) _]
    exact jsTrimEndC_of_last_not_ws hlast hl3
  exact ⟨htrim, by
    rw [htrim]
    exact splitNl_joinNl _ hcne (blockFlatCore_no_nl hdn hWF)⟩

/-! ## Flattening one page's content -/

theorem formatActionBlock_split {dn : String → Option String} {humanize : String → String}
    (hdn : ∀ s d, dn s = some d → '\n' ∉ d.data) {acts : List Action} (hne : acts ≠ [])
    (hWF : ∀ b ∈ acts, WFAction humanize b) :
    splitNl (formatActionBlock dn (humanizeActions humanize acts)) =
      blockFlatCore dn humanize acts := by
  cases acts with
  | nil => exact absurd rfl hne
  | cons a rest => exact (formatActionBlock_flat hdn a rest hWF).2

theorem evHeader_no_nl {pe : String → Option (List ProtoEvent)} {et : String}
    {e : EventConfig}
    (hnm : ∀ c ∈ (getEventNameForType pe et e.eventType).data, isJsWs c = false) :
    '\n' ∉ eventHeaderLineW pe et e := by
  intro hmem
  unfold eventHeaderLineW at hmem
  rcases List.mem_append.mp hmem with hm | hm
  · rcases List.mem_append.mp hm with hm2 | hm2
    · rcases List.mem_append.mp hm2 with hm3 | hm3
      · revert hm3; decide
      · exact absurd (natDec_no_ws '\n' hm3) (by decide)
    · revert hm2; decide
  · exact absurd (hnm '\n' hm) (by decide)

theorem fm_no_nl (n : Nat) : '\n' ∉ frontMatterLine n := by
  intro hmem
  unfold frontMatterLine at hmem
  rcases List.mem_append.mp hmem with hm | hm
  · revert hm; decide
  · exact absurd (natDec_no_ws '\n' hm) (by decide)

theorem evSegFlat_ne_nil (dn : String → Option String) (humanize : String → String)
    (pe : String → Option (List ProtoEvent)) (ets : List (Nat × String))
    (e : EventConfig) : evSegFlat dn humanize pe ets e ≠ [] := by
  unfold evSegFlat
  simp

theorem evSegFlat_no_nl {dn : String → Option String} {humanize : String → String}
    {pe : String → Option (List ProtoEvent)} {ets : List (Nat × String)}
    (hdn : ∀ s d, dn s = some d → '\n' ∉ d.data) {e : EventConfig}
    (hWF : WFBlock dn humanize pe ets e) :
    ∀ l ∈ evSegFlat dn humanize pe ets e, '\n' ∉ l := by
  intro l hl
  unfold evSegFlat at hl
  rcases List.mem_cons.mp hl with rfl | hm
  · exact evHeader_no_nl hWF.2.2.2.2
  · exact blockFlatCore_no_nl hdn hWF.2.1 l hm

theorem evSegFlat_getLast {dn : String → Option String} {humanize : String → String}
    {pe : String → Option (List ProtoEvent)} {ets : List (Nat × String)}
    {e : EventConfig} (hWF : WFBlock dn humanize pe ets e) :
    ∃ l c, (evSegFlat dn humanize pe ets e).getLast? = some l ∧
      l.getLast? = some c ∧ isJsWs c = false := by
  obtain ⟨l, c, h1, h2, h3⟩ := blockFlatCore_getLast hWF.1 hWF.2.1
  refine ⟨l, c, ?_, h2, h3⟩
  unfold evSegFlat
  rw [List.getLast?_cons, h1]
  have := blockFlatCore_ne_nil dn humanize hWF.1
  cases hb : blockFlatCore dn humanize e.actions with
  | nil => exact absurd hb this
  | cons x xs =>
    rw [hb] at h1
    simp [h1]

theorem evSegFlat_flatMap {dn : String → Option String} {humanize : String → String}
    {pe : String → Option (List ProtoEvent)} {ets : List (Nat × String)}
    (hdn : ∀ s d, dn s = some d → '\n' ∉ d.data) {e : EventConfig}
    (hWF : WFBlock dn humanize pe ets e) :
    (evSegFlat dn humanize pe ets e).flatMap splitNl = evSegFlat dn humanize pe ets e :=
  flatMap_splitNl_of_no_nl (evSegFlat_no_nl hdn hWF)

theorem pageGo_flat (dn : String → Option String) (humanize : String → String)
    (pe : String → Option (List ProtoEvent)) (ets : List (Nat × String))
    (hdn : ∀ s d, dn s = some d → '\n' ∉ d.data) :
    ∀ evs : List EventConfig, (∀ e ∈ evs, WFBlock dn humanize pe ets e) →
    (pageBlocksGo dn humanize pe ets false evs).flatMap splitNl =
      evs.flatMap fun e => sepEqualsLine :: ([] : List Char) ::
        (evSegFlat dn humanize pe ets e ++ [[]]) := by
  intro evs
  induction evs with
  | nil => intro h; rfl
  | cons e rest ih =>
    intro h
    have hWF := h e (List.mem_cons_self _ _)
    have hstep : pageBlocksGo dn humanize pe ets false (e :: rest) =
        ((([sepEqualsLine, []] ++
          [eventHeaderLineW pe (elementTypeOrButton (lookupIdx ets) e.elementIndex) e]) ++
          [formatActionBlock dn (humanizeActions humanize e.actions)]) ++ [[]]) ++
          pageBlocksGo dn humanize pe ets false rest := rfl
    rw [hstep]
    simp only [List.flatMap_append, List.flatMap_cons, List.flatMap_nil,
      List.append_nil, splitNl_nil_eq]
    rw [ih fun x hx => h x (List.mem_cons_of_mem _ hx)]
    rw [formatActionBlock_split hdn hWF.1 hWF.2.1]
    rw [splitNl_single (evHeader_no_nl hWF.2.2.2.2)]
    have hsep : splitNl sepEqualsLine = [sepEqualsLine] := by decide
    rw [hsep]
    simp [evSegFlat, List.append_assoc]

theorem pageTrue_flat (dn : String → Option String) (humanize : String → String)
    (pe : String → Option (List ProtoEvent)) (ets : List (Nat × String))
    (hdn : ∀ s d, dn s = some d → '\n' ∉ d.data) (e : EventConfig)
    (rest : List EventConfig) (h : ∀ x ∈ e :: rest, WFBlock dn humanize pe ets x) :
    (pageBlocksGo dn humanize pe ets true (e :: rest)).flatMap splitNl =
      (evSegFlat dn humanize pe ets e ++ [[]]) ++
        rest.flatMap fun x => sepEqualsLine :: ([] : List Char) ::
          (evSegFlat dn humanize pe ets x ++ [[]]) := by
  have hWF := h e (List.mem_cons_self _ _)
  have hstep : pageBlocksGo dn humanize pe ets true (e :: rest) =
      ((((([] : List (List Char)) ++
        [eventHeaderLineW pe (elementTypeOrButton (lookupIdx ets) e.elementIndex) e]) ++
        [formatActionBlock dn (humanizeActions humanize e.actions)]) ++ [[]]) ++
        pageBlocksGo dn humanize pe ets false rest) := rfl
  rw [hstep]
  simp only [List.flatMap_append, List.flatMap_cons, List.flatMap_nil,
    List.append_nil, splitNl_nil_eq, List.nil_append]
  rw [pageGo_flat dn humanize pe ets hdn rest fun x hx => h x (List.mem_cons_of_mem _ hx)]
  rw [formatActionBlock_split hdn hWF.1 hWF.2.1]
  rw [splitNl_single (evHeader_no_nl hWF.2.2.2.2)]
  simp [evSegFlat, List.append_assoc]

theorem pageShift (dn : String → Option String) (humanize : String → String)
    (pe : String → Option (List ProtoEvent)) (ets : List (Nat × String)) :
    ∀ rest : List EventConfig,
      (rest.flatMap fun e => [[], sepEqualsLine, []] ++ evSegFlat dn humanize pe ets e) ++
        [[]] =
      ([] : List Char) :: rest.flatMap fun e => sepEqualsLine :: ([] : List Char) ::
        (evSegFlat dn humanize pe ets e ++ [[]]) := by
  intro rest
  induction rest with
  | nil => rfl
  | cons e r ih =>
    simp only [List.flatMap_cons, List.append_assoc, List.cons_append,
      List.nil_append] at ih ⊢
    rw [ih]

theorem pageFlatCore_snoc_blank (dn : String → Option String)
    (humanize : String → String) (pe : String → Option (List ProtoEvent))
    (ets : List (Nat × String)) (e : EventConfig) (rest : List EventConfig) :
    pageFlatCore dn humanize pe ets (e :: rest) ++ [[]] =
      (evSegFlat dn humanize pe ets e ++ [[]]) ++
        rest.flatMap fun x => sepEqualsLine :: ([] : List Char) ::
          (evSegFlat dn humanize pe ets x ++ [[]]) := by
  rw [pageFlatCore]
  rw [List.append_assoc, List.append_assoc]
  congr 1
  exact pageShift dn humanize pe ets rest

theorem pageFlatCore_ne_nil (dn : String → Option String) (humanize : String → String)
    (pe : String → Option (List ProtoEvent)) (ets : List (Nat × String))
    {evs : List EventConfig} (h : evs ≠ []) :
    pageFlatCore dn humanize pe ets evs ≠ [] := by
  cases evs with
  | nil => exact absurd rfl h
  | cons e rest =>
    rw [pageFlatCore]
    intro h0
    exact evSegFlat_ne_nil dn humanize pe ets e (List.append_eq_nil.mp h0).1

theorem pageFlatCore_no_nl {dn : String → Option String} {humanize : String → String}
    {pe : String → Option (List ProtoEvent)} {ets : List (Nat × String)}
    (hdn : ∀ s d, dn s = some d → '\n' ∉ d.data) {evs : List EventConfig}
    (h : ∀ e ∈ evs, WFBlock dn humanize pe ets e) :
    ∀ l ∈ pageFlatCore dn humanize pe ets evs, '\n' ∉ l := by
  cases evs with
  | nil => intro l hl; rw [pageFlatCore] at hl; simp at hl
  | cons e rest =>
    intro l hl
    rw [pageFlatCore] at hl
    rcases List.mem_append.mp hl with hm | hm
    · exact evSegFlat_no_nl hdn (h e (List.mem_cons_self _ _)) l hm
    · obtain ⟨x, hx, hm2⟩ := List.mem_flatMap.mp hm
      rcases List.mem_append.mp hm2 with hm3 | hm3
      · rcases List.mem_cons.mp hm3 with rfl | hm4
        · simp
        · rcases List.mem_cons.mp hm4 with rfl | hm5
          · decide
          · rcases List.mem_cons.mp hm5 with rfl | hm6
            · simp
            · simp at hm6
      · exact evSegFlat_no_nl hdn (h x (List.mem_cons_of_mem _ hx)) l hm3

theorem pageFlatCore_getLast {dn : String → Option String} {humanize : String → String}
    {pe : String → Option (List ProtoEvent)} {ets : List (Nat × String)}
    {evs : List EventConfig} (hne : evs ≠ [])
    (h : ∀ e ∈ evs, WFBlock dn humanize pe ets e) :
    ∃ l c, (pageFlatCore dn humanize pe ets evs).getLast? = some l ∧
      l.getLast? = some c ∧ isJsWs c = false := by
  induction evs with
  | nil => exact absurd rfl hne
  | cons e rest ih =>
    cases rest with
    | nil =>
      rw [pageFlatCore]
      simp only [List.flatMap_nil, List.append_nil]
      exact evSegFlat_getLast (h e (List.mem_cons_self _ _))
    | cons b r =>
      obtain ⟨l, c, h1, h2, h3⟩ := ih (by simp) fun x hx => h x (List.mem_cons_of_mem _ hx)
      refine ⟨l, c, ?_, h2, h3⟩
      rw [pageFlatCore]
      have hexp : ((b :: r).flatMap
          fun x => [[], sepEqualsLine, []] ++ evSegFlat dn humanize pe ets x) =
          [[], sepEqualsLine, []] ++ pageFlatCore dn humanize pe ets (b :: r) := by
        rw [List.flatMap_cons, pageFlatCore]
        simp [List.append_assoc]
      rw [hexp, List.getLast?_append, List.getLast?_append, h1]
      rfl

theorem pageContent_flat {dn : String → Option String} {humanize : String → String}
    {pe : String → Option (List ProtoEvent)} {ets : List (Nat × String)}
    (hdn : ∀ s d, dn s = some d → '\n' ∉ d.data) (n : Nat) (e : EventConfig)
    (rest : List EventConfig) (h : ∀ x ∈ e :: rest, WFBlock dn humanize pe ets x) :
    splitNl (pageContent dn humanize pe ets (e :: rest) n) =
      frontMatterLine n :: ([] : List Char) ::
        (pageFlatCore dn humanize pe ets (e :: rest) ++ [[]]) := by
  have hpfne : pageFlatCore dn humanize pe ets (e :: rest) ≠ [] :=
    pageFlatCore_ne_nil dn humanize pe ets (by simp)
  have hstep : pageEntries dn humanize pe ets (e :: rest) n =
      ([frontMatterLine n] ++ [[]]) ++ pageBlocksGo dn humanize pe ets true (e :: rest) :=
    rfl
  have hEflat : (pageEntries dn humanize pe ets (e :: rest) n).flatMap splitNl =
      (frontMatterLine n :: ([] : List Char) ::
        pageFlatCore dn humanize pe ets (e :: rest)) ++ [[]] := by
    rw [hstep]
    simp only [List.flatMap_append, List.flatMap_cons, List.flatMap_nil,
      List.append_nil, splitNl_nil_eq]
    rw [splitNl_single (fm_no_nl n)]
    rw [pageTrue_flat dn humanize pe ets hdn e rest h]
    rw [← pageFlatCore_snoc_blank]
    simp [List.append_assoc]
  have hEne : pageEntries dn humanize pe ets (e :: rest) n ≠ [] := by
    rw [hstep]
    simp
  have hjoin : joinNl (pageEntries dn humanize pe ets (e :: rest) n) =
      joinNl (frontMatterLine n :: ([] : List Char) ::
        pageFlatCore dn humanize pe ets (e :: rest)) ++ ['\n'] := by
    rw [← joinNl_flatMap_splitNl hEne, hEflat, joinNl_append _ _ (by simp) (by simp)]
    rfl
  obtain ⟨l, c, h1, h2, h3⟩ := pageFlatCore_getLast (by simp) h
  have hgl : (frontMatterLine n :: ([] : List Char) ::
      pageFlatCore dn humanize pe ets (e :: rest)).getLast? = some l := by
    rw [List.getLast?_cons_cons]
    cases hp : pageFlatCore dn humanize pe ets (e :: rest) with
    | nil => exact absurd hp hpfne
    | cons x xs =>
      rw [List.getLast?_cons_cons, ← hp, h1]
  have hlastc : (joinNl (frontMatterLine n :: ([] : List Char) ::
      pageFlatCore dn humanize pe ets (e :: rest))).getLast? = some c :=
    joinNl_getLast hgl h2
  have hlines : ∀ l2 ∈ frontMatterLine n :: ([] : List Char) ::
      pageFlatCore dn humanize pe ets (e :: rest), '\n' ∉ l2 := by
    intro l2 hl2
    rcases List.mem_cons.mp hl2 with rfl | hl3
    · exact fm_no_nl n
    · rcases List.mem_cons.mp hl3 with rfl | hl4
      · simp
      · exact pageFlatCore_no_nl hdn h l2 hl4
  unfold pageContent
  rw [hjoin, jsTrimEndC_append_ws (by decide), jsTrimEndC_of_last_not_ws hlastc h3]
  have hsp : ∀ X : List Char, X ++ ['\n'] = X ++ '\n' :: [] := fun X => rfl
  rw [hsp, splitNl_append]
  rw [splitNl_joinNl _ (by simp) hlines]
  rfl

/-! ## Running the action parser over a formatted block -/

theorem string_eta (s : String) : (⟨s.data⟩ : String) = s := by
  cases s
  rfl

theorem flushAction_append_blank (cur : Option (List Char × Option (List Char)))
    (codeLines : List (List Char)) (acc : List Action) {l : List Char}
    (hb : isBlankLine l = true) :
    flushAction cur (codeLines ++ [l]) acc = flushAction cur codeLines acc := by
  cases cur with
  | none => rfl
  | some sn =>
    unfold flushAction
    have heq : jsTrimC (joinNl (codeLines ++ [l])) = jsTrimC (joinNl codeLines) := by
      cases codeLines with
      | nil =>
        show jsTrimC (joinNl [l]) = jsTrimC (joinNl [])
        have h1 : joinNl [l] = l := rfl
        have h2 : joinNl ([] : List (List Char)) = [] := rfl
        rw [h1, h2]
        rw [jsTrimC_nil_of_all_ws (by
          intro c hc
          have := (List.all_eq_true.mp hb) c hc
          simpa using this)]
        rfl
      | cons x xs =>
        rw [joinNl_append _ _ (by simp) (by simp)]
        have h1 : joinNl [l] = l := rfl
        rw [h1]
        exact jsTrimC_append_ws (by
          intro c hc
          rcases List.mem_cons.mp hc with rfl | hm
          · decide
          · have := (List.all_eq_true.mp hb) c hm
            simpa using this) _
    rw [heq]

theorem parseLua_safe_lines : ∀ (L R : List (List Char)),
    (∀ l ∈ L, safeCodeLine l) → ∀ sn codeLines acc,
    parseLuaGo (L ++ R) (some sn) codeLines acc =
      parseLuaGo R (some sn) (codeLines ++ L) acc := by
  intro L
  induction L with
  | nil => intro R h sn cl acc; simp
  | cons l L' ih =>
    intro R h sn cl acc
    obtain ⟨h1, h2, h3, h4, h5⟩ := h l (List.mem_cons_self _ _)
    rw [List.cons_append, parseLuaGo, h1]
    dsimp only
    rw [h2]
    dsimp only
    rw [if_pos (by simp [h4, h5])]
    rw [ih R (fun x hx => h x (List.mem_cons_of_mem _ hx)) sn (cl ++ [l]) acc]
    rw [List.append_assoc]
    rfl

theorem parseLua_tail : ∀ T : List (List Char), TailSafe T →
    ∀ cur codeLines acc, parseLuaGo T cur codeLines acc = flushAction cur codeLines acc := by
  intro T
  induction T with
  | nil => intro _ cur cl acc; rfl
  | cons l T' ih =>
    intro hT cur cl acc
    obtain ⟨h1, h2, h3, h45, h6⟩ := hT l (List.mem_cons_self _ _)
    have ihT := ih fun x hx => hT x (List.mem_cons_of_mem _ hx)
    cases cur with
    | none =>
      rw [parseLuaGo, h1]
      dsimp only
      rw [h2]
      dsimp only
      exact ihT none cl acc
    | some c =>
      rw [parseLuaGo, h1]
      dsimp only
      rw [h2]
      dsimp only
      by_cases hb : isBlankLine l = true
      · by_cases hce : cl.isEmpty = true
        · rw [if_neg (by simp [hb]), if_neg (by simp [hce])]
          exact ihT (some c) cl acc
        · rw [if_neg (by simp [hb]), if_pos (by simp [hce, hb])]
          rw [ihT (some c) (cl ++ [l]) acc]
          exact flushAction_append_blank _ _ _ hb
      · have hig : isIgnoredLine l = true := by
          rcases h45 with h | h
          · exact h
          · exact absurd h hb
        rw [if_neg (by simp [hig]), if_neg (by simp [hb])]
        exact ihT (some c) cl acc

theorem parseLua_skip_line {l : List Char} (h1 : matchShorthand l = none)
    (h2 : matchLegacy l = none) (h4 : isIgnoredLine l = true)
    (h5 : isBlankLine l = false) (rest : List (List Char))
    (cur : Option (List Char × Option (List Char))) (codeLines : List (List Char))
    (acc : List Action) :
    parseLuaGo (l :: rest) cur codeLines acc = parseLuaGo rest cur codeLines acc := by
  cases cur with
  | none =>
    rw [parseLuaGo, h1]
    dsimp only
    rw [h2]
  | some c =>
    rw [parseLuaGo, h1]
    dsimp only
    rw [h2]
    dsimp only
    rw [if_neg (by simp [h4]), if_neg (by simp [h5])]

theorem parseLua_blank_append (rest : List (List Char))
    (sn : List Char × Option (List Char)) (codeLines : List (List Char))
    (acc : List Action) (hne : codeLines ≠ []) :
    parseLuaGo (([] : List Char) :: rest) (some sn) codeLines acc =
      parseLuaGo rest (some sn) (codeLines ++ [[]]) acc := by
  rw [parseLuaGo, blank_facts.1]
  dsimp only
  rw [blank_facts.2.1]
  dsimp only
  rw [if_neg (by decide), if_pos (by
    rw [Bool.and_eq_true]
    exact ⟨by simp [List.isEmpty_iff, hne], by decide⟩)]

theorem parseLua_header (a : Action) (hshort : a.short ≠ "")
    (hsc : ∀ c ∈ a.short.data, c ≠ ']' ∧ c ≠ '#' ∧ c ≠ '\n')
    (hname : ∀ n, a.name = some n → ∀ c ∈ n.data, c ≠ ']' ∧ c ≠ '\n')
    (rest : List (List Char)) (cur : Option (List Char × Option (List Char)))
    (codeLines : List (List Char)) (acc : List Action) :
    parseLuaGo (actionHeaderLine a :: rest) cur codeLines acc =
      parseLuaGo rest (some (splitMeta (metaOf a))) []
        (flushAction cur codeLines acc) := by
  cases cur with
  | none =>
    rw [parseLuaGo, matchShorthand_header a hshort hsc hname]
    dsimp only
    rw [if_pos (by decide)]
  | some c =>
    rw [parseLuaGo, matchShorthand_header a hshort hsc hname]
    dsimp only
    rw [if_pos (by decide)]

theorem flush_seg {humanize : String → String} {a : Action}
    (hWF : WFAction humanize a) (acc : List Action) :
    flushAction (some (splitMeta (metaOf a)))
        (splitNl (jsTrimC (humanize a.code).data)) acc =
      acc ++ [roundTripAction humanize a] := by
  obtain ⟨hshort, hsc, hname, htne, hsafe⟩ := hWF
  rw [splitMeta_metaOf a hsc]
  unfold flushAction
  dsimp only
  rw [joinNl_splitNl, jsTrimC_idem]
  rw [if_neg (by simp [List.isEmpty_iff, htne])]
  unfold roundTripAction
  cases hn : a.name with
  | none => simp [string_eta]
  | some n =>
    by_cases h : n = ""
    · simp [h, string_eta]
    · simp [h, string_eta]

theorem parseLua_segs {dn : String → Option String} {humanize : String → String}
    (hdn : ∀ s d, dn s = some d → '\n' ∉ d.data) :
    ∀ (rest : List Action) (a : Action), WFAction humanize a →
      (∀ b ∈ rest, WFAction humanize b) → ∀ T : List (List Char), TailSafe T →
      ∀ acc : List Action,
      parseLuaGo (splitNl (jsTrimC (humanize a.code).data) ++
          ((rest.flatMap fun b => [[], sepDashesLine] ++ actionSegFlat dn humanize b) ++ T))
        (some (splitMeta (metaOf a))) [] acc =
      acc ++ (a :: rest).map (roundTripAction humanize) := by
  intro rest
  induction rest with
  | nil =>
    intro a hWFa _ T hT acc
    rw [List.flatMap_nil, List.nil_append]
    rw [parseLua_safe_lines _ T hWFa.2.2.2.2 _ [] acc]
    rw [parseLua_tail T hT, List.nil_append]
    rw [flush_seg hWFa]
    rfl
  | cons b rest' ih =>
    intro a hWFa hrest T hT acc
    have hWFb := hrest b (List.mem_cons_self _ _)
    rw [List.flatMap_cons]
    rw [parseLua_safe_lines _ _ hWFa.2.2.2.2 _ [] acc, List.nil_append]
    have hskip_names : ∀ rst cur cl acc2, parseLuaGo (actionNameLines dn b ++ rst)
        cur cl acc2 = parseLuaGo rst cur cl acc2 := by
      intro rst cur cl acc2
      rcases actionNameLines_cases dn b with hnl | ⟨d, hd, hdne, hnl⟩
      · rw [hnl, List.nil_append]
      · rw [hnl]
        rw [List.cons_append, List.nil_append]
        exact parseLua_skip_line (nameLine_facts _).1 (nameLine_facts _).2.1
          (nameLine_facts _).2.2.2.1 (nameLine_facts _).2.2.2.2 _ _ _ _
    have heq : (([[], sepDashesLine] ++ actionSegFlat dn humanize b) ++
        (rest'.flatMap fun x => [[], sepDashesLine] ++ actionSegFlat dn humanize x)) ++ T =
        ([] : List Char) :: sepDashesLine :: (actionNameLines dn b ++
          (actionHeaderLine b :: (splitNl (jsTrimC (humanize b.code).data) ++
            ((rest'.flatMap fun x => [[], sepDashesLine] ++ actionSegFlat dn humanize x) ++
              T)))) := by
      unfold actionSegFlat
      simp [List.append_assoc]
    rw [heq]
    rw [parseLua_blank_append _ _ _ _ (splitNl_ne_nil _)]
    rw [parseLua_skip_line sepDashes_facts.1 sepDashes_facts.2.1
      sepDashes_facts.2.2.2.1 sepDashes_facts.2.2.2.2.1]
    rw [hskip_names]
    rw [parseLua_header b hWFb.1 hWFb.2.1 hWFb.2.2.1]
    rw [flushAction_append_blank _ _ _ (by decide), flush_seg hWFa]
    rw [ih b hWFb (fun x hx => hrest x (List.mem_cons_of_mem _ hx)) T hT
      (acc ++ [roundTripAction humanize a])]
    simp

theorem parseLua_block {dn : String → Option String} {humanize : String → String}
    (hdn : ∀ s d, dn s = some d → '\n' ∉ d.data) (a : Action) (rest : List Action)
    (hWF : ∀ b ∈ a :: rest, WFAction humanize b) (T : List (List Char)) (hT : TailSafe T) :
    parseLuaGo (blockFlatCore dn humanize (a :: rest) ++ T) none [] [] =
      (a :: rest).map (roundTripAction humanize) := by
  have hWFa := hWF a (List.mem_cons_self _ _)
  rw [blockFlatCore]
  have hskip_names : ∀ rst, parseLuaGo (actionNameLines dn a ++ rst) none [] [] =
      parseLuaGo rst none [] [] := by
    intro rst
    rcases actionNameLines_cases dn a with hnl | ⟨d, hd, hdne, hnl⟩
    · rw [hnl, List.nil_append]
    · rw [hnl]
      rw [List.cons_append, List.nil_append]
      exact parseLua_skip_line (nameLine_facts _).1 (nameLine_facts _).2.1
        (nameLine_facts _).2.2.2.1 (nameLine_facts _).2.2.2.2 _ _ _ _
  have heq : (actionSegFlat dn humanize a ++
      (rest.flatMap fun x => [[], sepDashesLine] ++ actionSegFlat dn humanize x)) ++ T =
      actionNameLines dn a ++ (actionHeaderLine a ::
        (splitNl (jsTrimC (humanize a.code).data) ++
          ((rest.flatMap fun x => [[], sepDashesLine] ++ actionSegFlat dn humanize x) ++
            T))) := by
    unfold actionSegFlat
    simp [List.append_assoc]
  rw [heq, hskip_names]
  rw [parseLua_header a hWFa.1 hWFa.2.1 hWFa.2.2.1]
  have hflush : flushAction none [] ([] : List Action) = [] := rfl
  rw [hflush]
  have := parseLua_segs hdn rest a hWFa (fun x hx => hWF x (List.mem_cons_of_mem _ hx)) T hT []
  rw [List.nil_append] at this
  exact this

/-! ## Running the event splitter over a page -/

theorem parseLuaFile_block {dn : String → Option String} {humanize : String → String}
    (hdn : ∀ s d, dn s = some d → '\n' ∉ d.data) (a : Action) (rest : List Action)
    (hWF : ∀ b ∈ a :: rest, WFAction humanize b) (T : List (List Char))
    (hT : TailSafe T) :
    parseLuaFile (joinNl (blockFlatCore dn humanize (a :: rest) ++ T)) =
      (a :: rest).map (roundTripAction humanize) := by
  unfold parseLuaFile
  rw [splitNl_joinNl _ (by
      intro h0
      exact @blockFlatCore_ne_nil dn humanize (a :: rest) (by simp)
        (List.append_eq_nil.mp h0).1)
    (by
      intro l hl
      rcases List.mem_append.mp hl with hm | hm
      · exact blockFlatCore_no_nl hdn hWF l hm
      · exact (hT l hm).2.2.2.2)]
  exact parseLua_block hdn a rest hWF T hT

theorem header_event_none (a : Action) :
    matchEventHeaderLine (actionHeaderLine a) = none := by
  have h : actionHeaderLine a = "--[[@".data ++ (metaOf a ++ "]]".data) := by
    unfold actionHeaderLine
    rw [List.append_assoc]
  rw [h]
  exact (header_line_facts _).1

theorem nameLines_no_evh {dn : String → Option String} {a : Action} :
    ∀ l ∈ actionNameLines dn a, matchEventHeaderLine l = none := by
  intro l hl
  rcases actionNameLines_cases dn a with hc | ⟨d, hd, hne, hc⟩
  · rw [hc] at hl; simp at hl
  · rw [hc] at hl
    rcases List.mem_cons.mp hl with rfl | h0
    · exact (nameLine_facts _).2.2.1
    · simp at h0

theorem blockFlatCore_no_evh {dn : String → Option String} {humanize : String → String}
    {as : List Action} (h : ∀ a ∈ as, WFAction humanize a) :
    ∀ l ∈ blockFlatCore dn humanize as, matchEventHeaderLine l = none := by
  have hseg : ∀ a, WFAction humanize a →
      ∀ l ∈ actionSegFlat dn humanize a, matchEventHeaderLine l = none := by
    intro a hWF l hl
    unfold actionSegFlat at hl
    rcases List.mem_append.mp hl with hm | hm
    · rcases List.mem_append.mp hm with hm2 | hm2
      · exact nameLines_no_evh l hm2
      · rcases List.mem_cons.mp hm2 with rfl | h0
        · exact header_event_none a
        · simp at h0
    · exact (hWF.2.2.2.2 l hm).2.2.1
  cases as with
  | nil => intro l hl; rw [blockFlatCore] at hl; simp at hl
  | cons a rest =>
    intro l hl
    rw [blockFlatCore] at hl
    rcases List.mem_append.mp hl with hm | hm
    · exact hseg a (h a (List.mem_cons_self _ _)) l hm
    · obtain ⟨b, hb, hm2⟩ := List.mem_flatMap.mp hm
      rcases List.mem_append.mp hm2 with hm3 | hm3
      · rcases List.mem_cons.mp hm3 with rfl | hm4
        · exact blank_facts.2.2.1
        · rcases List.mem_cons.mp hm4 with rfl | hm5
          · exact sepDashes_facts.2.2.1
          · simp at hm5
      · exact hseg b (h b (List.mem_cons_of_mem _ hb)) l hm3

theorem fm_not_evh (digits : List Char) :
    matchEventHeaderLine ("-- grid: page=".data ++ digits) = none := by
  simp [matchEventHeaderLine, hasPrefixC, List.dropWhile, isJsWs]

theorem splitEvents_skip_none {l : List Char} (h : matchEventHeaderLine l = none)
    (rest : List (List Char)) (block : List (List Char)) (acc : List RawEvent) :
    splitEventsGo (l :: rest) none block acc = splitEventsGo rest none block acc := by
  rw [splitEventsGo, h]

theorem splitEvents_collect : ∀ (L R : List (List Char)),
    (∀ l ∈ L, matchEventHeaderLine l = none) →
    ∀ (c : Nat × Option (List Char) × List Char) (block : List (List Char))
      (acc : List RawEvent),
    splitEventsGo (L ++ R) (some c) block acc =
      splitEventsGo R (some c) (block ++ L) acc := by
  intro L
  induction L with
  | nil => intro R h c block acc; simp
  | cons l L' ih =>
    intro R h c block acc
    rw [List.cons_append, splitEventsGo, h l (List.mem_cons_self _ _)]
    dsimp only
    rw [ih R (fun x hx => h x (List.mem_cons_of_mem _ hx)) c (block ++ [l]) acc]
    rw [List.append_assoc]
    rfl

theorem splitEvents_header {pe : String → Option (List ProtoEvent)}
    {ets : List (Nat × String)} (x : EventConfig)
    (hWFn : WFName (getEventNameForType pe
      (elementTypeOrButton (lookupIdx ets) x.elementIndex) x.eventType).data)
    (rest : List (List Char)) (cur : Option (Nat × Option (List Char) × List Char))
    (block : List (List Char)) (acc : List RawEvent) :
    splitEventsGo (eventHeaderLineW pe
        (elementTypeOrButton (lookupIdx ets) x.elementIndex) x :: rest) cur block acc =
      splitEventsGo rest (some (x.elementIndex, none,
        (getEventNameForType pe (elementTypeOrButton (lookupIdx ets) x.elementIndex)
          x.eventType).data)) [] (flushEvt cur block acc) := by
  obtain ⟨hne, hnq, hnw⟩ := hWFn
  have hline : eventHeaderLineW pe (elementTypeOrButton (lookupIdx ets) x.elementIndex) x =
      "-- grid:event element=".data ++ (natDec x.elementIndex ++ (" event=".data ++
        (getEventNameForType pe (elementTypeOrButton (lookupIdx ets) x.elementIndex)
          x.eventType).data)) := by
    unfold eventHeaderLineW
    rw [List.append_assoc, List.append_assoc]
  cases cur with
  | none =>
    rw [hline, splitEventsGo, matchEventHeader_w]
    dsimp only
    rw [parseEventHeader_w _ _ hnw hnq hne]
  | some c =>
    rw [hline, splitEventsGo, matchEventHeader_w]
    dsimp only
    rw [parseEventHeader_w _ _ hnw hnq hne]

theorem splitEvents_finish (L : List (List Char))
    (h : ∀ l ∈ L, matchEventHeaderLine l = none)
    (c : Nat × Option (List Char) × List Char) (block : List (List Char))
    (acc : List RawEvent) :
    splitEventsGo L (some c) block acc = .ok (flushEvt (some c) (block ++ L) acc) := by
  have hc := splitEvents_collect L [] h c block acc
  rw [List.append_nil] at hc
  rw [hc]
  rfl

theorem flushEvt_block {dn : String → Option String} {humanize : String → String}
    {pe : String → Option (List ProtoEvent)} {ets : List (Nat × String)}
    (hdn : ∀ s d, dn s = some d → '\n' ∉ d.data) (e : EventConfig)
    (hWFe : WFBlock dn humanize pe ets e) (T : List (List Char)) (hT : TailSafe T)
    (acc : List RawEvent) :
    flushEvt (some (e.elementIndex, none,
        (getEventNameForType pe (elementTypeOrButton (lookupIdx ets) e.elementIndex)
          e.eventType).data)) (blockFlatCore dn humanize e.actions ++ T) acc =
      acc ++ [rawEventOf humanize pe ets e] := by
  unfold flushEvt rawEventOf
  dsimp only
  cases hact : e.actions with
  | nil => exact absurd hact hWFe.1
  | cons a arest =>
    rw [parseLuaFile_block hdn a arest (hact ▸ hWFe.2.1) T hT]

theorem blockT_no_evh {dn : String → Option String} {humanize : String → String}
    {as : List Action} (h : ∀ a ∈ as, WFAction humanize a) (T : List (List Char))
    (hT : TailSafe T) :
    ∀ l ∈ blockFlatCore dn humanize as ++ T, matchEventHeaderLine l = none := by
  intro l hl
  rcases List.mem_append.mp hl with hm | hm
  · exact blockFlatCore_no_evh h l hm
  · exact (hT l hm).2.2.1

theorem splitEvents_segs {dn : String → Option String} {humanize : String → String}
    {pe : String → Option (List ProtoEvent)} {ets : List (Nat × String)}
    (hdn : ∀ s d, dn s = some d → '\n' ∉ d.data) :
    ∀ (rest : List EventConfig) (e : EventConfig),
      WFBlock dn humanize pe ets e → (∀ x ∈ rest, WFBlock dn humanize pe ets x) →
      ∀ acc : List RawEvent,
      splitEventsGo (blockFlatCore dn humanize e.actions ++
          ((rest.flatMap fun x => [[], sepEqualsLine, []] ++ evSegFlat dn humanize pe ets x)
            ++ [[]]))
        (some (e.elementIndex, none,
          (getEventNameForType pe (elementTypeOrButton (lookupIdx ets) e.elementIndex)
            e.eventType).data)) [] acc =
      .ok (acc ++ (e :: rest).map (rawEventOf humanize pe ets)) := by
  intro rest
  induction rest with
  | nil =>
    intro e hWFe _ acc
    rw [List.flatMap_nil, List.nil_append]
    have hTblank : TailSafe [[]] := by
      intro l hl
      rcases List.mem_cons.mp hl with rfl | h0
      · exact ⟨by decide, by decide, by decide, Or.inr (by decide), by decide⟩
      · simp at h0
    rw [splitEvents_finish _ (blockT_no_evh hWFe.2.1 _ hTblank) _ [] acc]
    rw [List.nil_append]
    rw [flushEvt_block hdn e hWFe [[]] hTblank acc]
    rfl
  | cons x rest' ih =>
    intro e hWFe hrest acc
    have hWFx := hrest x (List.mem_cons_self _ _)
    have hTsep : TailSafe [[], sepEqualsLine, []] := by
      intro l hl
      rcases List.mem_cons.mp hl with rfl | h1
      · exact ⟨by decide, by decide, by decide, Or.inr (by decide), by decide⟩
      · rcases List.mem_cons.mp h1 with rfl | h2
        · exact ⟨sepEquals_facts.1, sepEquals_facts.2.1, sepEquals_facts.2.2.1,
            Or.inl sepEquals_facts.2.2.2.1, sepEquals_facts.2.2.2.2.2⟩
        · rcases List.mem_cons.mp h2 with rfl | h3
          · exact ⟨by decide, by decide, by decide, Or.inr (by decide), by decide⟩
          · simp at h3
    rw [List.flatMap_cons]
    have heq : blockFlatCore dn humanize e.actions ++
        ((([[], sepEqualsLine, []] ++ evSegFlat dn humanize pe ets x) ++
          (rest'.flatMap fun y => [[], sepEqualsLine, []] ++ evSegFlat dn humanize pe ets y))
          ++ [[]]) =
        (blockFlatCore dn humanize e.actions ++ [[], sepEqualsLine, []]) ++
          (eventHeaderLineW pe (elementTypeOrButton (lookupIdx ets) x.elementIndex) x ::
            (blockFlatCore dn humanize x.actions ++
              ((rest'.flatMap fun y => [[], sepEqualsLine, []] ++
                evSegFlat dn humanize pe ets y) ++ [[]]))) := by
      unfold evSegFlat
      simp [List.append_assoc]
    rw [heq]
    rw [splitEvents_collect _ _ (by
      intro l hl
      rcases List.mem_append.mp hl with hm | hm
      · exact blockFlatCore_no_evh hWFe.2.1 l hm
      · exact (hTsep l hm).2.2.1) _ [] acc]
    rw [List.nil_append]
    rw [splitEvents_header x hWFx.2.2]
    rw [flushEvt_block hdn e hWFe _ hTsep acc]
    rw [ih x hWFx (fun y hy => hrest y (List.mem_cons_of_mem _ hy))
      (acc ++ [rawEventOf humanize pe ets e])]
    simp

theorem splitEvents_page {dn : String → Option String} {humanize : String → String}
    {pe : String → Option (List ProtoEvent)} {ets : List (Nat × String)}
    (hdn : ∀ s d, dn s = some d → '\n' ∉ d.data) (n : Nat) (e : EventConfig)
    (rest : List EventConfig) (h : ∀ x ∈ e :: rest, WFBlock dn humanize pe ets x) :
    splitEventsGo (frontMatterLine n :: ([] : List Char) ::
        (pageFlatCore dn humanize pe ets (e :: rest) ++ [[]])) none [] [] =
      .ok ((e :: rest).map (rawEventOf humanize pe ets)) := by
  rw [splitEvents_skip_none (by unfold frontMatterLine; exact fm_not_evh _)]
  rw [splitEvents_skip_none blank_facts.2.2.1]
  have heq : pageFlatCore dn humanize pe ets (e :: rest) ++ [[]] =
      eventHeaderLineW pe (elementTypeOrButton (lookupIdx ets) e.elementIndex) e ::
        (blockFlatCore dn humanize e.actions ++
          ((rest.flatMap fun x => [[], sepEqualsLine, []] ++ evSegFlat dn humanize pe ets x)
            ++ [[]])) := by
    rw [pageFlatCore]
    unfold evSegFlat
    simp [List.append_assoc]
  rw [heq]
  rw [splitEvents_header e (h e (List.mem_cons_self _ _)).2.2]
  have h0 : flushEvt none [] ([] : List RawEvent) = [] := rfl
  rw [h0]
  have hrun := splitEvents_segs hdn rest e (h e (List.mem_cons_self _ _))
    (fun x hx => h x (List.mem_cons_of_mem _ hx)) []
  simpa using hrun

theorem pageFlat_expose (dn : String → Option String) (humanize : String → String)
    (pe : String → Option (List ProtoEvent)) (ets : List (Nat × String))
    (e : EventConfig) (rest : List EventConfig) :
    pageFlatCore dn humanize pe ets (e :: rest) ++ [[]] =
      eventHeaderLineW pe (elementTypeOrButton (lookupIdx ets) e.elementIndex) e ::
        (blockFlatCore dn humanize e.actions ++
          ((rest.flatMap fun x => [[], sepEqualsLine, []] ++ evSegFlat dn humanize pe ets x)
            ++ [[]])) := by
  rw [pageFlatCore]
  unfold evSegFlat
  simp [List.append_assoc]

theorem fmEventBreak_header2 (suf : List Char) :
    fmEventBreak ("-- grid:event element=".data ++ suf) = true := by
  simp [fmEventBreak, hasPrefixC, List.dropWhile, isJsWs]

theorem evHeaderLineW_assoc (pe : String → Option (List ProtoEvent)) (et : String)
    (e : EventConfig) :
    eventHeaderLineW pe et e = "-- grid:event element=".data ++
      (natDec e.elementIndex ++ (" event=".data ++ (getEventNameForType pe et e.eventType).data)) := by
  unfold eventHeaderLineW
  rw [List.append_assoc, List.append_assoc]

theorem readPageFile_w {dn : String → Option String} {humanize : String → String}
    {pe : String → Option (List ProtoEvent)} {ets : List (Nat × String)}
    (hdn : ∀ s d, dn s = some d → '\n' ∉ d.data) (fp : Nat) (n : Nat) (e : EventConfig)
    (rest : List EventConfig) (h : ∀ x ∈ e :: rest, WFBlock dn humanize pe ets x) :
    readPageFile fp (pageContent dn humanize pe ets (e :: rest) n) =
      .ok ⟨none, none, n, (e :: rest).map (rawEventOf humanize pe ets)⟩ := by
  unfold readPageFile
  rw [pageContent_flat hdn n e rest h]
  have hFM : parseFrontMatterGo (frontMatterLine n :: ([] : List Char) ::
      (pageFlatCore dn humanize pe ets (e :: rest) ++ [[]])) [] =
      .ok [("page".data, natDec n)] := by
    rw [pageFlat_expose]
    refine parseFM_run n _ ?_ _
    rw [evHeaderLineW_assoc]
    exact fmEventBreak_header2 _
  have hfm_page : fmLookup [("page".data, natDec n)] "page".data = some (natDec n) := by
    simp [fmLookup, List.find?]
  have hfm_mod : fmLookup [("page".data, natDec n)] "module".data = none := by
    simp [fmLookup, List.find?]
  have hfm_pos : fmLookup [("page".data, natDec n)] "position".data = none := by
    simp [fmLookup, List.find?]
  rw [hFM]
  dsimp only
  rw [hfm_page]
  dsimp only
  rw [decNat_natDec]
  dsimp only
  rw [splitEvents_page hdn n e rest h]
  dsimp only
  rw [hfm_mod, hfm_pos]

/-! ## Assembly lemmas: sorting, lookups, descriptors -/

theorem stableSort_sorted_id (lt : α → α → Bool)
    (hasym : ∀ a b, lt a b = true → lt b a = false) :
    ∀ {l : List α}, List.Pairwise (fun a b => lt a b = true) l → stableSort lt l = l := by
  intro l
  induction l with
  | nil => intro _; rfl
  | cons x xs ih =>
    intro hp
    rw [stableSort, ih hp.of_cons]
    cases xs with
    | nil => rfl
    | cons y ys =>
      have hxy : lt x y = true := (List.pairwise_cons.mp hp).1 y (List.mem_cons_self _ _)
      rw [insertSorted, if_neg (by simp [hasym x y hxy])]

theorem pairwise_filterMap {f : α → Option β} {R : α → α → Prop} {S : β → β → Prop}
    (hf : ∀ a b x y, R a b → f a = some x → f b = some y → S x y) :
    ∀ {l : List α}, l.Pairwise R → (l.filterMap f).Pairwise S := by
  intro l
  induction l with
  | nil => intro _; simp
  | cons a t ih =>
    intro hp
    rw [List.filterMap_cons]
    cases hfa : f a with
    | none => exact ih hp.of_cons
    | some x =>
      refine List.pairwise_cons.mpr ⟨?_, ih hp.of_cons⟩
      intro y hy
      obtain ⟨b, hb, hfb⟩ := List.mem_filterMap.mp hy
      exact hf a b x y ((List.pairwise_cons.mp hp).1 b hb) hfa hfb

theorem protoEntry_fst {p : Nat × Option String} {x : Nat × String}
    (h : (match p.2 with
          | some t => if t = "" then none else some (p.1, t)
          | none => none) = some x) : x.1 = p.1 := by
  cases hp : p.2 with
  | none => rw [hp] at h; exact absurd h (by simp)
  | some t =>
    rw [hp] at h
    dsimp only at h
    by_cases ht : t = ""
    · rw [if_pos ht] at h; exact absurd h (by simp)
    · rw [if_neg ht] at h
      have := Option.some_injective _ h
      rw [← this]

theorem buildElementTypesW_pairwise (protoElements : Option (List (Option String)))
    (n : Nat) :
    List.Pairwise (fun a b => a.1 < b.1) (buildElementTypesW protoElements n) := by
  unfold buildElementTypesW
  have hrange : List.Pairwise (fun a b : Nat × String => a.1 < b.1)
      ((List.range n).map fun i => (i, "button")) := by
    rw [List.pairwise_map]
    exact List.pairwise_lt_range n
  cases protoElements with
  | none =>
    dsimp only
    rw [if_pos (by decide)]
    exact hrange
  | some l =>
    dsimp only
    by_cases he : (l.enum.filterMap fun p =>
        match p.2 with
        | some t => if t = "" then none else some (p.1, t)
        | none => none).isEmpty = true
    · rw [if_pos he]
      exact hrange
    · rw [if_neg he]
      have henum : List.Pairwise (fun a b : Nat × Option String => a.1 < b.1) l.enum := by
        have h1 : List.Pairwise (· < ·) (l.enum.map Prod.fst) := by
          rw [List.enum_map_fst]
          exact List.pairwise_lt_range _
        exact List.pairwise_map.mp h1
      exact pairwise_filterMap
        (fun a b x y hab ha hb => by
          rw [protoEntry_fst ha, protoEntry_fst hb]
          exact hab) henum

theorem buildElementTypesW_types_ne (protoElements : Option (List (Option String)))
    (n : Nat) : ∀ p ∈ buildElementTypesW protoElements n, p.2 ≠ "" := by
  unfold buildElementTypesW
  have hrange : ∀ p ∈ (List.range n).map fun i => (i, "button"),
      (p : Nat × String).2 ≠ "" := by
    intro p hp
    obtain ⟨i, hi, rfl⟩ := List.mem_map.mp hp
    simp
  cases protoElements with
  | none =>
    dsimp only
    rw [if_pos (by decide)]
    exact hrange
  | some l =>
    dsimp only
    by_cases he : (l.enum.filterMap fun p =>
        match p.2 with
        | some t => if t = "" then none else some (p.1, t)
        | none => none).isEmpty = true
    · rw [if_pos he]
      exact hrange
    · rw [if_neg he]
      intro p hp
      obtain ⟨q, hq, hfq⟩ := List.mem_filterMap.mp hp
      cases hq2 : q.2 with
      | none => rw [hq2] at hfq; exact absurd hfq (by simp)
      | some t =>
        rw [hq2] at hfq
        dsimp only at hfq
        by_cases ht : t = ""
        · rw [if_pos ht] at hfq; exact absurd hfq (by simp)
        · rw [if_neg ht] at hfq
          have := Option.some_injective _ hfq
          rw [← this]
          exact ht

theorem find?_key_unique {β : Type} [DecidableEq β] (f : α → β) :
    ∀ (m : List α) (x : α), (m.map f).Nodup → x ∈ m →
      m.find? (fun y => f y = f x) = some x := by
  intro m
  induction m with
  | nil => intro x _ h; simp at h
  | cons a rest ih =>
    intro x hnd hmem
    rcases List.mem_cons.mp hmem with rfl | hm
    · rw [List.find?_cons_of_pos _ (by simp)]
    · have hnd2 := hnd
      rw [List.map_cons, List.nodup_cons] at hnd2
      have hne : f a ≠ f x := by
        intro h0
        exact hnd2.1 (h0 ▸ List.mem_map_of_mem f hm)
      rw [List.find?_cons_of_neg _ (by simp [hne])]
      exact ih x hnd2.2 hm

theorem keys_nodup_of_pairwise {m : List (Nat × String)}
    (hp : List.Pairwise (fun a b => a.1 < b.1) m) : (m.map Prod.fst).Nodup :=
  List.pairwise_map.mpr (hp.imp fun h => Nat.ne_of_lt h)

theorem lookupIdx_of_pairwise {m : List (Nat × String)}
    (hp : List.Pairwise (fun a b => a.1 < b.1) m) {i : Nat} {t : String}
    (hmem : (i, t) ∈ m) : lookupIdx m i = some t := by
  unfold lookupIdx
  have hf := find?_key_unique Prod.fst m (i, t) (keys_nodup_of_pairwise hp) hmem
  have hsame : (m.find? fun p => p.1 = i) = m.find? fun y => y.1 = (i, t).1 := rfl
  rw [hsame, hf]
  rfl

theorem lookupIdxLast_of_pairwise {m : List (Nat × String)}
    (hp : List.Pairwise (fun a b => a.1 < b.1) m) {i : Nat} {t : String}
    (hmem : (i, t) ∈ m) : lookupIdxLast m i = some t := by
  unfold lookupIdxLast
  have hnd : (m.reverse.map Prod.fst).Nodup := by
    rw [List.map_reverse, List.nodup_reverse]
    exact keys_nodup_of_pairwise hp
  have hf := find?_key_unique Prod.fst m.reverse (i, t) hnd (List.mem_reverse.mpr hmem)
  have hsame : (m.reverse.find? fun p => p.1 = i) =
      m.reverse.find? fun y => y.1 = (i, t).1 := rfl
  rw [hsame, hf]
  rfl

theorem hasIdx_of_mem {m : List (Nat × String)} {i : Nat} {t : String}
    (hmem : (i, t) ∈ m) : hasIdx m i = true := by
  unfold hasIdx
  rw [List.any_eq_true]
  exact ⟨(i, t), hmem, by simp⟩

theorem elementTypeOrButton_idx {m : List (Nat × String)}
    (hp : List.Pairwise (fun a b => a.1 < b.1) m)
    (ht : ∀ p ∈ m, p.2 ≠ "") {i : Nat} {t : String} (hmem : (i, t) ∈ m) :
    elementTypeOrButton (lookupIdx m) i = t := by
  unfold elementTypeOrButton
  rw [lookupIdx_of_pairwise hp hmem]
  dsimp only
  rw [if_neg (ht (i, t) hmem)]

theorem elementTypeOrButton_idxLast {m : List (Nat × String)}
    (hp : List.Pairwise (fun a b => a.1 < b.1) m)
    (ht : ∀ p ∈ m, p.2 ≠ "") {i : Nat} {t : String} (hmem : (i, t) ∈ m) :
    elementTypeOrButton (lookupIdxLast m) i = t := by
  unfold elementTypeOrButton
  rw [lookupIdxLast_of_pairwise hp hmem]
  dsimp only
  rw [if_neg (ht (i, t) hmem)]

theorem buildElementTypesR_id {ets : List (Nat × String)} (h : ∀ p ∈ ets, p.2 ≠ "") :
    buildElementTypesR ets = ets := by
  unfold buildElementTypesR
  induction ets with
  | nil => rfl
  | cons p rest ih =>
    rw [List.map_cons, ih fun q hq => h q (List.mem_cons_of_mem _ hq)]
    have hp : jsOrStr p.2 "button" = p.2 := by
      unfold jsOrStr
      rw [if_neg (h p (List.mem_cons_self _ _))]
    rw [hp]

theorem eventName_of_desc {pe : String → Option (List ProtoEvent)} {et : String}
    {d : EventDescriptor} (hmem : d ∈ getEventDescriptors pe et)
    (hvals : ((getEventDescriptors pe et).map (·.value)).Nodup) :
    getEventNameForType pe et d.value = d.name := by
  unfold getEventNameForType
  have hf := find?_key_unique (fun x : EventDescriptor => x.value)
    (getEventDescriptors pe et) d hvals hmem
  have hsame : ((getEventDescriptors pe et).find? fun x => x.value = d.value) =
      (getEventDescriptors pe et).find? fun y => y.value = d.value := rfl
  rw [hsame, hf]

theorem eventType_of_name {pe : String → Option (List ProtoEvent)} {et : String}
    {d : EventDescriptor} (hmem : d ∈ getEventDescriptors pe et)
    (hnames : ((getEventDescriptors pe et).map
      fun x => canonicalEventName x.name).Nodup) :
    getEventTypeFromName pe et d.name = some d.value := by
  unfold getEventTypeFromName
  have hf := find?_key_unique (fun x : EventDescriptor => canonicalEventName x.name)
    (getEventDescriptors pe et) d hnames hmem
  dsimp only
  rw [hf]

/-! ## Assembly lemmas: enumeration, overrides, page sets -/

theorem enumEvents_mem_shape {pe : String → Option (List ProtoEvent)}
    {ets : List (Nat × String)} {act : Nat → Nat → List Action} {e : EventConfig}
    (he : e ∈ enumEvents pe ets act) :
    ∃ p ∈ ets, ∃ d ∈ getEventDescriptors pe p.2,
      e = ⟨p.1, d.value, act p.1 d.value⟩ := by
  unfold enumEvents at he
  obtain ⟨p, hp, hm⟩ := List.mem_flatMap.mp he
  obtain ⟨d, hd, he2⟩ := List.mem_map.mp hm
  exact ⟨p, hp, d, hd, he2.symm⟩

theorem enumEvents_pairs_nodup {pe : String → Option (List ProtoEvent)}
    {ets : List (Nat × String)} (act : Nat → Nat → List Action)
    (hpair : List.Pairwise (fun a b => a.1 < b.1) ets)
    (hdesc : ∀ p ∈ ets, ((getEventDescriptors pe p.2).map (·.value)).Nodup) :
    ((enumEvents pe ets act).map fun e => (e.elementIndex, e.eventType)).Nodup := by
  induction ets with
  | nil => simp [enumEvents]
  | cons p rest ih =>
    unfold enumEvents
    rw [List.flatMap_cons, List.map_append]
    have hinner : (((getEventDescriptors pe p.2).map
        fun d => (⟨p.1, d.value, act p.1 d.value⟩ : EventConfig)).map
          fun e => (e.elementIndex, e.eventType)).Nodup := by
      rw [List.map_map]
      have heq : ((fun e : EventConfig => (e.elementIndex, e.eventType)) ∘
          fun d : EventDescriptor => (⟨p.1, d.value, act p.1 d.value⟩ : EventConfig)) =
          (fun v => (p.1, v)) ∘ fun d : EventDescriptor => d.value := rfl
      rw [heq, ← List.map_map]
      refine List.Nodup.map ?_ (hdesc p (List.mem_cons_self _ _))
      intro a b hab
      exact congrArg Prod.snd hab
    have hrest : ((enumEvents pe rest act).map
        fun e => (e.elementIndex, e.eventType)).Nodup :=
      ih hpair.of_cons fun q hq => hdesc q (List.mem_cons_of_mem _ hq)
    refine List.Nodup.append hinner (by unfold enumEvents at hrest; exact hrest) ?_
    rw [List.disjoint_left]
    intro a ha hb
    obtain ⟨e1, he1, ha2⟩ := List.mem_map.mp ha
    obtain ⟨d1, hd1, he12⟩ := List.mem_map.mp he1
    obtain ⟨e2, he2, hb2⟩ := List.mem_map.mp hb
    obtain ⟨q, hq, d2, hd2, he22⟩ := enumEvents_mem_shape he2
    have h1 : a.1 = p.1 := by rw [← ha2, ← he12]
    have h2 : a.1 = q.1 := by rw [← hb2, he22]
    have hlt : p.1 < q.1 := (List.pairwise_cons.mp hpair).1 q hq
    omega

theorem keepEvent_actions_ne {elementTypes : Nat → Option String}
    {getDefault : String → Nat → Option (List Action)} {e : EventConfig}
    (h : keepEvent elementTypes getDefault e = true) : e.actions ≠ [] := by
  unfold keepEvent at h
  by_cases hl : e.actions.length = 0
  · rw [if_pos hl] at h
    exact Bool.noConfusion h
  · intro h0
    rw [h0] at hl
    exact hl rfl

theorem writtenEvents_sub {elementTypes : Nat → Option String}
    {getDefault : String → Nat → Option (List Action)} {events : List EventConfig} :
    ∀ e ∈ writtenEvents elementTypes getDefault events,
      e ∈ events ∧ keepEvent elementTypes getDefault e = true := by
  intro e he
  unfold writtenEvents at he
  have hperm := stableSort_perm eventLt (events.filter (keepEvent elementTypes getDefault))
  have he2 := hperm.mem_iff.mp he
  exact ⟨(List.mem_filter.mp he2).1, (List.mem_filter.mp he2).2⟩

theorem writtenEvents_mem {elementTypes : Nat → Option String}
    {getDefault : String → Nat → Option (List Action)} {events : List EventConfig}
    {e : EventConfig} (he : e ∈ events)
    (hk : keepEvent elementTypes getDefault e = true) :
    e ∈ writtenEvents elementTypes getDefault events := by
  unfold writtenEvents
  exact (stableSort_perm eventLt _).mem_iff.mpr (List.mem_filter.mpr ⟨he, hk⟩)

theorem find?_append_left_none {p : α → Bool} {l₁ : List α}
    (h : ∀ x ∈ l₁, p x = false) (l₂ : List α) :
    (l₁ ++ l₂).find? p = l₂.find? p := by
  induction l₁ with
  | nil => rfl
  | cons a t ih =>
    rw [List.cons_append,
      List.find?_cons_of_neg _ (by simp [h a (List.mem_cons_self _ _)])]
    exact ih fun x hx => h x (List.mem_cons_of_mem _ hx)

theorem findOvr_unique : ∀ (m : List OverrideEntry) (o : OverrideEntry),
    (m.map fun x => (x.page, x.element, x.eventType)).Nodup → o ∈ m →
    (m.find? fun x => x.page = o.page ∧ x.element = o.element ∧
      x.eventType = o.eventType) = some o := by
  intro m
  induction m with
  | nil => intro o _ h; simp at h
  | cons a rest ih =>
    intro o hnd hmem
    rcases List.mem_cons.mp hmem with rfl | hm
    · rw [List.find?_cons_of_pos _ (by simp)]
    · have hnd2 := hnd
      rw [List.map_cons, List.nodup_cons] at hnd2
      have hne : ¬(a.page = o.page ∧ a.element = o.element ∧ a.eventType = o.eventType) := by
        intro ⟨h1, h2, h3⟩
        apply hnd2.1
        have : (o.page, o.element, o.eventType) ∈ rest.map
            fun x => (x.page, x.element, x.eventType) :=
          List.mem_map_of_mem _ hm
        rw [h1, h2, h3]
        exact this
      rw [List.find?_cons_of_neg _ (by simpa using hne)]
      exact ih o hnd2.2 hm

theorem overrideLookup_of_mem {entries : List OverrideEntry} {o : OverrideEntry}
    (ho : o ∈ entries)
    (hnd : (entries.map fun x => (x.page, x.element, x.eventType)).Nodup) :
    overrideLookup entries o.page o.element o.eventType = some o.actions := by
  unfold overrideLookup
  have hndr : (entries.reverse.map fun x => (x.page, x.element, x.eventType)).Nodup := by
    rw [List.map_reverse, List.nodup_reverse]
    exact hnd
  rw [findOvr_unique entries.reverse o hndr (List.mem_reverse.mpr ho)]
  rfl

theorem overrideLookup_of_none {entries : List OverrideEntry} {pg i v : Nat}
    (h : ∀ o ∈ entries, ¬(o.page = pg ∧ o.element = i ∧ o.eventType = v)) :
    overrideLookup entries pg i v = none := by
  unfold overrideLookup
  rw [List.find?_eq_none.mpr (by
    intro x hx
    simpa using h x (List.mem_reverse.mp hx))]
  rfl

theorem flat_keys_nodup {pageNums : List Nat} (f : Nat → List OverrideEntry)
    (hnd : pageNums.Nodup)
    (hpage : ∀ pg, ∀ o ∈ f pg, o.page = pg)
    (hinner : ∀ pg, ((f pg).map fun o => (o.element, o.eventType)).Nodup) :
    ((pageNums.flatMap f).map fun o => (o.page, o.element, o.eventType)).Nodup := by
  induction pageNums with
  | nil => simp
  | cons pg rest ih =>
    rw [List.flatMap_cons, List.map_append]
    refine List.Nodup.append ?_ (ih (List.nodup_cons.mp hnd).2) ?_
    · have heq : ((f pg).map fun o => (o.page, o.element, o.eventType)) =
          ((f pg).map fun o => (o.element, o.eventType)).map fun q => (pg, q) := by
        rw [List.map_map]
        apply List.map_congr_left
        intro o ho
        simp [hpage pg o ho]
      rw [heq]
      refine List.Nodup.map ?_ (hinner pg)
      intro a b hab
      exact congrArg Prod.snd hab
    · rw [List.disjoint_left]
      intro a ha hb
      obtain ⟨o1, ho1, ha2⟩ := List.mem_map.mp ha
      obtain ⟨o2, ho2, hb2⟩ := List.mem_map.mp hb
      obtain ⟨pg2, hpg2, ho22⟩ := List.mem_flatMap.mp ho2
      have h1 : a.1 = pg := by rw [← ha2]; exact hpage pg o1 ho1
      have h2 : a.1 = pg2 := by rw [← hb2]; exact hpage pg2 o2 ho22
      have : pg ≠ pg2 := by
        intro h0
        exact (List.nodup_cons.mp hnd).1 (h0 ▸ hpg2)
      exact this (h1 ▸ h2)

theorem filterMap_map_all_some {f : β → Option γ} {g : α → β} {h : α → γ} :
    ∀ l : List α, (∀ a ∈ l, f (g a) = some (h a)) →
    (l.map g).filterMap f = l.map h := by
  intro l
  induction l with
  | nil => intro _; rfl
  | cons a t ih =>
    intro H
    rw [List.map_cons, List.filterMap_cons, H a (List.mem_cons_self _ _)]
    rw [ih fun x hx => H x (List.mem_cons_of_mem _ hx)]
    rfl

theorem buildPageSet_id {pageNums : List Nat} (hnd : pageNums.Nodup)
    (hne : pageNums ≠ []) : buildPageSet pageNums pageNums = pageNums := by
  unfold buildPageSet
  rw [if_neg (by simp [List.isEmpty_iff, hne])]
  rw [List.dedup_eq_self.mpr hnd]
  have hfilter : (pageNums.filter fun p => !(pageNums.contains p)) = [] := by
    rw [List.filter_eq_nil_iff]
    intro a ha
    simp [ha]
  rw [hfilter, List.append_nil]

theorem collectFileOverrides_map {pe : String → Option (List ProtoEvent)}
    {humanize : String → String} {ets : List (Nat × String)}
    (hpair : List.Pairwise (fun a b => a.1 < b.1) ets)
    (htypes : ∀ p ∈ ets, p.2 ≠ "") (pg : Nat) (blocks : List EventConfig)
    (hmem : ∀ e ∈ blocks, ∃ t, (e.elementIndex, t) ∈ ets ∧
      WFDescriptors pe t ∧ ∃ d ∈ getEventDescriptors pe t, d.value = e.eventType) :
    collectFileOverrides pe ets pg (blocks.map (rawEventOf humanize pe ets)) =
      blocks.map fun e =>
        (⟨pg, e.elementIndex, e.eventType, e.actions.map (roundTripAction humanize)⟩ :
          OverrideEntry) := by
  unfold collectFileOverrides
  refine filterMap_map_all_some blocks ?_
  intro e he
  obtain ⟨t, hts, hWFd, d, hd, hdv⟩ := hmem e he
  dsimp only [rawEventOf]
  rw [if_pos (hasIdx_of_mem hts)]
  rw [elementTypeOrButton_idxLast hpair htypes hts]
  rw [elementTypeOrButton_idx hpair htypes hts]
  rw [string_eta]
  rw [← hdv, eventName_of_desc hd hWFd.1]
  rw [eventType_of_name hd hWFd.2]

theorem processFiles_step {pe : String → Option (List ProtoEvent)}
    {mf : ModuleFileRec} {elementTypes : List (Nat × String)}
    (n : Nat) (content : List Char) (rest : List (Nat × List Char)) (pg : Nat)
    (evs : List RawEvent)
    (hread : readPageFile n content = .ok ⟨none, none, pg, evs⟩) :
    processFiles pe mf elementTypes ((n, content) :: rest) =
      match processFiles pe mf elementTypes rest with
      | .error e => .error e
      | .ok acc =>
        .ok (collectFileOverrides pe elementTypes pg evs ++ acc.1, pg :: acc.2) := by
  rw [processFiles, hread]
  dsimp only
  rw [if_pos rfl]

theorem processFiles_run {pe : String → Option (List ProtoEvent)}
    {mf : ModuleFileRec} {elementTypes : List (Nat × String)}
    (content : Nat → List Char) (evs : Nat → List RawEvent) :
    ∀ pageNums : List Nat,
      (∀ pg ∈ pageNums, readPageFile pg (content pg) = .ok ⟨none, none, pg, evs pg⟩) →
      processFiles pe mf elementTypes (pageNums.map fun pg => (pg, content pg)) =
        .ok (pageNums.flatMap fun pg => collectFileOverrides pe elementTypes pg (evs pg),
          pageNums) := by
  intro pageNums
  induction pageNums with
  | nil => intro _; rfl
  | cons pg rest ih =>
    intro h
    rw [List.map_cons,
      processFiles_step pg _ _ pg (evs pg) (h pg (List.mem_cons_self _ _))]
    rw [ih fun x hx => h x (List.mem_cons_of_mem _ hx)]
    rw [List.flatMap_cons]

theorem flatMap_congr_mem {f g : α → List β} :
    ∀ {l : List α}, (∀ a ∈ l, f a = g a) → l.flatMap f = l.flatMap g := by
  intro l
  induction l with
  | nil => intro _; rfl
  | cons a t ih =>
    intro h
    rw [List.flatMap_cons, List.flatMap_cons, h a (List.mem_cons_self _ _),
      ih fun x hx => h x (List.mem_cons_of_mem _ hx)]

theorem stableSort_nat_id {l : List Nat} (h : List.Pairwise (· < ·) l) :
    stableSort (fun a b => a < b) l = l := by
  apply stableSort_sorted_id
  · intro a b hab
    simp at hab ⊢
    omega
  · exact h.imp fun hab => by simp [hab]

theorem stableSort_fst_id {l : List (Nat × String)}
    (h : List.Pairwise (fun a b => a.1 < b.1) l) :
    stableSort (fun a b => a.1 < b.1) l = l := by
  apply stableSort_sorted_id
  · intro a b hab
    simp at hab ⊢
    omega
  · exact h.imp fun hab => by simp [hab]

theorem writeModule_run (protoElements : Option (List (Option String)))
    (pe : String → Option (List ProtoEvent)) (dn : String → Option String)
    (humanize : String → String) (config : ModuleConfig) (pageNums : List Nat)
    (act : Nat → Nat → Nat → List Action)
    (hpages : config.pages = pageNums.map fun pg =>
      ⟨pg, enumEvents pe (buildElementTypesW protoElements config.module.elementCount)
        (act pg)⟩)
    (hsorted : List.Pairwise (· < ·) pageNums) (hpne : pageNums ≠ [])
    (hkeep : ∀ pg ∈ pageNums,
      writtenEvents
        (lookupIdx (buildElementTypesW protoElements config.module.elementCount))
        (getDefaultActions pe)
        (enumEvents pe (buildElementTypesW protoElements config.module.elementCount)
          (act pg)) ≠ []) :
    writeModule protoElements pe dn humanize config =
      (pageNums.map fun pg => (pg, pageContent dn humanize pe
          (buildElementTypesW protoElements config.module.elementCount)
          (writtenEvents
            (lookupIdx (buildElementTypesW protoElements config.module.elementCount))
            (getDefaultActions pe)
            (enumEvents pe (buildElementTypesW protoElements config.module.elementCount)
              (act pg))) pg),
       { position := (config.module.dx, config.module.dy)
         type := config.module.type
         typeId := config.module.typeId
         firmware := config.module.firmware
         elements := buildElementTypesW protoElements config.module.elementCount
         pages := pageNums }) := by
  have hets_pair := buildElementTypesW_pairwise protoElements config.module.elementCount
  unfold writeModule
  rw [hpages]
  dsimp only
  have hwritten : ((pageNums.map fun pg =>
      (⟨pg, enumEvents pe (buildElementTypesW protoElements config.module.elementCount)
        (act pg)⟩ : PageConfig)).filterMap fun page =>
      if (writtenEvents
          (lookupIdx (buildElementTypesW protoElements config.module.elementCount))
          (getDefaultActions pe) page.events).isEmpty then none
      else some (page.pageNumber, pageContent dn humanize pe
        (buildElementTypesW protoElements config.module.elementCount)
        (writtenEvents
          (lookupIdx (buildElementTypesW protoElements config.module.elementCount))
          (getDefaultActions pe) page.events)
        page.pageNumber)) =
      pageNums.map fun pg => (pg, pageContent dn humanize pe
        (buildElementTypesW protoElements config.module.elementCount)
        (writtenEvents
          (lookupIdx (buildElementTypesW protoElements config.module.elementCount))
          (getDefaultActions pe)
          (enumEvents pe (buildElementTypesW protoElements config.module.elementCount)
            (act pg))) pg) := by
    refine filterMap_map_all_some pageNums ?_
    intro pg hpg
    dsimp only
    rw [if_neg (by simp [List.isEmpty_iff, hkeep pg hpg])]
  rw [hwritten]
  rw [if_neg (by
    simp only [List.isEmpty_iff, List.map_eq_nil_iff]
    exact hpne)]
  have hfst : ((pageNums.map fun pg => (pg, pageContent dn humanize pe
      (buildElementTypesW protoElements config.module.elementCount)
      (writtenEvents
        (lookupIdx (buildElementTypesW protoElements config.module.elementCount))
        (getDefaultActions pe)
        (enumEvents pe (buildElementTypesW protoElements config.module.elementCount)
          (act pg))) pg)).map (·.1)) = pageNums := by
    rw [List.map_map]
    exact List.map_id' _ -- map (fun a => a) l = l; check name
  rw [hfst]
  rw [stableSort_fst_id hets_pair, stableSort_nat_id hsorted]

theorem blocks_WF {pe : String → Option (List ProtoEvent)} {dn : String → Option String}
    {humanize : String → String} {ets : List (Nat × String)}
    (hpair : List.Pairwise (fun a b => a.1 < b.1) ets)
    (htypes : ∀ p ∈ ets, p.2 ≠ "")
    (hdesc : ∀ p ∈ ets, WFDescriptors pe p.2)
    (hnames : ∀ p ∈ ets, ∀ d ∈ getEventDescriptors pe p.2, WFName d.name.data)
    (act1 : Nat → Nat → List Action)
    (hWF : ∀ p ∈ ets, ∀ d ∈ getEventDescriptors pe p.2, ∀ a ∈ act1 p.1 d.value,
      WFAction humanize a) :
    ∀ e ∈ writtenEvents (lookupIdx ets) (getDefaultActions pe) (enumEvents pe ets act1),
      WFBlock dn humanize pe ets e := by
  intro e he
  obtain ⟨henum, hke⟩ := writtenEvents_sub e he
  obtain ⟨p, hp, d, hd, rfl⟩ := enumEvents_mem_shape henum
  refine ⟨keepEvent_actions_ne hke, ?_, ?_⟩
  · intro b hb
    exact hWF p hp d hd b hb
  · show WFName (getEventNameForType pe (elementTypeOrButton (lookupIdx ets) p.1)
      d.value).data
    have hpmem : (p.1, p.2) ∈ ets := hp
    rw [elementTypeOrButton_idx hpair htypes hpmem]
    rw [eventName_of_desc hd (hdesc p hp).1]
    exact hnames p hp d hd

theorem blocks_mem_cond {pe : String → Option (List ProtoEvent)}
    {ets : List (Nat × String)} (hdesc : ∀ p ∈ ets, WFDescriptors pe p.2)
    (act1 : Nat → Nat → List Action) :
    ∀ e ∈ writtenEvents (lookupIdx ets) (getDefaultActions pe) (enumEvents pe ets act1),
      ∃ t, (e.elementIndex, t) ∈ ets ∧ WFDescriptors pe t ∧
        ∃ d ∈ getEventDescriptors pe t, d.value = e.eventType := by
  intro e he
  obtain ⟨henum, hke⟩ := writtenEvents_sub e he
  obtain ⟨p, hp, d, hd, rfl⟩ := enumEvents_mem_shape henum
  exact ⟨p.2, hp, hdesc p hp, d, hd, rfl⟩

theorem blocks_pairs_nodup {pe : String → Option (List ProtoEvent)}
    {ets : List (Nat × String)}
    (hpair : List.Pairwise (fun a b => a.1 < b.1) ets)
    (hdesc : ∀ p ∈ ets, WFDescriptors pe p.2) (act1 : Nat → Nat → List Action) :
    ((writtenEvents (lookupIdx ets) (getDefaultActions pe)
      (enumEvents pe ets act1)).map fun e => (e.elementIndex, e.eventType)).Nodup := by
  have h1 := enumEvents_pairs_nodup act1 hpair fun p hp => (hdesc p hp).1
  have h2 : (((enumEvents pe ets act1).filter
      (keepEvent (lookupIdx ets) (getDefaultActions pe))).map
      fun e => (e.elementIndex, e.eventType)).Nodup :=
    ((List.filter_sublist _).map _).nodup h1
  unfold writtenEvents
  exact (((stableSort_perm eventLt _).map _).nodup_iff).mpr h2

theorem override_resolve {pe : String → Option (List ProtoEvent)}
    {humanize : String → String} {ets : List (Nat × String)}
    (hpair : List.Pairwise (fun a b => a.1 < b.1) ets)
    (hdesc : ∀ p ∈ ets, WFDescriptors pe p.2)
    (act : Nat → Nat → Nat → List Action) (pageNums : List Nat)
    (hnd : pageNums.Nodup) (pn : Nat) (hpn : pn ∈ pageNums) (i : Nat) (t : String)
    (hit : (i, t) ∈ ets) (d : EventDescriptor) (hd : d ∈ getEventDescriptors pe t) :
    overrideLookup
      (pageNums.flatMap fun pg => (writtenEvents (lookupIdx ets) (getDefaultActions pe)
        (enumEvents pe ets (act pg))).map fun e =>
          (⟨pg, e.elementIndex, e.eventType, e.actions.map (roundTripAction humanize)⟩ :
            OverrideEntry))
      pn i d.value =
    (if keepEvent (lookupIdx ets) (getDefaultActions pe) ⟨i, d.value, act pn i d.value⟩
     then some ((act pn i d.value).map (roundTripAction humanize)) else none) := by
  have hnodup : ((pageNums.flatMap fun pg =>
      (writtenEvents (lookupIdx ets) (getDefaultActions pe)
        (enumEvents pe ets (act pg))).map fun e =>
          (⟨pg, e.elementIndex, e.eventType, e.actions.map (roundTripAction humanize)⟩ :
            OverrideEntry)).map
      fun o => (o.page, o.element, o.eventType)).Nodup := by
    refine flat_keys_nodup _ hnd ?_ ?_
    · intro pg o ho
      obtain ⟨e, he, rfl⟩ := List.mem_map.mp ho
      rfl
    · intro pg
      rw [List.map_map]
      exact blocks_pairs_nodup hpair hdesc (act pg)
  by_cases hk : keepEvent (lookupIdx ets) (getDefaultActions pe)
      ⟨i, d.value, act pn i d.value⟩ = true
  · rw [if_pos hk]
    have henum : (⟨i, d.value, act pn i d.value⟩ : EventConfig) ∈
        enumEvents pe ets (act pn) := by
      unfold enumEvents
      refine List.mem_flatMap.mpr ⟨(i, t), hit, ?_⟩
      exact List.mem_map.mpr ⟨d, hd, rfl⟩
    have hblocks := writtenEvents_mem henum hk
    have ho : (⟨pn, i, d.value, (act pn i d.value).map (roundTripAction humanize)⟩ :
        OverrideEntry) ∈ pageNums.flatMap fun pg =>
          (writtenEvents (lookupIdx ets) (getDefaultActions pe)
            (enumEvents pe ets (act pg))).map fun e =>
              (⟨pg, e.elementIndex, e.eventType,
                e.actions.map (roundTripAction humanize)⟩ : OverrideEntry) := by
      refine List.mem_flatMap.mpr ⟨pn, hpn, ?_⟩
      exact List.mem_map.mpr ⟨⟨i, d.value, act pn i d.value⟩, hblocks, rfl⟩
    exact overrideLookup_of_mem ho hnodup
  · rw [if_neg hk]
    apply overrideLookup_of_none
    intro o ho hcon
    obtain ⟨pg, hpg, ho2⟩ := List.mem_flatMap.mp ho
    obtain ⟨e, he, rfl⟩ := List.mem_map.mp ho2
    obtain ⟨h1, h2, h3⟩ := hcon
    obtain ⟨henum, hke⟩ := writtenEvents_sub e he
    obtain ⟨q, hq, d2, hd2, he2⟩ := enumEvents_mem_shape henum
    apply hk
    have hq1 : q.1 = i := by rw [he2] at h2; exact h2
    have hd2v : d2.value = d.value := by rw [he2] at h3; exact h3
    have hpg_pn : pg = pn := h1
    have he3 : e = ⟨i, d.value, act pn i d.value⟩ := by
      rw [he2, hq1, hd2v, hpg_pn]
    rw [he3] at hke
    exact hke

theorem readModule_run (protoElements : Option (List (Option String)))
    (pe : String → Option (List ProtoEvent)) (dn : String → Option String)
    (humanize : String → String) (config : ModuleConfig) (pageNums : List Nat)
    (act : Nat → Nat → Nat → List Action)
    (hdn : ∀ s d, dn s = some d → '\n' ∉ d.data)
    (hsorted : List.Pairwise (· < ·) pageNums) (hpne : pageNums ≠ [])
    (hlen : (buildElementTypesW protoElements config.module.elementCount).length =
      config.module.elementCount)
    (hetsne : buildElementTypesW protoElements config.module.elementCount ≠ [])
    (hdesc : ∀ p ∈ buildElementTypesW protoElements config.module.elementCount,
      WFDescriptors pe p.2)
    (hnames : ∀ p ∈ buildElementTypesW protoElements config.module.elementCount,
      ∀ d ∈ getEventDescriptors pe p.2, WFName d.name.data)
    (hWF : ∀ pg ∈ pageNums,
      ∀ p ∈ buildElementTypesW protoElements config.module.elementCount,
      ∀ d ∈ getEventDescriptors pe p.2, ∀ a ∈ act pg p.1 d.value, WFAction humanize a)
    (hkeep : ∀ pg ∈ pageNums,
      writtenEvents
        (lookupIdx (buildElementTypesW protoElements config.module.elementCount))
        (getDefaultActions pe)
        (enumEvents pe (buildElementTypesW protoElements config.module.elementCount)
          (act pg)) ≠ []) :
    readModule pe
      { position := (config.module.dx, config.module.dy)
        type := config.module.type
        typeId := config.module.typeId
        firmware := config.module.firmware
        elements := buildElementTypesW protoElements config.module.elementCount
        pages := pageNums }
      (pageNums.map fun pg => (pg, pageContent dn humanize pe
        (buildElementTypesW protoElements config.module.elementCount)
        (writtenEvents
          (lookupIdx (buildElementTypesW protoElements config.module.elementCount))
          (getDefaultActions pe)
          (enumEvents pe (buildElementTypesW protoElements config.module.elementCount)
            (act pg))) pg)) =
      .ok { module := config.module
            pages := pageNums.map fun pg =>
              ⟨pg, expectedPageEvents pe
                (buildElementTypesW protoElements config.module.elementCount)
                (act pg) humanize⟩ } := by
  have hets_pair := buildElementTypesW_pairwise protoElements config.module.elementCount
  have hets_types := buildElementTypesW_types_ne protoElements config.module.elementCount
  have hnd : pageNums.Nodup := hsorted.imp fun h => Nat.ne_of_lt h
  unfold readModule
  dsimp only
  rw [buildElementTypesR_id hets_types]
  rw [if_neg (by
    intro hcon
    exact hetsne (List.isEmpty_iff.mp hcon.1))]
  have hread : ∀ pg ∈ pageNums,
      readPageFile pg (pageContent dn humanize pe
        (buildElementTypesW protoElements config.module.elementCount)
        (writtenEvents
          (lookupIdx (buildElementTypesW protoElements config.module.elementCount))
          (getDefaultActions pe)
          (enumEvents pe (buildElementTypesW protoElements config.module.elementCount)
            (act pg))) pg) =
      .ok ⟨none, none, pg,
        (writtenEvents
          (lookupIdx (buildElementTypesW protoElements config.module.elementCount))
          (getDefaultActions pe)
          (enumEvents pe (buildElementTypesW protoElements config.module.elementCount)
            (act pg))).map
          (rawEventOf humanize pe
            (buildElementTypesW protoElements config.module.elementCount))⟩ := by
    intro pg hpg
    have hWFb := @blocks_WF pe dn humanize _ hets_pair hets_types hdesc hnames (act pg)
      (hWF pg hpg)
    cases hb : writtenEvents
        (lookupIdx (buildElementTypesW protoElements config.module.elementCount))
        (getDefaultActions pe)
        (enumEvents pe (buildElementTypesW protoElements config.module.elementCount)
          (act pg)) with
    | nil => exact absurd hb (hkeep pg hpg)
    | cons e rest =>
      exact readPageFile_w hdn pg pg e rest fun x hx => hWFb x (hb.symm ▸ hx)
  rw [processFiles_run
    (fun pg => pageContent dn humanize pe
      (buildElementTypesW protoElements config.module.elementCount)
      (writtenEvents
        (lookupIdx (buildElementTypesW protoElements config.module.elementCount))
        (getDefaultActions pe)
        (enumEvents pe (buildElementTypesW protoElements config.module.elementCount)
          (act pg))) pg)
    (fun pg => (writtenEvents
        (lookupIdx (buildElementTypesW protoElements config.module.elementCount))
        (getDefaultActions pe)
        (enumEvents pe (buildElementTypesW protoElements config.module.elementCount)
          (act pg))).map
        (rawEventOf humanize pe
          (buildElementTypesW protoElements config.module.elementCount)))
    pageNums hread]
  dsimp only
  have hovr : (pageNums.flatMap fun pg =>
      collectFileOverrides pe
        (buildElementTypesW protoElements config.module.elementCount) pg
        ((writtenEvents
          (lookupIdx (buildElementTypesW protoElements config.module.elementCount))
          (getDefaultActions pe)
          (enumEvents pe (buildElementTypesW protoElements config.module.elementCount)
            (act pg))).map
          (rawEventOf humanize pe
            (buildElementTypesW protoElements config.module.elementCount)))) =
      pageNums.flatMap fun pg =>
        (writtenEvents
          (lookupIdx (buildElementTypesW protoElements config.module.elementCount))
          (getDefaultActions pe)
          (enumEvents pe (buildElementTypesW protoElements config.module.elementCount)
            (act pg))).map fun e =>
          (⟨pg, e.elementIndex, e.eventType,
            e.actions.map (roundTripAction humanize)⟩ : OverrideEntry) :=
    flatMap_congr_mem fun pg _ =>
      collectFileOverrides_map hets_pair hets_types pg _
        (blocks_mem_cond hdesc (act pg))
  rw [hovr]
  rw [buildPageSet_id hnd hpne]
  rw [if_neg (by
    intro hcon
    exact hpne (List.isEmpty_iff.mp hcon))]
  rw [stableSort_nat_id hsorted]
  rw [List.dedup_eq_self.mpr (keys_nodup_of_pairwise hets_pair)]
  rw [stableSort_nat_id (List.pairwise_map.mpr hets_pair)]
  rw [hlen]
  have hpages_eq : (pageNums.map fun pn =>
      (⟨pn, ((buildElementTypesW protoElements config.module.elementCount).map
        Prod.fst).flatMap fun i =>
          (getEventDescriptors pe
            (elementTypeOrButton
              (lookupIdxLast
                (buildElementTypesW protoElements config.module.elementCount)) i)).map
            fun d =>
              (⟨i, d.value,
                (overrideLookup
                  (pageNums.flatMap fun pg =>
                    (writtenEvents
                      (lookupIdx
                        (buildElementTypesW protoElements config.module.elementCount))
                      (getDefaultActions pe)
                      (enumEvents pe
                        (buildElementTypesW protoElements config.module.elementCount)
                        (act pg))).map fun e =>
                      (⟨pg, e.elementIndex, e.eventType,
                        e.actions.map (roundTripAction humanize)⟩ : OverrideEntry))
                  pn i d.value).getD
                  ((getDefaultActions pe
                    (elementTypeOrButton
                      (lookupIdxLast
                        (buildElementTypesW protoElements config.module.elementCount)) i)
                    d.value).getD [])⟩ : EventConfig)⟩ : PageConfig)) =
      pageNums.map fun pg =>
        (⟨pg, expectedPageEvents pe
          (buildElementTypesW protoElements config.module.elementCount)
          (act pg) humanize⟩ : PageConfig) := by
    apply List.map_congr_left
    intro pn hpn
    congr 1
    rw [List.flatMap_map]
    unfold expectedPageEvents
    apply flatMap_congr_mem
    intro p hp
    have hpmem : (p.1, p.2) ∈ buildElementTypesW protoElements config.module.elementCount :=
      hp
    rw [elementTypeOrButton_idxLast hets_pair hets_types hpmem]
    apply List.map_congr_left
    intro d hd
    congr 1
    rw [override_resolve hets_pair hdesc act pageNums hnd pn hpn p.1 p.2 hpmem d hd]
    by_cases hk : keepEvent
        (lookupIdx (buildElementTypesW protoElements config.module.elementCount))
        (getDefaultActions pe) ⟨p.1, d.value, act pn p.1 d.value⟩ = true
    · rw [if_pos hk, if_pos hk]
      rfl
    · rw [if_neg hk, if_neg hk]
      rfl
  rw [hpages_eq]

/-- **C1 counterexample.** A fetch-shaped BU16 config with pages 0 and 1 where
page 1 is entirely default: the writer drops page 1 (no file, no manifest
entry), so the read-back config has page list `[0]` instead of `[0, 1]` — the
round trip loses the page rather than re-expanding it. -/
theorem config_round_trip_counterexample :
    (roundTripCounterConfig.pages.map fun p => p.pageNumber) = [0, 1] ∧
    (readModule (fun _ => none)
        (writeModule none (fun _ => none) (fun _ => none) id roundTripCounterConfig).2
        (writeModule none (fun _ => none) (fun _ => none) id roundTripCounterConfig).1).map
      (fun c => c.pages.map fun p => p.pageNumber) = .ok [0] := by
  constructor
  · decide
  · decide

/-- **C1 (amended).** For a `ModuleConfig` shaped as the fetch path produces it
(pages carry the full enumeration of the element table's event descriptors, in
order), if every page keeps at least one non-default event, then reading back
the files and manifest produced by the writer yields the same module header and
the same pages, where each kept event's actions come back humanized and
trimmed (`roundTripAction`) and each dropped (default-matching) event comes
back re-expanded to its default actions. Entirely-default pages are dropped by
the writer, so the unamended claim fails for them. -/
theorem config_read_write_round_trip (protoElements : Option (List (Option String)))
    (pe : String → Option (List ProtoEvent)) (dn : String → Option String)
    (humanize : String → String) (config : ModuleConfig) (pageNums : List Nat)
    (act : Nat → Nat → Nat → List Action)
    (hpages : config.pages = pageNums.map fun pg =>
      ⟨pg, enumEvents pe (buildElementTypesW protoElements config.module.elementCount)
        (act pg)⟩)
    (hdn : ∀ s d, dn s = some d → '\n' ∉ d.data)
    (hsorted : List.Pairwise (· < ·) pageNums) (hpne : pageNums ≠ [])
    (hlen : (buildElementTypesW protoElements config.module.elementCount).length =
      config.module.elementCount)
    (hetsne : buildElementTypesW protoElements config.module.elementCount ≠ [])
    (hdesc : ∀ p ∈ buildElementTypesW protoElements config.module.elementCount,
      WFDescriptors pe p.2)
    (hnames : ∀ p ∈ buildElementTypesW protoElements config.module.elementCount,
      ∀ d ∈ getEventDescriptors pe p.2, WFName d.name.data)
    (hWF : ∀ pg ∈ pageNums,
      ∀ p ∈ buildElementTypesW protoElements config.module.elementCount,
      ∀ d ∈ getEventDescriptors pe p.2, ∀ a ∈ act pg p.1 d.value, WFAction humanize a)
    (hkeep : ∀ pg ∈ pageNums,
      writtenEvents
        (lookupIdx (buildElementTypesW protoElements config.module.elementCount))
        (getDefaultActions pe)
        (enumEvents pe (buildElementTypesW protoElements config.module.elementCount)
          (act pg)) ≠ []) :
    readModule pe
        (writeModule protoElements pe dn humanize config).2
        (writeModule protoElements pe dn humanize config).1 =
      .ok { module := config.module
            pages := pageNums.map fun pg =>
              ⟨pg, expectedPageEvents pe
                (buildElementTypesW protoElements config.module.elementCount)
                (act pg) humanize⟩ } := by
  rw [writeModule_run protoElements pe dn humanize config pageNums act hpages hsorted
    hpne hkeep]
  exact readModule_run protoElements pe dn humanize config pageNums act hdn hsorted
    hpne hlen hetsne hdesc hnames hWF hkeep

/-- Witness for C1: the full round trip of a concrete one-element, one-page
config evaluates as the amended claim states. -/
theorem config_read_write_round_trip_witness :
    readModule (fun _ => none)
        (writeModule none (fun _ => none) (fun _ => none) id rtWitnessConfig).2
        (writeModule none (fun _ => none) (fun _ => none) id rtWitnessConfig).1 =
      .ok { module := rtWitnessConfig.module
            pages := [0].map fun pg =>
              ⟨pg, expectedPageEvents (fun _ => none) (buildElementTypesW none 1)
                (rtWitnessAct pg) id⟩ } :=
  config_read_write_round_trip none (fun _ => none) (fun _ => none) id rtWitnessConfig
    [0] rtWitnessAct rfl (fun _ _ h => nomatch h) (by decide) (by decide) (by decide)
    (by decide) (by decide) (by decide) (by decide) (by decide)

end GridCli
